import Mathlib

/-! # MinUI: the board simulation of the sliding-robot game

A shallow embedding of the board model, the level loader (`set_contents`,
`GetLinesFromFile`, `parse_data`), the movement engine (`find_robot`, `move_robot`)
and the display compiler (`write_board`) of `src/MinUI/main.cpp`, followed by the
properties proved about them.

Conventions of the embedding.
* A `char` is its character code, a natural number; an `int` that is used as a bit set
  (`square_t.contents`) is its 32-bit pattern, a natural number, and the two places where
  the width matters (`<< 24`, `~`) reduce modulo `2^32` explicitly.
* `square_t** board` is a function from row and column to a cell, `board[i][j]` is
  `board i j`; `char** board_o` likewise.
* Robot ids are `int`s and may be negative or zero, so they are integers here.
* A C string is the list of its characters, without the NUL that ends it, and a file is
  the list of the characters `fgetc` returns; a call whose behaviour C leaves undefined
  has the result `none`.
-/

set_option autoImplicit false

namespace MinUI

/-! # Part I. The program

The functions of `src/MinUI/main.cpp`, in the order of the source. -/

/-! ## Constants and types (main.cpp lines 32-58) -/

/-- The flag `(1 << 0)`. -/
def HAS_LEFT_WALL : Nat := 1 <<< 0

/-- The flag `(1 << 1)`. -/
def HAS_TOP_WALL : Nat := 1 <<< 1

/-- The flag `(1 << 2)`. -/
def HAS_RIGHT_WALL : Nat := 1 <<< 2

/-- The flag `(1 << 3)`. -/
def HAS_BOTTOM_WALL : Nat := 1 <<< 3

/-- The flag `(1 << 4)`. -/
def HAS_PIECE : Nat := 1 <<< 4

/-- The flag `(1 << 5)`. -/
def HAS_ENCODED_LETTER : Nat := 1 <<< 5

/-- The character `'|'`. -/
def WALLVERT : Nat := 124

/-- The character `'-'`. -/
def WALLHORIZ : Nat := 45

/-- The character `' '`. -/
def SPACE : Nat := 32

/-- The character `'.'`. -/
def NOPIECE : Nat := 46

/-- The number of robots, ids `1 .. MAX_ROBOTS`. -/
def MAX_ROBOTS : Int := 4

inductive KBKEY where
  | KBOTH | KBESC | KBUP | KBLEFT | KBDOWN | KBRIGHT
  deriving DecidableEq, Repr

inductive POSINFO where
  | NORMAL | WIN
  deriving DecidableEq, Repr

structure square_t where
  contents : Nat
  piece : Nat
  deriving DecidableEq, Repr

/-- The board `square_t** board`: `board i j` is `board[i][j]`, row `i`, column `j`. -/
abbrev Board := Nat → Nat → square_t

/-- The display buffer `char** board_o`. -/
abbrev Buffer := Nat → Nat → Nat

/-- The C condition `contents & FLAG`: true when the bitwise and is not zero. -/
def hasFlag (contents flag : Nat) : Bool := (contents &&& flag) != 0

/-- The C operator `~` on a 32-bit `int`, on bit patterns. -/
def int_not (n : Nat) : Nat := 2 ^ 32 - 1 - n

/-- The assignment `board[row][col] = s` of a whole cell. -/
def setCell (board : Board) (row col : Nat) (s : square_t) : Board :=
  fun i j => if i = row ∧ j = col then s else board i j

/-- The assignment `board_o[row][col] = ch`. -/
def setChar (board_o : Buffer) (row col ch : Nat) : Buffer :=
  fun p q => if p = row ∧ q = col then ch else board_o p q

/-! ## The loader: set_contents (main.cpp lines 150-199) -/

/-- The C library function `isspace`, in the C locale. -/
def isspace (ch : Nat) : Bool := ch == 32 || (decide (9 ≤ ch) && decide (ch ≤ 13))

/-- The C library function `isdigit`. -/
def isdigit (ch : Nat) : Bool := decide (48 ≤ ch) && decide (ch ≤ 57)

/-- The C library function `atoi` on the string `s`: white space is skipped, then an optional
sign and the decimal digits that follow it are read (the value is `0` if there are none).
`none` when the number is not the value of an `int`, where C leaves the behaviour
undefined. -/
def atoi (s : List Nat) : Option Int :=
  let s1 := s.dropWhile isspace
  let digits :=
    (if s1.head? = some 45 ∨ s1.head? = some 43 then s1.tail else s1).takeWhile isdigit
  let n : Nat := digits.foldl (fun acc ch => 10 * acc + (ch - 48)) 0
  let value : Int := if s1.head? = some 45 then -(n : Int) else (n : Int)
  if -(2 ^ 31 : Int) ≤ value ∧ value < 2 ^ 31 then some value else none

/-- The C library function `strtok` with the delimiter `" "`, on the string `s` at the
pointer it scans from: the line for the first call, the saved pointer for a call with `NULL`.
`none` is the null pointer, no token is left. Else the result is the token and the rest of
the string from the end of the token on: empty if the token ends the string, else it begins
with the space that `strtok` overwrites with NUL, and the saved pointer is just after that
space. -/
def strtok (s : List Nat) : Option (List Nat × List Nat) :=
  let s1 := s.dropWhile (fun ch => ch == 32)
  if s1.isEmpty then none
  else some (s1.takeWhile (fun ch => ch != 32), s1.dropWhile (fun ch => ch != 32))

/-- The characters in memory from the pointer `token` on, as `token[i]` reads them before the
next call of `strtok`: the token, the NUL that ends it, and, if a space was overwritten, the
untouched rest of the line with its own NUL. What lies behind is not part of the line. -/
def token_memory (token rest : List Nat) : List Nat :=
  token ++ 0 :: (match rest with
    | [] => []
    | _ :: saved => saved ++ [0])

/-- Lines 164-168 of `set_contents` and 506-509 of `parse_data`: the row and the column of
the linear index, with the division of C, which truncates, and the cell `&board[row][col]`.
`size_y` is the number of rows the board was allocated with, which the C code does not pass
on; `none` when the division is by zero or the cell is not one of the board: the pointer is
then not a pointer to a cell. -/
def row_major (size_x size_y : Nat) (index : Int) : Option (Nat × Nat) :=
  if size_x = 0 then none
  else
    let row := Int.tdiv index size_x
    let col := index - row * size_x
    if 0 ≤ row ∧ row < size_y ∧ 0 ≤ col ∧ col < size_x then some (row.toNat, col.toNat)
    else none

/-- Lines 175-177 of `set_contents`, the loop over `i`: `memory` is what `token[i]` reads,
`none` when a read goes behind the line. -/
def set_contents_walls (memory : List Nat) (row col : Nat) : List Nat → Board → Option Board
  | [], board => some board
  | i :: rest, board =>
    match memory[i]? with
    | none => none
    | some ch =>
      set_contents_walls memory row col rest
        (if ch = 49 then
          setCell board row col
            { board row col with contents := (board row col).contents ||| (1 <<< i) }
        else board)

/-- The loop of lines 157-198 of `set_contents`. `token` is the result of the last call of
`strtok`, `square` the cell the pointer `square` points to (`none` for `NULL`). The fuel is
the number of tokens the loop may still take; `none` is undefined behaviour, or no fuel. -/
def set_contents_loop (size_x size_y dest_char : Nat) :
    Nat → Option (List Nat × List Nat) → Nat → Option (Nat × Nat) → Board → Option Board
  | 0, _, _, _, _ => none
  | _ + 1, none, _, _, board => some board
  | fuel + 1, some (token, rest), colIndx, square, board =>
    match colIndx with
    | 0 =>
      match atoi token with
      | none => none
      | some index =>
        match row_major size_x size_y index with
        | none => none
        | some cell =>
          set_contents_loop size_x size_y dest_char fuel (strtok rest.tail) (colIndx + 1)
            (some cell) board
    | 1 =>
      match square with
      | none => none
      | some (row, col) =>
        match set_contents_walls (token_memory token rest) row col (List.range 4) board with
        | none => none
        | some board1 =>
          set_contents_loop size_x size_y dest_char fuel (strtok rest.tail) (colIndx + 1)
            square board1
    | 2 =>
      match square with
      | none => none
      | some (row, col) =>
        set_contents_loop size_x size_y dest_char fuel (strtok rest.tail) (colIndx + 1)
          square
          (if token.head? = some dest_char then
            setCell board row col
              { contents := (board row col).contents ||| HAS_PIECE, piece := dest_char }
          else board)
    | _ =>
      set_contents_loop size_x size_y dest_char fuel (strtok rest.tail) (colIndx + 1)
        square board

/-- The function `set_contents`, lines 150-199, on the string `line`. The fuel is more than
the number of tokens of the line (see `set_contents_fuel`). `size_y` is the number of
rows of the board, as for `row_major`. -/
def set_contents (board : Board) (size_x size_y : Nat) (line : List Nat) (dest_char : Nat) :
    Option Board :=
  set_contents_loop size_x size_y dest_char (line.length + 1) (strtok line) 0 none board

/-! ## The display compiler (main.cpp lines 202-305) -/

/-- The function `calc_board_display_sizes`: each size is doubled and incremented. -/
def calc_board_display_sizes (size_x size_y : Nat) : Nat × Nat :=
  ((size_x <<< 1) + 1, (size_y <<< 1) + 1)

/-- The buffer `alloc_board_display` returns: every character a space. -/
def alloc_board_display : Buffer := fun _ _ => SPACE

/-- Lines 258-270 of `write_board`: the left wall of a cell. -/
def write_left_wall (square : square_t) (j board_i board_j : Nat) (board_o : Buffer) : Buffer :=
  if j = 0 ∨ hasFlag square.contents HAS_LEFT_WALL = true then
    let board_o1 := setChar board_o board_i (board_j - 1) WALLVERT
    if j = 0 then
      setChar (setChar board_o1 (board_i - 1) (board_j - 1) WALLVERT)
        (board_i + 1) (board_j - 1) WALLVERT
    else board_o1
  else if board_o board_i (board_j - 1) ≠ WALLVERT then
    setChar board_o board_i (board_j - 1) SPACE
  else board_o

/-- Lines 272-285 of `write_board`: the right wall of a cell. -/
def write_right_wall (square : square_t) (size_x j board_i board_j : Nat) (board_o : Buffer) :
    Buffer :=
  let boardRightWallReached : Bool := decide ((j : Int) = (size_x : Int) - 1)
  if boardRightWallReached = true ∨ hasFlag square.contents HAS_RIGHT_WALL = true then
    let board_o1 := setChar board_o board_i (board_j + 1) WALLVERT
    if boardRightWallReached = true then
      setChar (setChar board_o1 (board_i - 1) (board_j + 1) WALLVERT)
        (board_i + 1) (board_j + 1) WALLVERT
    else board_o1
  else if board_o board_i (board_j + 1) ≠ WALLVERT then
    setChar board_o board_i (board_j + 1) SPACE
  else board_o

/-- Lines 287-291 of `write_board`: the top wall of a cell. -/
def write_top_wall (square : square_t) (i board_i board_j : Nat) (board_o : Buffer) : Buffer :=
  if i = 0 ∨ hasFlag square.contents HAS_TOP_WALL = true then
    setChar board_o (board_i - 1) board_j WALLHORIZ
  else if board_o (board_i - 1) board_j ≠ WALLHORIZ then
    setChar board_o (board_i - 1) board_j SPACE
  else board_o

/-- Lines 293-297 of `write_board`: the bottom wall of a cell. -/
def write_bottom_wall (square : square_t) (size_y i board_i board_j : Nat) (board_o : Buffer) :
    Buffer :=
  if (i : Int) = (size_y : Int) - 1 ∨ hasFlag square.contents HAS_BOTTOM_WALL = true then
    setChar board_o (board_i + 1) board_j WALLHORIZ
  else if board_o (board_i + 1) board_j ≠ WALLHORIZ then
    setChar board_o (board_i + 1) board_j SPACE
  else board_o

/-- Lines 299-303 of `write_board`: the glyph of the cell. -/
def write_piece (square : square_t) (board_i board_j : Nat) (board_o : Buffer) : Buffer :=
  if hasFlag square.contents HAS_PIECE = true then
    setChar board_o board_i board_j square.piece
  else
    setChar board_o board_i board_j NOPIECE

/-- The body of the loops of `write_board` for the cell `(i, j)` (lines 249-303). -/
def write_board_cell (board : Board) (size_x size_y : Nat) (board_o : Buffer) (i j : Nat) :
    Buffer :=
  let square := board i j
  let board_i := (i <<< 1) + 1
  let board_j := (j <<< 1) + 1
  let board_o1 := write_left_wall square j board_i board_j board_o
  let board_o2 := write_right_wall square size_x j board_i board_j board_o1
  let board_o3 := write_top_wall square i board_i board_j board_o2
  let board_o4 := write_bottom_wall square size_y i board_i board_j board_o3
  write_piece square board_i board_j board_o4

/-- The function `write_board`: the cells in row-major order. -/
def write_board (board : Board) (board_o : Buffer) (size_x size_y : Nat) : Buffer :=
  (List.range size_y).foldl
    (fun bo i =>
      (List.range size_x).foldl (fun bo1 j => write_board_cell board size_x size_y bo1 i j) bo)
    board_o

/-! ## The loader: GetLinesFromFile and parse_data (main.cpp lines 383-523) -/

/-- The C string held by a character array: the characters before the first NUL. -/
def c_str (buffer : List Nat) : List Nat := buffer.takeWhile (fun ch => ch != 0)

/-- The C library function `strlen`. -/
def strlen (buffer : List Nat) : Nat := (c_str buffer).length

/-- The array `char** v` of `GetLinesFromFile`: `v i` is the string `v[i]` points to, `none`
for a null pointer. -/
abbrev Lines := Nat → Option (List Nat)

/-- The array `calloc` returns: every entry is the null pointer. -/
def calloc_lines : Lines := fun _ => none

/-- The assignment `v[r] = buffer`, where `buffer` holds the string `line`. -/
def setLine (v : Lines) (r : Nat) (line : List Nat) : Lines :=
  fun i => if i = r then some line else v i

/-- The loop of lines 409-444 of `GetLinesFromFile`. The first argument is what `fgetc` has
still to return, character by character, the empty list standing for `EOF`; `buffer` is
`buffer[0 .. c-1]`, so that the counter `c` is its length, and `buffer ++ [0]` is the array
after `buffer[c] = 0`. The two `realloc` calls keep what the arrays hold, and every
allocation is taken to succeed. The result is the array `v` and the counter `r`. -/
def GetLinesFromFile_loop : List Nat → List Nat → Lines → Nat → Lines × Nat
  | [], buffer, v, r =>
    if strlen (buffer ++ [0]) > 0 then (setLine v r (c_str (buffer ++ [0])), r + 1)
    else (v, r)
  | ch :: file, buffer, v, r =>
    if ch = 10 ∨ ch = 13 then
      if strlen (buffer ++ [0]) > 0 then
        GetLinesFromFile_loop file [] (setLine v r (c_str (buffer ++ [0]))) (r + 1)
      else GetLinesFromFile_loop file [] v r
    else GetLinesFromFile_loop file (buffer ++ [ch]) v r

/-- The function `GetLinesFromFile`, lines 383-448. The argument is what `fopen` gives: `none`
when the file cannot be opened, else the characters of the file. The result is `none` for
the null pointer, else the array with `maxrows`. -/
def GetLinesFromFile (file : Option (List Nat)) : Option (Lines × Nat) :=
  match file with
  | none => none
  | some content => some (GetLinesFromFile_loop content [] calloc_lines 0)

/-- The entry `lines[i]` for an `int` index: nothing is read below the array. -/
def lineAt (lines : Lines) (i : Int) : Option (List Nat) :=
  if 0 ≤ i then lines i.toNat else none

/-- The loop of lines 499-500 of `parse_data`, over the values `indices` of `i`:
`set_contents` on each line in turn. `none` when a line is the null pointer or
`set_contents` is undefined. -/
def parse_data_records (lines : Lines) (size_x size_y dest_letter : Nat) :
    List Nat → Board → Option Board
  | [], board => some board
  | i :: rest, board =>
    match lines i with
    | none => none
    | some line =>
      match set_contents board size_x size_y line dest_letter with
      | none => none
      | some board1 => parse_data_records lines size_x size_y dest_letter rest board1

/-- Lines 505-519 of `parse_data`, the body of the robot loop: the robot is placed on the
cell of the index the line gives. `buffer[0]` is the digit of `robot`. -/
def place_robot (board : Board) (size_x size_y : Nat) (line : Option (List Nat))
    (robot : Nat) : Option Board :=
  match line with
  | none => none
  | some s =>
    match atoi s with
    | none => none
    | some index =>
      match row_major size_x size_y index with
      | none => none
      | some (row, col) =>
        some (setCell board row col
          { contents := (board row col).contents ||| HAS_PIECE, piece := 48 + robot })

/-- The loop of lines 503-520 of `parse_data`: its `k`-th round, `k` counted from `0`, has
`i = maxrows - MAX_ROBOTS + k` and `robot = 1 + k`, and there are `MAX_ROBOTS` rounds. -/
def parse_data_robots (lines : Lines) (maxrows size_x size_y : Nat) :
    List Nat → Board → Option Board
  | [], board => some board
  | k :: rest, board =>
    match place_robot board size_x size_y
        (lineAt lines ((maxrows : Int) - MAX_ROBOTS + (k : Int))) (1 + k) with
    | none => none
    | some board1 => parse_data_robots lines maxrows size_x size_y rest board1

/-- The function `parse_data`, lines 481-523, with `enableRandom = 0` as in the source. The
result is the board with `maxrows`, `dest_letter` and `origin_robot`; `none` when the call
does not return (`exit` after `GetLinesFromFile` failed) or is undefined. The first loop runs
`i` from `2` while `i < maxrows - 4`. `size_y` is the number of rows of the board, as for
`row_major`. -/
def parse_data (file : Option (List Nat)) (board : Board) (size_x size_y : Nat) :
    Option (Board × Nat × Nat × Int) :=
  match GetLinesFromFile file with
  | none => none
  | some (lines, maxrows) =>
    let dest_letter := 77
    let origin_robot := 2
    match parse_data_records lines size_x size_y dest_letter
        (List.range' 2 (maxrows - 4 - 2)) board with
    | none => none
    | some board1 =>
      match parse_data_robots lines maxrows size_x size_y (List.range MAX_ROBOTS.toNat)
          board1 with
      | none => none
      | some board2 => some (board2, maxrows, dest_letter, origin_robot)

/-! ## find_robot (main.cpp lines 545-557) -/

/-- The scan of `find_robot`: rows `i` from `0`, columns `j` from `0`, the first cell with the
piece flag and the glyph `'0' + robot` gives `(posx, posy) = (j, i)`; `none` is the `NULL`
result, which leaves `posx` and `posy` unassigned. -/
def find_robot (robot : Int) (board : Board) (size_x size_y : Nat) : Option (Nat × Nat) :=
  (List.range size_y).findSome? fun i =>
    (List.range size_x).findSome? fun j =>
      if hasFlag (board i j).contents HAS_PIECE && decide (((board i j).piece : Int) = 48 + robot)
      then some (j, i) else none

/-! ## move_robot (main.cpp lines 560-652) -/

/-- How the `for (;;)` loop of `move_robot` is left. -/
inductive SlideEnd where
  /-- The `return WIN` of line 614, with the board as it is then. -/
  | won (board : Board)
  /-- A `break`, with the board and `curx`, `cury` as they are then. -/
  | stopped (board : Board) (curx cury : Nat)

/-- The condition of lines 583-586: the current cell has the wall facing the direction. -/
def wall_ahead (direction : KBKEY) (contents : Nat) : Bool :=
  (decide (direction = KBKEY.KBUP) && hasFlag contents HAS_TOP_WALL)
    || (decide (direction = KBKEY.KBDOWN) && hasFlag contents HAS_BOTTOM_WALL)
    || (decide (direction = KBKEY.KBLEFT) && hasFlag contents HAS_LEFT_WALL)
    || (decide (direction = KBKEY.KBRIGHT) && hasFlag contents HAS_RIGHT_WALL)

/-- The condition of lines 601-604: the next cell has the wall facing back. -/
def wall_behind (direction : KBKEY) (contents : Nat) : Bool :=
  (decide (direction = KBKEY.KBUP) && hasFlag contents HAS_BOTTOM_WALL)
    || (decide (direction = KBKEY.KBDOWN) && hasFlag contents HAS_TOP_WALL)
    || (decide (direction = KBKEY.KBLEFT) && hasFlag contents HAS_RIGHT_WALL)
    || (decide (direction = KBKEY.KBRIGHT) && hasFlag contents HAS_LEFT_WALL)

/-- Lines 590-594, `nextx`. -/
def next_x (direction : KBKEY) (curx : Nat) : Int :=
  if direction = KBKEY.KBLEFT ∨ direction = KBKEY.KBRIGHT then
    (curx : Int) + (if direction = KBKEY.KBLEFT then -1 else 1)
  else curx

/-- Lines 590-594, `nexty`. -/
def next_y (direction : KBKEY) (cury : Nat) : Int :=
  if direction = KBKEY.KBLEFT ∨ direction = KBKEY.KBRIGHT then cury
  else if direction = KBKEY.KBUP ∨ direction = KBKEY.KBDOWN then
    (cury : Int) + (if direction = KBKEY.KBUP then -1 else 1)
  else cury

/-- The loop of lines 580-629. `x`, `y` is the cell `r` points to, so `r->piece` is
`(board y x).piece`. Each iteration that does not leave the loop spends one unit of fuel;
`none` means the fuel ran out. -/
def move_robot_loop (robot : Int) (direction : KBKEY) (size_x size_y : Nat) (winningPos : Nat)
    (winningRobot : Int) (x y : Nat) : Nat → Board → Nat → Nat → Option SlideEnd
  | 0, _, _, _ => none
  | fuel + 1, board, curx, cury =>
    if wall_ahead direction (board cury curx).contents then
      some (SlideEnd.stopped board curx cury)
    else
      let nextx := next_x direction curx
      let nexty := next_y direction cury
      if nextx < 0 ∨ nextx ≥ (size_x : Int) ∨ nexty < 0 ∨ nexty ≥ (size_y : Int) then
        some (SlideEnd.stopped board curx cury)
      else
        let nx := nextx.toNat
        let ny := nexty.toNat
        if wall_behind direction (board ny nx).contents then
          some (SlideEnd.stopped board curx cury)
        else if hasFlag (board ny nx).contents HAS_PIECE
            && decide ((board ny nx).piece ≠ (board y x).piece) then
          if (board ny nx).piece = winningPos then
            if robot = winningRobot then
              some (SlideEnd.won board)
            else
              let board1 := setCell board ny nx
                { board ny nx with
                  contents := (board ny nx).contents |||
                    (HAS_ENCODED_LETTER ||| ((board ny nx).piece <<< 24) % 2 ^ 32) }
              some (SlideEnd.stopped board1 nx ny)
          else
            some (SlideEnd.stopped board curx cury)
        else
          move_robot_loop robot direction size_x size_y winningPos winningRobot x y
            fuel board nx ny

/-- Lines 631-649: the swap of the positions when the robot has moved. -/
def move_robot_commit (board : Board) (x y curx cury : Nat) : Board :=
  if curx ≠ x ∨ cury ≠ y then
    let board1 := setCell board cury curx { board cury curx with piece := (board y x).piece }
    let board2 := setCell board1 cury curx
      { board1 cury curx with contents := (board1 cury curx).contents ||| HAS_PIECE }
    if hasFlag (board2 y x).contents HAS_ENCODED_LETTER then
      let board3 := setCell board2 y x
        { board2 y x with piece := ((board2 y x).contents >>> 24) % 256 }
      setCell board3 y x
        { board3 y x with
          contents := (board3 y x).contents &&& (int_not HAS_ENCODED_LETTER &&& 0x00FFFFFF) }
    else
      setCell board2 y x
        { board2 y x with contents := (board2 y x).contents &&& int_not HAS_PIECE }
  else board

/-- The function `move_robot`. The result `none` stands for the two ways the C function has
no defined result: `find_robot` returned `NULL` (the test of line 573 looks at `robot`, which
is not zero there, so `x`, `y` are read unassigned and `r` is dereferenced), or the loop ran
out of fuel (which `move_robot_loop_total` excludes). -/
def move_robot (robot : Int) (direction : KBKEY) (board : Board) (size_x size_y : Nat)
    (winningPos : Nat) (winningRobot : Int) : Option (POSINFO × Board) :=
  if robot ≤ 0 ∨ robot > MAX_ROBOTS then some (POSINFO.NORMAL, board)
  else if direction ≠ KBKEY.KBUP ∧ direction ≠ KBKEY.KBLEFT ∧ direction ≠ KBKEY.KBRIGHT
      ∧ direction ≠ KBKEY.KBDOWN then some (POSINFO.NORMAL, board)
  else
    let r := find_robot robot board size_x size_y
    if robot = 0 then some (POSINFO.NORMAL, board)
    else
      match r with
      | none => none
      | some (x, y) =>
        match move_robot_loop robot direction size_x size_y winningPos winningRobot x y
            (size_x + size_y) board x y with
        | none => none
        | some (SlideEnd.won board1) => some (POSINFO.WIN, board1)
        | some (SlideEnd.stopped board1 curx cury) =>
          some (POSINFO.NORMAL, move_robot_commit board1 x y curx cury)

/-! # Part II. The vocabulary of the properties -/

/-! ## Cells, steps and slides -/

/-- A direction the engine accepts. -/
def ValidDir (d : KBKEY) : Prop :=
  d = KBKEY.KBUP ∨ d = KBKEY.KBLEFT ∨ d = KBKEY.KBDOWN ∨ d = KBKEY.KBRIGHT

/-- The wall flag of a cell that faces the direction of travel. -/
def facingFlag : KBKEY → Nat
  | KBKEY.KBUP => HAS_TOP_WALL
  | KBKEY.KBDOWN => HAS_BOTTOM_WALL
  | KBKEY.KBLEFT => HAS_LEFT_WALL
  | KBKEY.KBRIGHT => HAS_RIGHT_WALL
  | _ => 0

/-- The wall flag of a cell that faces back against the direction of travel. -/
def backFlag : KBKEY → Nat
  | KBKEY.KBUP => HAS_BOTTOM_WALL
  | KBKEY.KBDOWN => HAS_TOP_WALL
  | KBKEY.KBLEFT => HAS_RIGHT_WALL
  | KBKEY.KBRIGHT => HAS_LEFT_WALL
  | _ => 0

/-- Cells are written `(x, y)`, column first, as `posx`, `posy` in the source; the cell of
`c` on the board is `board c.2 c.1`. -/
def cellOf (board : Board) (c : Nat × Nat) : square_t := board c.2 c.1

/-- The cell lies inside the `size_x` by `size_y` grid. -/
def InGrid (size_x size_y : Nat) (c : Nat × Nat) : Prop := c.1 < size_x ∧ c.2 < size_y

/-- The cell `c'` is the one next to `c` in direction `d`. -/
def Neighbour (d : KBKEY) (c c' : Nat × Nat) : Prop :=
  match d with
  | KBKEY.KBUP => c'.1 = c.1 ∧ c'.2 + 1 = c.2
  | KBKEY.KBDOWN => c'.1 = c.1 ∧ c'.2 = c.2 + 1
  | KBKEY.KBLEFT => c'.1 + 1 = c.1 ∧ c'.2 = c.2
  | KBKEY.KBRIGHT => c'.1 = c.1 + 1 ∧ c'.2 = c.2
  | _ => False

/-- A unit step from `c` to `c'` in direction `d` that stays inside the grid and crosses no
wall: the cell left has no wall flag facing `d`, the cell entered has none facing back. -/
def Step (board : Board) (d : KBKEY) (size_x size_y : Nat) (c c' : Nat × Nat) : Prop :=
  Neighbour d c c' ∧ InGrid size_x size_y c'
    ∧ hasFlag (cellOf board c).contents (facingFlag d) = false
    ∧ hasFlag (cellOf board c').contents (backFlag d) = false

/-- The cell holds a piece whose glyph is not `glyph` (another piece, for the robot with
that glyph). -/
def OtherPiece (board : Board) (glyph : Nat) (c : Nat × Nat) : Prop :=
  hasFlag (cellOf board c).contents HAS_PIECE = true ∧ (cellOf board c).piece ≠ glyph

/-- A unit step onto a cell that is free for the robot with glyph `glyph`: it holds no
other piece. -/
def FreeStep (board : Board) (d : KBKEY) (size_x size_y : Nat) (glyph : Nat)
    (c c' : Nat × Nat) : Prop :=
  Step board d size_x size_y c c' ∧ ¬ OtherPiece board glyph c'

/-- A slide over free cells only, of any number of steps. -/
def FreePath (board : Board) (d : KBKEY) (size_x size_y : Nat) (glyph : Nat) :
    Nat × Nat → Nat × Nat → Prop :=
  Relation.ReflTransGen (FreeStep board d size_x size_y glyph)

/-- A unit step that crosses no wall onto a cell without the piece flag. -/
def ClearStep (board : Board) (d : KBKEY) (size_x size_y : Nat) (c c2 : Nat × Nat) : Prop :=
  Step board d size_x size_y c c2 ∧ hasFlag (cellOf board c2).contents HAS_PIECE = false

/-- The cell holds robot `k`: the piece flag is set and the glyph is `'0' + k`. -/
def HoldsRobot (board : Board) (c : Nat × Nat) (k : Int) : Prop :=
  hasFlag (cellOf board c).contents HAS_PIECE = true ∧ ((cellOf board c).piece : Int) = 48 + k

/-- The character `'0' + robot` of a robot id. -/
def glyphOf (robot : Int) : Nat := (48 + robot).toNat

/-- Every robot glyph is on exactly one cell of the grid. -/
def UniqueRobots (board : Board) (size_x size_y : Nat) : Prop :=
  ∀ k : Int, 1 ≤ k → k ≤ MAX_ROBOTS →
    ∃ c, InGrid size_x size_y c ∧ HoldsRobot board c k
      ∧ ∀ c2, InGrid size_x size_y c2 → HoldsRobot board c2 k → c2 = c

/-- The slide of the robot with glyph `glyph` from `s` reaches the cell of the letter: over
free cells only and with no wall in the way it comes to a cell with the piece flag and the
glyph `winningPos`. -/
def ReachesLetter (board : Board) (d : KBKEY) (size_x size_y glyph winningPos : Nat)
    (s : Nat × Nat) : Prop :=
  ∃ t c, FreePath board d size_x size_y glyph s t ∧ Step board d size_x size_y t c
    ∧ hasFlag (cellOf board c).contents HAS_PIECE = true ∧ (cellOf board c).piece = winningPos

/-- The final cell is blocked: one more step in the direction cannot be made. -/
def BlockedAhead (board : Board) (d : KBKEY) (size_x size_y glyph : Nat) (c : Nat × Nat) :
    Prop :=
  hasFlag (cellOf board c).contents (facingFlag d) = true
    ∨ (∀ n, Neighbour d c n → ¬ InGrid size_x size_y n)
    ∨ (∃ n, Neighbour d c n ∧ InGrid size_x size_y n
        ∧ (hasFlag (cellOf board n).contents (backFlag d) = true ∨ OtherPiece board glyph n))

instance (size_x size_y : Nat) (c : Nat × Nat) : Decidable (InGrid size_x size_y c) := by
  unfold InGrid
  infer_instance

instance (d : KBKEY) (c c2 : Nat × Nat) : Decidable (Neighbour d c c2) := by
  unfold Neighbour
  cases d <;> infer_instance

instance (board : Board) (d : KBKEY) (size_x size_y : Nat) (c c2 : Nat × Nat) :
    Decidable (Step board d size_x size_y c c2) := by
  unfold Step
  infer_instance

instance (board : Board) (glyph : Nat) (c : Nat × Nat) : Decidable (OtherPiece board glyph c) := by
  unfold OtherPiece
  infer_instance

instance (board : Board) (d : KBKEY) (size_x size_y glyph : Nat) (c c2 : Nat × Nat) :
    Decidable (FreeStep board d size_x size_y glyph c c2) := by
  unfold FreeStep
  infer_instance

instance (board : Board) (c : Nat × Nat) (k : Int) : Decidable (HoldsRobot board c k) := by
  unfold HoldsRobot
  infer_instance

/-! ## What the loop and the swap do -/

/-- The letter cell after line 619: the flag and the glyph are stored in `contents`. -/
def stash (s : square_t) : square_t :=
  { s with contents := s.contents ||| (HAS_ENCODED_LETTER ||| (s.piece <<< 24) % 2 ^ 32) }

/-- The cell the robot leaves, after lines 639-648. -/
def vacated (s : square_t) : square_t :=
  if hasFlag s.contents HAS_ENCODED_LETTER then
    { contents := s.contents &&& (int_not HAS_ENCODED_LETTER &&& 0x00FFFFFF),
      piece := (s.contents >>> 24) % 256 }
  else
    { contents := s.contents &&& int_not HAS_PIECE, piece := s.piece }

/-- The cell the robot enters, after lines 635-636. -/
def entered (s : square_t) (glyph : Nat) : square_t :=
  { contents := s.contents ||| HAS_PIECE, piece := glyph }

/-- The board after the robot of cell `s` has been moved to the cell `f`, whose contents
were `fcell` when the swap began: nothing when `f` is `s`. -/
def relocate (board : Board) (s f : Nat × Nat) (fcell : square_t) : Board :=
  if f = s then board
  else setCell (setCell board f.2 f.1 (entered fcell (cellOf board s).piece)) s.2 s.1
    (vacated (cellOf board s))

/-- The result of `move_robot` read off the way its loop is left. -/
def finish (x y : Nat) : SlideEnd → POSINFO × Board
  | SlideEnd.won board => (POSINFO.WIN, board)
  | SlideEnd.stopped board curx cury => (POSINFO.NORMAL, move_robot_commit board x y curx cury)

/-- What the loop of `move_robot` does, told from the board: it follows a free path from the
start to a cell `t` and is left there in one of four ways. -/
inductive LoopSpec (board : Board) (d : KBKEY) (size_x size_y : Nat) (winningPos : Nat)
    (robot winningRobot : Int) (glyph : Nat) (start : Nat × Nat) : SlideEnd → Prop where
  | blocked (t : Nat × Nat) (hpath : FreePath board d size_x size_y glyph start t)
      (hno : ∀ c, ¬ Step board d size_x size_y t c) :
      LoopSpec board d size_x size_y winningPos robot winningRobot glyph start
        (SlideEnd.stopped board t.1 t.2)
  | piece (t c : Nat × Nat) (hpath : FreePath board d size_x size_y glyph start t)
      (hstep : Step board d size_x size_y t c) (hocc : OtherPiece board glyph c)
      (hne : (cellOf board c).piece ≠ winningPos) :
      LoopSpec board d size_x size_y winningPos robot winningRobot glyph start
        (SlideEnd.stopped board t.1 t.2)
  | win (t c : Nat × Nat) (hpath : FreePath board d size_x size_y glyph start t)
      (hstep : Step board d size_x size_y t c) (hocc : OtherPiece board glyph c)
      (heq : (cellOf board c).piece = winningPos) (hrobot : robot = winningRobot) :
      LoopSpec board d size_x size_y winningPos robot winningRobot glyph start
        (SlideEnd.won board)
  | letter (t c : Nat × Nat) (hpath : FreePath board d size_x size_y glyph start t)
      (hstep : Step board d size_x size_y t c) (hocc : OtherPiece board glyph c)
      (heq : (cellOf board c).piece = winningPos) (hrobot : robot ≠ winningRobot) :
      LoopSpec board d size_x size_y winningPos robot winningRobot glyph start
        (SlideEnd.stopped (setCell board c.2 c.1 (stash (cellOf board c))) c.1 c.2)

/-- The number of iterations the loop can still make from a cell. -/
def remaining (d : KBKEY) (size_x size_y x y : Nat) : Nat :=
  match d with
  | KBKEY.KBRIGHT => size_x - x
  | KBKEY.KBLEFT => x + 1
  | KBKEY.KBDOWN => size_y - y
  | KBKEY.KBUP => y + 1
  | _ => 0

/-- A cell from which no free step leaves. -/
def Terminal (board : Board) (d : KBKEY) (size_x size_y glyph : Nat) (t : Nat × Nat) : Prop :=
  ∀ c, ¬ FreeStep board d size_x size_y glyph t c

/-- One of the four wall flags. -/
def IsWallFlag (f : Nat) : Prop :=
  f = HAS_LEFT_WALL ∨ f = HAS_TOP_WALL ∨ f = HAS_RIGHT_WALL ∨ f = HAS_BOTTOM_WALL

/-- The cell `t` lies on the side of `s` the direction points to, or is `s`. -/
def Ahead (d : KBKEY) (s t : Nat × Nat) : Prop :=
  match d with
  | KBKEY.KBUP => t.2 ≤ s.2
  | KBKEY.KBDOWN => s.2 ≤ t.2
  | KBKEY.KBLEFT => t.1 ≤ s.1
  | KBKEY.KBRIGHT => s.1 ≤ t.1
  | _ => True

/-! ## How the display compiler acts on a position -/

/-- What the soft write of a wall position does to a character: it blanks what is not the
wall glyph `w`. -/
def keep_wall (w v : Nat) : Nat := if v ≠ w then SPACE else v

/-- The wall glyph that belongs to a column of the buffer. -/
def wallGlyph (q : Nat) : Nat := if q % 2 = 0 then WALLVERT else WALLHORIZ

/-- The glyph `write_board` puts for the cell `(i, j)`. -/
def cellGlyph (board : Board) (i j : Nat) : Nat :=
  if hasFlag (board i j).contents HAS_PIECE = true then (board i j).piece else NOPIECE

/-- The character an unconditional write puts at `(p, q)`: the glyph of the cell at a
centre, the wall glyph elsewhere. -/
def valAt (board : Board) (p q : Nat) : Nat :=
  if p % 2 = 1 ∧ q % 2 = 1 then cellGlyph board (p / 2) (q / 2) else wallGlyph q

/-- A buffer transformer acts at `(p, q)` in one of three ways, fixed by the propositions
`F` and `S`: it forces the value `val`, or else it softly keeps the wall glyph `w`, or else it
leaves the character. -/
def Acts (T : Buffer → Buffer) (F S : Prop) (val w p q : Nat) : Prop :=
  ∀ bo : Buffer, (F ∧ T bo p q = val) ∨ (¬ F ∧ S ∧ T bo p q = keep_wall w (bo p q))
    ∨ (¬ F ∧ ¬ S ∧ T bo p q = bo p q)

/-- The positions where the cell `(i, j)` writes unconditionally: a wall position with the
flag or at the edge of the board, the corners beside the first and the last column, and the
centre. -/
def CellForces (board : Board) (size_x size_y i j p q : Nat) : Prop :=
  (((((((j = 0 ∨ hasFlag (board i j).contents HAS_LEFT_WALL = true) ∧ p = 2 * i + 1 ∧ q = 2 * j)
        ∨ (j = 0 ∧ (p = 2 * i ∨ p = 2 * i + 2) ∧ q = 2 * j))
      ∨ ((((j : Int) = (size_x : Int) - 1 ∨ hasFlag (board i j).contents HAS_RIGHT_WALL = true)
          ∧ p = 2 * i + 1 ∧ q = 2 * j + 2)
        ∨ ((j : Int) = (size_x : Int) - 1 ∧ (p = 2 * i ∨ p = 2 * i + 2) ∧ q = 2 * j + 2)))
    ∨ ((i = 0 ∨ hasFlag (board i j).contents HAS_TOP_WALL = true) ∧ p = 2 * i ∧ q = 2 * j + 1))
    ∨ (((i : Int) = (size_y : Int) - 1 ∨ hasFlag (board i j).contents HAS_BOTTOM_WALL = true)
        ∧ p = 2 * i + 2 ∧ q = 2 * j + 1))
    ∨ (p = 2 * i + 1 ∧ q = 2 * j + 1))

/-- The four wall positions of the cell `(i, j)`, which it writes softly when it does not
write them unconditionally. -/
def CellSoft (i j p q : Nat) : Prop :=
  ((((p = 2 * i + 1 ∧ q = 2 * j) ∨ (p = 2 * i + 1 ∧ q = 2 * j + 2))
    ∨ (p = 2 * i ∧ q = 2 * j + 1)) ∨ (p = 2 * i + 2 ∧ q = 2 * j + 1)) ∨ False

/-- A cell of the board forces the position. -/
def Forced (board : Board) (size_x size_y p q : Nat) : Prop :=
  ∃ i ∈ List.range size_y, ∃ j ∈ List.range size_x, CellForces board size_x size_y i j p q

/-- A cell of the board writes the position softly. -/
def Soft (size_x size_y p q : Nat) : Prop :=
  ∃ i ∈ List.range size_y, ∃ j ∈ List.range size_x, CellSoft i j p q

/-! ## Scenario boards and buffers -/

/-- The 3 x 3 scenario board: no wall flags, robot 1 at index 0, the letter `'A'` at index 8. -/
def board3 : Board := fun i j =>
  if i = 0 ∧ j = 0 then ⟨HAS_PIECE, 49⟩
  else if i = 2 ∧ j = 2 then ⟨HAS_PIECE, 65⟩
  else ⟨0, 0⟩

/-- The scenario board after robot 1 has slid right: robot 1 at index 2, its glyph left
behind without the piece flag at index 0, the letter `'A'` at index 8. -/
def board3b : Board := fun i j =>
  if i = 0 ∧ j = 0 then ⟨0, 49⟩
  else if i = 0 ∧ j = 2 then ⟨HAS_PIECE, 49⟩
  else if i = 2 ∧ j = 2 then ⟨HAS_PIECE, 65⟩
  else ⟨0, 0⟩

/-- The wall scenario: robot 1 at `(0,0)` on a cell with the right wall flag. -/
def boardWall : Board := fun i j =>
  if i = 0 ∧ j = 0 then ⟨HAS_RIGHT_WALL ||| HAS_PIECE, 49⟩ else ⟨0, 0⟩

/-- A board with the four robots in the corners and the letter `'A'` in the middle. -/
def boardFour : Board := fun i j =>
  if i = 0 ∧ j = 0 then ⟨HAS_PIECE, 49⟩
  else if i = 0 ∧ j = 2 then ⟨HAS_PIECE, 50⟩
  else if i = 1 ∧ j = 1 then ⟨HAS_PIECE, 65⟩
  else if i = 2 ∧ j = 0 then ⟨HAS_PIECE, 51⟩
  else if i = 2 ∧ j = 2 then ⟨HAS_PIECE, 52⟩
  else ⟨0, 0⟩

/-- The board `boardFour` after robot 1 has slid right, to the cell above the letter. -/
def boardFourB : Board := fun i j =>
  if i = 0 ∧ j = 0 then ⟨0, 49⟩
  else if i = 0 ∧ j = 1 then ⟨HAS_PIECE, 49⟩
  else if i = 0 ∧ j = 2 then ⟨HAS_PIECE, 50⟩
  else if i = 1 ∧ j = 1 then ⟨HAS_PIECE, 65⟩
  else if i = 2 ∧ j = 0 then ⟨HAS_PIECE, 51⟩
  else if i = 2 ∧ j = 2 then ⟨HAS_PIECE, 52⟩
  else ⟨0, 0⟩

/-- The board a call of `move_robot` leaves (`dflt` if it has no result). -/
def boardAfter (m : Option (POSINFO × Board)) (dflt : Board) : Board :=
  (m.getD (POSINFO.NORMAL, dflt)).2

/-- The value a call of `move_robot` returns (`NORMAL` if it has no result). -/
def resultAfter (m : Option (POSINFO × Board)) : POSINFO :=
  (m.getD (POSINFO.NORMAL, fun _ _ => ⟨0, 0⟩)).1

/-- The board `boardFourB` after robot 1 has slid down, onto the letter. -/
def boardOnLetter : Board := boardAfter (move_robot 1 KBKEY.KBDOWN boardFourB 3 3 65 2) boardFourB

/-- The board `boardOnLetter` after robot 1 has slid down again, off the letter. -/
def boardOffLetter : Board :=
  boardAfter (move_robot 1 KBKEY.KBDOWN boardOnLetter 3 3 65 2) boardOnLetter

/-- A board like `boardFourB` whose letter cell, with the letter `'B'`, has a bit of the
stash byte set before any robot has come. -/
def boardDirty : Board := fun i j =>
  if i = 0 ∧ j = 1 then ⟨HAS_PIECE, 49⟩
  else if i = 1 ∧ j = 1 then ⟨HAS_PIECE ||| (1 <<< 24), 66⟩
  else ⟨0, 0⟩

/-- The board `boardDirty` after robot 1 has slid down, onto the letter. -/
def boardDirtyOn : Board := boardAfter (move_robot 1 KBKEY.KBDOWN boardDirty 3 3 66 2) boardDirty

/-- The board `boardDirtyOn` after robot 1 has slid down again, off the letter. -/
def boardDirtyOff : Board :=
  boardAfter (move_robot 1 KBKEY.KBDOWN boardDirtyOn 3 3 66 2) boardDirtyOn

/-- A 2 x 2 board without wall flags and without pieces. -/
def boardEmpty : Board := fun _ _ => ⟨0, 0⟩

/-- A buffer of spaces with a stale `'|'` between the first two cells of the first row. -/
def bufferStale : Buffer := fun p q => if p = 1 ∧ q = 2 then WALLVERT else SPACE

/-- A buffer of spaces with a stale `'X'` at the centre of the first cell. -/
def bufferCentre : Buffer := fun p q => if p = 1 ∧ q = 1 then 88 else SPACE

/-- A 2 x 2 board whose cell `(0,0)` has the right wall flag and whose cell `(1,1)` has the
top wall flag; no pieces. -/
def boardWalls : Board := fun i j =>
  if i = 0 ∧ j = 0 then ⟨HAS_RIGHT_WALL, 0⟩
  else if i = 1 ∧ j = 1 then ⟨HAS_TOP_WALL, 0⟩
  else ⟨0, 0⟩

/-- A board on which robot 1 stands above the plain letter `'B'` on a cell that has the
encoded-letter flag with the robot's own glyph `'1'` in the stash byte. -/
def boardOwnStash : Board := fun i j =>
  if i = 0 ∧ j = 1 then ⟨HAS_PIECE ||| HAS_ENCODED_LETTER ||| (49 <<< 24), 49⟩
  else if i = 1 ∧ j = 1 then ⟨HAS_PIECE, 66⟩
  else ⟨0, 0⟩

/-- A 3 x 3 board without robot 1: only the letter `'A'` at index 8. -/
def boardNoRobot : Board := fun i j => if i = 2 ∧ j = 2 then ⟨HAS_PIECE, 65⟩ else ⟨0, 0⟩

/-- The text of C15, not the code: the maximal runs of characters other than `'\n'` and
`'\r'` in file order, the empty runs dropped. -/
def nonEmptyRuns (content : List Nat) : List (List Nat) :=
  (content.splitOnP (fun ch => ch == 10 || ch == 13)).filter (fun run => !run.isEmpty)

/-- Proof-side: the array `v` after the lines `runs` have been stored from entry `r` on. -/
def storeLines (v : Lines) (r : Nat) (runs : List (List Nat)) : Lines :=
  fun i => if i < r then v i else match runs[i - r]? with
    | some line => some line
    | none => v i

/-- A token of a line: not empty, without a space and without NUL. -/
def IsToken (t : List Nat) : Prop := t ≠ [] ∧ ∀ ch ∈ t, ch ≠ 32 ∧ ch ≠ 0

instance (t : List Nat) : Decidable (IsToken t) := by
  unfold IsToken
  infer_instance

/-- The text of C12, not the code: the interior record `"<index> <mask> [letter]"`, the
tokens one space apart. -/
def interiorRecord (index mask : List Nat) (letter : Option (List Nat)) : List Nat :=
  index ++ (32 :: (mask ++ (match letter with
    | none => []
    | some t => 32 :: t)))

/-- The text of C12, not the code: a third token is there and its first character is the
destination letter. -/
def letterIsDest (letter : Option (List Nat)) (dest_char : Nat) : Bool :=
  match letter with
  | none => false
  | some t => decide (t.head? = some dest_char)

/-- The level file `"17\nhdr\n5 1001 M\n6 0100\n\n5\n9\n7\n8\n"`: two header lines, two
interior records, an empty line, and the four robot lines; robot 1 starts on the cell of the
letter `'M'`. -/
def fileLevel : List Nat :=
  [49, 55, 10, 104, 100, 114, 10, 53, 32, 49, 48, 48, 49, 32, 77, 10, 54, 32, 48, 49, 48, 48,
    10, 10, 53, 10, 57, 10, 55, 10, 56, 10]

/-- The level file `fileLevel` with the line of robot 2 changed to `"5"`, the index the line
of robot 1 gives. -/
def fileTwoRobotsOneCell : List Nat :=
  [49, 55, 10, 104, 100, 114, 10, 53, 32, 49, 48, 48, 49, 32, 77, 10, 54, 32, 48, 49, 48, 48,
    10, 10, 53, 10, 53, 10, 55, 10, 56, 10]

/-- The level file `fileLevel` with the line of robot 4 changed to `"-1"`. -/
def fileRobotOutside : List Nat :=
  [49, 55, 10, 104, 100, 114, 10, 53, 32, 49, 48, 48, 49, 32, 77, 10, 54, 32, 48, 49, 48, 48,
    10, 10, 53, 10, 57, 10, 55, 10, 45, 49, 10]

/-- The level file `fileLevel` with the second record changed to `"300 1000"`. -/
def fileRecordOutside : List Nat :=
  [49, 55, 10, 104, 100, 114, 10, 53, 32, 49, 48, 48, 49, 32, 77, 10, 51, 48, 48, 32, 49, 48,
    48, 48, 10, 10, 53, 10, 57, 10, 55, 10, 56, 10]

/-- The array of lines `GetLinesFromFile` returns for a file that opens. -/
def linesOf (content : List Nat) : Lines := (GetLinesFromFile_loop content [] calloc_lines 0).1

/-- The board a pass of the loader leaves (`dflt` if it has no result). -/
def boardOr (m : Option Board) (dflt : Board) : Board := m.getD dflt

/-- The board after the interior records of `fileLevel`. -/
def boardRecords : Board :=
  boardOr (parse_data_records (linesOf fileLevel) 16 16 77 (List.range' 2 (8 - 4 - 2))
    boardEmpty) boardEmpty

/-! # Part III. Lemmas -/

/-! ## The loop of move_robot -/

theorem wall_ahead_eq {d : KBKEY} (hd : ValidDir d) (c : Nat) :
    wall_ahead d c = hasFlag c (facingFlag d) := by
  rcases hd with rfl | rfl | rfl | rfl <;> simp [wall_ahead, facingFlag]

theorem wall_behind_eq {d : KBKEY} (hd : ValidDir d) (c : Nat) :
    wall_behind d c = hasFlag c (backFlag d) := by
  rcases hd with rfl | rfl | rfl | rfl <;> simp [wall_behind, backFlag]

/-- The cell next to `c` in a direction is unique. -/
theorem neighbour_unique {d : KBKEY} {c c1 c2 : Nat × Nat} (h1 : Neighbour d c c1)
    (h2 : Neighbour d c c2) : c1 = c2 := by
  cases d <;> simp only [Neighbour] at h1 h2 <;> first | exact h1.elim | (ext <;> omega)

/-- When the bounds test of line 597 fails to hold, no cell of the grid is next to the
current one. -/
theorem next_outside {d : KBKEY} (hd : ValidDir d) {size_x size_y curx cury : Nat}
    (h : next_x d curx < 0 ∨ next_x d curx ≥ (size_x : Int) ∨ next_y d cury < 0
      ∨ next_y d cury ≥ (size_y : Int))
    (c : Nat × Nat) (hn : Neighbour d (curx, cury) c) : ¬ InGrid size_x size_y c := by
  rcases hd with rfl | rfl | rfl | rfl <;>
    simp [next_x, next_y, Neighbour, InGrid] at h hn ⊢ <;> omega

/-- When the bounds test of line 597 passes, `(nextx, nexty)` is the cell next to the current
one, it is inside the grid, and the loop has one iteration less to go from there. -/
theorem next_inside {d : KBKEY} (hd : ValidDir d) {size_x size_y curx cury : Nat}
    (hx : curx < size_x) (hy : cury < size_y)
    (h : ¬ (next_x d curx < 0 ∨ next_x d curx ≥ (size_x : Int) ∨ next_y d cury < 0
      ∨ next_y d cury ≥ (size_y : Int))) :
    Neighbour d (curx, cury) ((next_x d curx).toNat, (next_y d cury).toNat)
      ∧ InGrid size_x size_y ((next_x d curx).toNat, (next_y d cury).toNat)
      ∧ remaining d size_x size_y (next_x d curx).toNat (next_y d cury).toNat + 1
        ≤ remaining d size_x size_y curx cury := by
  rcases hd with rfl | rfl | rfl | rfl <;>
    simp [next_x, next_y, Neighbour, InGrid, remaining] at h ⊢ <;> omega

/-- The loop ends, and it ends as `LoopSpec` tells, from every cell of the grid with enough
fuel. -/
theorem move_robot_loop_spec (robot : Int) {d : KBKEY} (hd : ValidDir d) (size_x size_y : Nat)
    (winningPos : Nat) (winningRobot : Int) (x y : Nat) (board : Board) :
    ∀ (fuel curx cury : Nat), curx < size_x → cury < size_y →
      remaining d size_x size_y curx cury ≤ fuel →
      ∃ e, move_robot_loop robot d size_x size_y winningPos winningRobot x y fuel board
          curx cury = some e
        ∧ LoopSpec board d size_x size_y winningPos robot winningRobot (board y x).piece
          (curx, cury) e := by
  intro fuel
  induction fuel with
  | zero =>
    intro curx cury hx hy hrem
    exfalso
    rcases hd with rfl | rfl | rfl | rfl <;> simp [remaining] at hrem <;> omega
  | succ fuel ih =>
    intro curx cury hx hy hrem
    rw [move_robot_loop]
    by_cases hwa : wall_ahead d (board cury curx).contents = true
    · rw [if_pos hwa]
      refine ⟨_, rfl, LoopSpec.blocked (curx, cury) Relation.ReflTransGen.refl ?_⟩
      intro c hs
      rw [wall_ahead_eq hd] at hwa
      have := hs.2.2.1
      simp [cellOf, hwa] at this
    · rw [if_neg hwa]
      simp only []
      by_cases hb : next_x d curx < 0 ∨ next_x d curx ≥ (size_x : Int) ∨ next_y d cury < 0
          ∨ next_y d cury ≥ (size_y : Int)
      · rw [if_pos hb]
        refine ⟨_, rfl, LoopSpec.blocked (curx, cury) Relation.ReflTransGen.refl ?_⟩
        intro c hs
        exact next_outside hd hb c hs.1 hs.2.1
      · rw [if_neg hb]
        obtain ⟨hnb, hin, hdec⟩ := next_inside hd hx hy hb
        generalize (next_x d curx).toNat = nx at hnb hin hdec ⊢
        generalize (next_y d cury).toNat = ny at hnb hin hdec ⊢
        by_cases hwb : wall_behind d (board ny nx).contents = true
        · rw [if_pos hwb]
          refine ⟨_, rfl, LoopSpec.blocked (curx, cury) Relation.ReflTransGen.refl ?_⟩
          intro c hs
          have hc : c = (nx, ny) := neighbour_unique hs.1 hnb
          subst hc
          rw [wall_behind_eq hd] at hwb
          have := hs.2.2.2
          simp [cellOf, hwb] at this
        · rw [if_neg hwb]
          have hstep : Step board d size_x size_y (curx, cury) (nx, ny) := by
            refine ⟨hnb, hin, ?_, ?_⟩
            · rw [wall_ahead_eq hd] at hwa
              simpa [cellOf] using hwa
            · rw [wall_behind_eq hd] at hwb
              simpa [cellOf] using hwb
          by_cases hocc : (hasFlag (board ny nx).contents HAS_PIECE
              && decide ((board ny nx).piece ≠ (board y x).piece)) = true
          · rw [if_pos hocc]
            have hocc2 : OtherPiece board (board y x).piece (nx, ny) := by
              simpa [OtherPiece, cellOf] using hocc
            by_cases hw : (board ny nx).piece = winningPos
            · rw [if_pos hw]
              by_cases hr : robot = winningRobot
              · rw [if_pos hr]
                exact ⟨_, rfl, LoopSpec.win (curx, cury) (nx, ny)
                  Relation.ReflTransGen.refl hstep hocc2 hw hr⟩
              · rw [if_neg hr]
                exact ⟨_, rfl, LoopSpec.letter (curx, cury) (nx, ny)
                  Relation.ReflTransGen.refl hstep hocc2 hw hr⟩
            · rw [if_neg hw]
              exact ⟨_, rfl, LoopSpec.piece (curx, cury) (nx, ny)
                Relation.ReflTransGen.refl hstep hocc2 hw⟩
          · rw [if_neg hocc]
            have hfree : FreeStep board d size_x size_y (board y x).piece (curx, cury)
                (nx, ny) := by
              refine ⟨hstep, ?_⟩
              intro h
              apply hocc
              simpa [OtherPiece, cellOf] using h
            obtain ⟨e, he, hspec⟩ := ih nx ny hin.1 hin.2 (by omega)
            refine ⟨e, he, ?_⟩
            cases hspec with
            | blocked t hpath hno =>
              exact LoopSpec.blocked t (Relation.ReflTransGen.head hfree hpath) hno
            | piece t c hpath hs ho hne =>
              exact LoopSpec.piece t c (Relation.ReflTransGen.head hfree hpath) hs ho hne
            | win t c hpath hs ho heq hrob =>
              exact LoopSpec.win t c (Relation.ReflTransGen.head hfree hpath) hs ho heq hrob
            | letter t c hpath hs ho heq hrob =>
              exact LoopSpec.letter t c (Relation.ReflTransGen.head hfree hpath) hs ho heq hrob

/-! ## Paths -/

theorem freeStep_unique {board : Board} {d : KBKEY} {size_x size_y glyph : Nat}
    {c c1 c2 : Nat × Nat} (h1 : FreeStep board d size_x size_y glyph c c1)
    (h2 : FreeStep board d size_x size_y glyph c c2) : c1 = c2 :=
  neighbour_unique h1.1.1 h2.1.1

theorem terminal_of_no_step {board : Board} {d : KBKEY} {size_x size_y glyph : Nat}
    {t : Nat × Nat} (h : ∀ c, ¬ Step board d size_x size_y t c) :
    Terminal board d size_x size_y glyph t :=
  fun c hc => h c hc.1

theorem terminal_of_hit {board : Board} {d : KBKEY} {size_x size_y glyph : Nat}
    {t c : Nat × Nat} (hs : Step board d size_x size_y t c) (ho : OtherPiece board glyph c) :
    Terminal board d size_x size_y glyph t := by
  intro c2 h2
  have : c2 = c := neighbour_unique h2.1.1 hs.1
  subst this
  exact h2.2 ho

/-- A free path ends in at most one terminal cell. -/
theorem terminal_unique {board : Board} {d : KBKEY} {size_x size_y glyph : Nat}
    {s t1 t2 : Nat × Nat} (p1 : FreePath board d size_x size_y glyph s t1)
    (p2 : FreePath board d size_x size_y glyph s t2)
    (h1 : Terminal board d size_x size_y glyph t1)
    (h2 : Terminal board d size_x size_y glyph t2) : t1 = t2 := by
  have hu : Relator.RightUnique (FreeStep board d size_x size_y glyph) :=
    fun _ _ _ ha hb => freeStep_unique ha hb
  rcases Relation.ReflTransGen.total_of_right_unique hu p1 p2 with h | h
  · rcases Relation.ReflTransGen.cases_head h with h | ⟨c, hc, _⟩
    · exact h
    · exact (h1 c hc).elim
  · rcases Relation.ReflTransGen.cases_head h with h | ⟨c, hc, _⟩
    · exact h.symm
    · exact (h2 c hc).elim

theorem freePath_inGrid {board : Board} {d : KBKEY} {size_x size_y glyph : Nat}
    {s t : Nat × Nat} (p : FreePath board d size_x size_y glyph s t)
    (hs : InGrid size_x size_y s) : InGrid size_x size_y t := by
  induction p with
  | refl => exact hs
  | tail _ h _ => exact h.1.2.1

/-- The end of a free path is the start or a cell without another piece. -/
theorem freePath_end_free {board : Board} {d : KBKEY} {size_x size_y glyph : Nat}
    {s t : Nat × Nat} (p : FreePath board d size_x size_y glyph s t) :
    t = s ∨ ¬ OtherPiece board glyph t := by
  rcases Relation.ReflTransGen.cases_tail p with h | ⟨c, _, hc⟩
  · exact Or.inl h
  · exact Or.inr hc.2

/-- A free path is a path of unit steps that cross no wall. -/
theorem freePath_steps {board : Board} {d : KBKEY} {size_x size_y glyph : Nat}
    {s t : Nat × Nat} (p : FreePath board d size_x size_y glyph s t) :
    Relation.ReflTransGen (Step board d size_x size_y) s t :=
  Relation.ReflTransGen.mono (fun _ _ h => h.1) p

/-! ## find_robot -/

theorem find_robot_some {robot : Int} {board : Board} {size_x size_y x y : Nat}
    (h : find_robot robot board size_x size_y = some (x, y)) :
    InGrid size_x size_y (x, y) ∧ HoldsRobot board (x, y) robot := by
  unfold find_robot at h
  obtain ⟨i, hi, h⟩ := List.exists_of_findSome?_eq_some h
  obtain ⟨j, hj, h⟩ := List.exists_of_findSome?_eq_some h
  rw [List.mem_range] at hi hj
  split at h
  · rename_i hc
    simp only [Option.some.injEq, Prod.mk.injEq] at h
    obtain ⟨rfl, rfl⟩ := h
    simp only [Bool.and_eq_true, decide_eq_true_eq] at hc
    exact ⟨⟨hj, hi⟩, hc.1, hc.2⟩
  · exact absurd h (by simp)

theorem find_robot_exists {robot : Int} {board : Board} {size_x size_y : Nat} {c : Nat × Nat}
    (hin : InGrid size_x size_y c) (hc : HoldsRobot board c robot) :
    ∃ x y, find_robot robot board size_x size_y = some (x, y) := by
  cases hf : find_robot robot board size_x size_y with
  | some p => exact ⟨p.1, p.2, rfl⟩
  | none =>
    exfalso
    unfold find_robot at hf
    rw [List.findSome?_eq_none_iff] at hf
    have h1 := hf c.2 (List.mem_range.mpr hin.2)
    rw [List.findSome?_eq_none_iff] at h1
    have h2 := h1 c.1 (List.mem_range.mpr hin.1)
    have h3 : (hasFlag (board c.2 c.1).contents HAS_PIECE
        && decide (((board c.2 c.1).piece : Int) = 48 + robot)) = true := by
      simp only [Bool.and_eq_true, decide_eq_true_eq]
      exact ⟨hc.1, hc.2⟩
    rw [if_pos h3] at h2
    exact absurd h2 (by simp)

/-! ## Flags as bits -/

theorem and_two_pow_eq (c k : Nat) : c &&& 2 ^ k = if c.testBit k then 2 ^ k else 0 := by
  apply Nat.eq_of_testBit_eq
  intro i
  rw [Nat.testBit_and, Nat.testBit_two_pow]
  by_cases h : k = i
  · subst h
    cases hc : c.testBit k <;> simp [Nat.testBit_two_pow]
  · cases hc : c.testBit k <;> simp [h, Nat.testBit_two_pow]

theorem hasFlag_two_pow (c k : Nat) : hasFlag c (2 ^ k) = c.testBit k := by
  unfold hasFlag
  rw [and_two_pow_eq]
  cases hc : c.testBit k
  · simp
  · have : (2 : Nat) ^ k ≠ 0 := by positivity
    simp [this]

theorem hasFlag_left (c : Nat) : hasFlag c HAS_LEFT_WALL = c.testBit 0 := hasFlag_two_pow c 0
theorem hasFlag_top (c : Nat) : hasFlag c HAS_TOP_WALL = c.testBit 1 := hasFlag_two_pow c 1
theorem hasFlag_right (c : Nat) : hasFlag c HAS_RIGHT_WALL = c.testBit 2 := hasFlag_two_pow c 2
theorem hasFlag_bottom (c : Nat) : hasFlag c HAS_BOTTOM_WALL = c.testBit 3 := hasFlag_two_pow c 3
theorem hasFlag_piece (c : Nat) : hasFlag c HAS_PIECE = c.testBit 4 := hasFlag_two_pow c 4
theorem hasFlag_encoded (c : Nat) : hasFlag c HAS_ENCODED_LETTER = c.testBit 5 :=
  hasFlag_two_pow c 5

theorem hasFlag_zero (c : Nat) : hasFlag c 0 = false := by simp [hasFlag]

theorem testBit_lt_of_le {x n i : Nat} (hx : x < 2 ^ n) (hi : n ≤ i) : x.testBit i = false :=
  Nat.testBit_lt_two_pow (lt_of_lt_of_le hx (Nat.pow_le_pow_right (by decide) hi))

/-- The bits of `~HAS_PIECE`. -/
theorem testBit_not_piece (i : Nat) :
    (int_not HAS_PIECE).testBit i = decide (i < 32 ∧ i ≠ 4) := by
  by_cases h : i < 32
  · interval_cases i <;> decide
  · rw [testBit_lt_of_le (n := 32) (by decide) (by omega)]
    simp [h]

/-- The bits of `~HAS_ENCODED_LETTER & 0x00FFFFFF`. -/
theorem testBit_restore_mask (i : Nat) :
    (int_not HAS_ENCODED_LETTER &&& 0x00FFFFFF).testBit i = decide (i < 24 ∧ i ≠ 5) := by
  by_cases h : i < 24
  · interval_cases i <;> decide
  · rw [testBit_lt_of_le (n := 24) (by decide) (by omega)]
    simp [h]

theorem testBit_or_piece (c i : Nat) :
    (c ||| HAS_PIECE).testBit i = (c.testBit i || decide (i = 4)) := by
  rw [Nat.testBit_or]
  have : HAS_PIECE = 2 ^ 4 := rfl
  rw [this, Nat.testBit_two_pow]
  congr 1
  simp [eq_comm]

theorem testBit_stash (c p i : Nat) :
    (c ||| (HAS_ENCODED_LETTER ||| (p <<< 24) % 2 ^ 32)).testBit i
      = (c.testBit i || (decide (i = 5) || (decide (24 ≤ i ∧ i < 32) && p.testBit (i - 24)))) := by
  have : HAS_ENCODED_LETTER = 2 ^ 5 := rfl
  rw [Nat.testBit_or, Nat.testBit_or, this, Nat.testBit_two_pow, Nat.testBit_mod_two_pow,
    Nat.testBit_shiftLeft]
  congr 2
  · simp [eq_comm]
  · by_cases h1 : 24 ≤ i <;> by_cases h2 : i < 32 <;> simp [h1, h2]

/-! ## The swap and the result of a move -/

theorem move_robot_commit_same (board : Board) (x y : Nat) :
    move_robot_commit board x y x y = board := by
  simp [move_robot_commit]

theorem move_robot_commit_moved (board : Board) {x y cx cy : Nat} (h : (cx, cy) ≠ (x, y)) :
    move_robot_commit board x y cx cy
      = setCell (setCell board cy cx (entered (board cy cx) (board y x).piece)) y x
          (vacated (board y x)) := by
  have h1 : cx ≠ x ∨ cy ≠ y := by
    by_contra hc
    push_neg at hc
    exact h (by rw [hc.1, hc.2])
  have h2 : ¬ (y = cy ∧ x = cx) := by
    rintro ⟨rfl, rfl⟩
    exact h rfl
  have h3 : ¬ (cy = y ∧ cx = x) := fun hc => h2 ⟨hc.1.symm, hc.2.symm⟩
  unfold move_robot_commit
  rw [if_pos h1]
  funext i j
  by_cases he : hasFlag (board y x).contents HAS_ENCODED_LETTER = true <;>
    by_cases hs : i = y ∧ j = x <;>
    by_cases hc : i = cy ∧ j = cx <;>
    simp [setCell, vacated, entered, he, hs, hc, h2, h3]

/-- With a valid robot that is on the board and a valid direction, `move_robot` returns, and
its result is the swap applied to the way its loop is left. -/
theorem move_robot_spec {robot : Int} {d : KBKEY} {board : Board} {size_x size_y : Nat}
    (winningPos : Nat) (winningRobot : Int) {x y : Nat}
    (hr1 : 0 < robot) (hr2 : robot ≤ MAX_ROBOTS) (hd : ValidDir d)
    (hf : find_robot robot board size_x size_y = some (x, y)) :
    ∃ e, LoopSpec board d size_x size_y winningPos robot winningRobot (board y x).piece (x, y) e
      ∧ move_robot robot d board size_x size_y winningPos winningRobot = some (finish x y e) := by
  obtain ⟨hin, _⟩ := find_robot_some hf
  have hrem : remaining d size_x size_y x y ≤ size_x + size_y := by
    have h1 := hin.1
    have h2 := hin.2
    simp only at h1 h2
    rcases hd with rfl | rfl | rfl | rfl <;> simp only [remaining] <;> omega
  obtain ⟨e, he, hspec⟩ := move_robot_loop_spec robot hd size_x size_y winningPos winningRobot
    x y board (size_x + size_y) x y hin.1 hin.2 hrem
  refine ⟨e, hspec, ?_⟩
  have h1 : ¬ (robot ≤ 0 ∨ robot > MAX_ROBOTS) := by omega
  have h2 : ¬ (d ≠ KBKEY.KBUP ∧ d ≠ KBKEY.KBLEFT ∧ d ≠ KBKEY.KBRIGHT ∧ d ≠ KBKEY.KBDOWN) := by
    rcases hd with rfl | rfl | rfl | rfl <;> simp
  have h3 : ¬ robot = 0 := by omega
  unfold move_robot
  rw [if_neg h1, if_neg h2]
  simp only [if_neg h3, hf, he]
  cases e <;> rfl

theorem relocate_same (board : Board) (s : Nat × Nat) (fcell : square_t) :
    relocate board s s fcell = board := by
  simp [relocate]

theorem relocate_final (board : Board) {s f : Nat × Nat} (fcell : square_t) (h : f ≠ s) :
    cellOf (relocate board s f fcell) f = entered fcell (cellOf board s).piece := by
  have h2 : ¬ (f.2 = s.2 ∧ f.1 = s.1) := fun hc => h (Prod.ext hc.2 hc.1)
  simp [relocate, h, cellOf, setCell, h2]

theorem relocate_start (board : Board) {s f : Nat × Nat} (fcell : square_t) (h : f ≠ s) :
    cellOf (relocate board s f fcell) s = vacated (cellOf board s) := by
  simp [relocate, h, cellOf, setCell]

theorem relocate_other (board : Board) {s f c : Nat × Nat} (fcell : square_t) (h1 : c ≠ s)
    (h2 : c ≠ f) : cellOf (relocate board s f fcell) c = cellOf board c := by
  have h3 : ¬ (c.2 = s.2 ∧ c.1 = s.1) := fun hc => h1 (Prod.ext hc.2 hc.1)
  have h4 : ¬ (c.2 = f.2 ∧ c.1 = f.1) := fun hc => h2 (Prod.ext hc.2 hc.1)
  unfold relocate
  split
  · rfl
  · simp [cellOf, setCell, h3, h4]

theorem finish_plain (board : Board) (x y : Nat) (t : Nat × Nat) :
    finish x y (SlideEnd.stopped board t.1 t.2)
      = (POSINFO.NORMAL, relocate board (x, y) t (cellOf board t)) := by
  by_cases h : t = (x, y)
  · subst h
    simp [finish, relocate_same, move_robot_commit_same]
  · have h2 : (t.1, t.2) ≠ (x, y) := h
    simp [finish, relocate, h, move_robot_commit_moved board h2, cellOf]

theorem finish_letter (board : Board) (x y : Nat) {c : Nat × Nat} (h : c ≠ (x, y)) :
    finish x y (SlideEnd.stopped (setCell board c.2 c.1 (stash (cellOf board c))) c.1 c.2)
      = (POSINFO.NORMAL, relocate board (x, y) c (stash (cellOf board c))) := by
  have h2 : (c.1, c.2) ≠ (x, y) := h
  have h3 : ¬ (y = c.2 ∧ x = c.1) := fun hc => h (Prod.ext hc.2.symm hc.1.symm)
  have h4 : ¬ (c.2 = y ∧ c.1 = x) := fun hc => h (Prod.ext hc.2 hc.1)
  simp only [finish, relocate, h, if_false, move_robot_commit_moved _ h2, cellOf]
  congr 1
  funext i j
  by_cases hs : i = y ∧ j = x <;> by_cases hc : i = c.2 ∧ j = c.1 <;>
    simp [setCell, hs, hc, h3, h4]

/-- The start cell of a robot holds no other piece than the robot's. -/
theorem otherPiece_ne_start {board : Board} {s c : Nat × Nat}
    (h : OtherPiece board (cellOf board s).piece c) : c ≠ s := by
  rintro rfl
  exact h.2 rfl

theorem holdsRobot_entered {board : Board} {s : Nat × Nat} {robot : Int}
    (h : HoldsRobot board s robot) (fcell : square_t) :
    hasFlag (entered fcell (cellOf board s).piece).contents HAS_PIECE = true
      ∧ ((entered fcell (cellOf board s).piece).piece : Int) = 48 + robot := by
  refine ⟨?_, h.2⟩
  show hasFlag (fcell.contents ||| HAS_PIECE) HAS_PIECE = true
  rw [hasFlag_piece, testBit_or_piece]
  simp

theorem holdsRobot_relocate {board : Board} {s : Nat × Nat} {robot : Int}
    (h : HoldsRobot board s robot) (f : Nat × Nat) (fcell : square_t) :
    HoldsRobot (relocate board s f fcell) f robot := by
  by_cases hf : f = s
  · subst hf
    rw [relocate_same]
    exact h
  · unfold HoldsRobot
    rw [relocate_final board fcell hf]
    exact holdsRobot_entered h fcell

theorem glyphOf_eq {board : Board} {s : Nat × Nat} {robot : Int}
    (h : HoldsRobot board s robot) : (cellOf board s).piece = glyphOf robot := by
  have := h.2
  unfold glyphOf
  omega

/-- From a cell with the wall flag facing the direction no step leaves. -/
theorem no_step_of_wall {board : Board} {d : KBKEY} {size_x size_y : Nat} {s : Nat × Nat}
    (h : hasFlag (cellOf board s).contents (facingFlag d) = true) (c : Nat × Nat) :
    ¬ Step board d size_x size_y s c := by
  intro hs
  have := hs.2.2.1
  rw [h] at this
  exact absurd this (by decide)

theorem freePath_eq_of_terminal {board : Board} {d : KBKEY} {size_x size_y glyph : Nat}
    {s t : Nat × Nat} (p : FreePath board d size_x size_y glyph s t)
    (h : Terminal board d size_x size_y glyph s) : t = s := by
  rcases Relation.ReflTransGen.cases_head p with h1 | ⟨c, hc, _⟩
  · exact h1.symm
  · exact (h c hc).elim

theorem isWallFlag_bit {f : Nat} (h : IsWallFlag f) : ∃ k, k < 4 ∧ f = 2 ^ k := by
  rcases h with rfl | rfl | rfl | rfl
  · exact ⟨0, by decide, rfl⟩
  · exact ⟨1, by decide, rfl⟩
  · exact ⟨2, by decide, rfl⟩
  · exact ⟨3, by decide, rfl⟩

theorem isWallFlag_facing {d : KBKEY} (hd : ValidDir d) : IsWallFlag (facingFlag d) := by
  rcases hd with rfl | rfl | rfl | rfl <;> simp [IsWallFlag, facingFlag]

theorem isWallFlag_back {d : KBKEY} (hd : ValidDir d) : IsWallFlag (backFlag d) := by
  rcases hd with rfl | rfl | rfl | rfl <;> simp [IsWallFlag, backFlag]

/-- Entering a cell changes none of its wall flags. -/
theorem hasFlag_entered_wall {f : Nat} (hf : IsWallFlag f) (s : square_t) (glyph : Nat) :
    hasFlag (entered s glyph).contents f = hasFlag s.contents f := by
  obtain ⟨k, hk, rfl⟩ := isWallFlag_bit hf
  show hasFlag (s.contents ||| HAS_PIECE) (2 ^ k) = hasFlag s.contents (2 ^ k)
  rw [hasFlag_two_pow, hasFlag_two_pow, testBit_or_piece]
  have : ¬ k = 4 := by omega
  simp [this]

/-- Leaving a cell changes none of its wall flags. -/
theorem hasFlag_vacated_wall {f : Nat} (hf : IsWallFlag f) (s : square_t) :
    hasFlag (vacated s).contents f = hasFlag s.contents f := by
  obtain ⟨k, hk, rfl⟩ := isWallFlag_bit hf
  unfold vacated
  by_cases he : hasFlag s.contents HAS_ENCODED_LETTER = true
  · rw [if_pos he]
    show hasFlag (s.contents &&& (int_not HAS_ENCODED_LETTER &&& 0x00FFFFFF)) (2 ^ k) = _
    rw [hasFlag_two_pow, hasFlag_two_pow, Nat.testBit_and, testBit_restore_mask]
    have : k < 24 ∧ k ≠ 5 := by omega
    simp [this]
  · rw [if_neg he]
    show hasFlag (s.contents &&& int_not HAS_PIECE) (2 ^ k) = _
    rw [hasFlag_two_pow, hasFlag_two_pow, Nat.testBit_and, testBit_not_piece]
    have : k < 32 ∧ k ≠ 4 := by omega
    simp [this]

/-- Stashing the letter changes none of the wall flags of its cell. -/
theorem hasFlag_stash_wall {f : Nat} (hf : IsWallFlag f) (s : square_t) :
    hasFlag (stash s).contents f = hasFlag s.contents f := by
  obtain ⟨k, hk, rfl⟩ := isWallFlag_bit hf
  show hasFlag (s.contents ||| (HAS_ENCODED_LETTER ||| (s.piece <<< 24) % 2 ^ 32)) (2 ^ k) = _
  rw [hasFlag_two_pow, hasFlag_two_pow, testBit_stash]
  have h1 : ¬ k = 5 := by omega
  have h2 : ¬ 24 ≤ k := by omega
  simp [h1, h2]

/-- A move changes no wall flag of any cell. -/
theorem hasFlag_relocate_wall {f : Nat} (hf : IsWallFlag f) (board : Board) (s t : Nat × Nat)
    (fcell : square_t) (hfc : hasFlag fcell.contents f = hasFlag (cellOf board t).contents f)
    (c : Nat × Nat) :
    hasFlag (cellOf (relocate board s t fcell) c).contents f
      = hasFlag (cellOf board c).contents f := by
  by_cases hts : t = s
  · rw [hts, relocate_same]
  · by_cases hcs : c = s
    · rw [hcs, relocate_start board fcell hts, hasFlag_vacated_wall hf]
    · by_cases hct : c = t
      · rw [hct, relocate_final board fcell hts, hasFlag_entered_wall hf, hfc]
      · rw [relocate_other board fcell hcs hct]

theorem freePath_ahead {board : Board} {d : KBKEY} {size_x size_y glyph : Nat}
    {s t : Nat × Nat} (p : FreePath board d size_x size_y glyph s t) : Ahead d s t := by
  induction p with
  | refl => cases d <;> simp [Ahead]
  | tail _ h ih =>
    have hn := h.1.1
    cases d <;> simp only [Ahead, Neighbour] at ih hn ⊢ <;> omega

theorem ahead_next_ne {d : KBKEY} {s t n : Nat × Nat} (h : Ahead d s t)
    (hn : Neighbour d t n) : n ≠ s ∧ n ≠ t := by
  constructor <;> rintro rfl <;> cases d <;> simp only [Ahead, Neighbour] at h hn <;> omega

theorem blockedAhead_of_no_step {board : Board} {d : KBKEY} {size_x size_y glyph : Nat}
    {t : Nat × Nat} (h : ∀ c, ¬ Step board d size_x size_y t c) :
    BlockedAhead board d size_x size_y glyph t := by
  by_cases h1 : hasFlag (cellOf board t).contents (facingFlag d) = true
  · exact Or.inl h1
  · by_cases h2 : ∃ n, Neighbour d t n ∧ InGrid size_x size_y n
    · obtain ⟨n, hn, hin⟩ := h2
      refine Or.inr (Or.inr ⟨n, hn, hin, Or.inl ?_⟩)
      by_contra h3
      exact h n ⟨hn, hin, by simpa using h1, by simpa using h3⟩
    · refine Or.inr (Or.inl ?_)
      intro n hn hin
      exact h2 ⟨n, hn, hin⟩

/-- A blocked final cell is still blocked on the board the move leaves. -/
theorem blockedAhead_relocate {board : Board} {d : KBKEY} {size_x size_y glyph : Nat}
    {s t : Nat × Nat} (hd : ValidDir d) (hpath : FreePath board d size_x size_y glyph s t)
    (hb : BlockedAhead board d size_x size_y glyph t) :
    BlockedAhead (relocate board s t (cellOf board t)) d size_x size_y glyph t := by
  rcases hb with h | h | ⟨n, hn, hin, h⟩
  · left
    rw [hasFlag_relocate_wall (isWallFlag_facing hd) board s t _ rfl]
    exact h
  · exact Or.inr (Or.inl h)
  · refine Or.inr (Or.inr ⟨n, hn, hin, ?_⟩)
    rcases h with h | h
    · left
      rw [hasFlag_relocate_wall (isWallFlag_back hd) board s t _ rfl]
      exact h
    · right
      obtain ⟨h1, h2⟩ := ahead_next_ne (freePath_ahead hpath) hn
      unfold OtherPiece
      rw [relocate_other board _ h1 h2]
      exact h

/-- A cell that holds another robot holds another piece. -/
theorem otherPiece_of_holdsRobot {board : Board} {c : Nat × Nat} {k robot : Int}
    (h : HoldsRobot board c k) (hk : k ≠ robot) (hr : 1 ≤ robot) :
    OtherPiece board (glyphOf robot) c := by
  refine ⟨h.1, ?_⟩
  have := h.2
  unfold glyphOf
  omega

/-- Moving the robot of `s` leaves every other robot where it is, when the cell entered is
not theirs. -/
theorem holdsRobot_relocate_other {board : Board} {s f c : Nat × Nat} {robot k : Int}
    (hs : HoldsRobot board s robot) (hk : k ≠ robot) (hc : HoldsRobot board c k)
    (hf : c ≠ f) (fcell : square_t) : HoldsRobot (relocate board s f fcell) c k := by
  have hcs : c ≠ s := by
    rintro rfl
    have h1 := hs.2
    have h2 := hc.2
    omega
  unfold HoldsRobot
  rw [relocate_other board fcell hcs hf]
  exact hc

/-- With a valid robot and direction `move_robot` has a result only when `find_robot` finds
the robot, and the result is then the one `move_robot_spec` gives. -/
theorem move_robot_result {robot : Int} {d : KBKEY} {board : Board} {size_x size_y : Nat}
    {winningPos : Nat} {winningRobot : Int} {res : POSINFO} {board1 : Board}
    (hr1 : 0 < robot) (hr2 : robot ≤ MAX_ROBOTS) (hd : ValidDir d)
    (hm : move_robot robot d board size_x size_y winningPos winningRobot = some (res, board1)) :
    ∃ x y e, find_robot robot board size_x size_y = some (x, y)
      ∧ LoopSpec board d size_x size_y winningPos robot winningRobot (board y x).piece (x, y) e
      ∧ finish x y e = (res, board1) := by
  cases hf : find_robot robot board size_x size_y with
  | none =>
    exfalso
    have h1 : ¬ (robot ≤ 0 ∨ robot > MAX_ROBOTS) := by omega
    have h2 : ¬ (d ≠ KBKEY.KBUP ∧ d ≠ KBKEY.KBLEFT ∧ d ≠ KBKEY.KBRIGHT ∧ d ≠ KBKEY.KBDOWN) := by
      rcases hd with rfl | rfl | rfl | rfl <;> simp
    have h3 : ¬ robot = 0 := by omega
    unfold move_robot at hm
    rw [if_neg h1, if_neg h2] at hm
    simp only [if_neg h3, hf] at hm
    exact absurd hm (by simp)
  | some p =>
    obtain ⟨x, y⟩ := p
    obtain ⟨e, hspec, hmove⟩ :=
      move_robot_spec winningPos winningRobot hr1 hr2 hd hf
    rw [hmove] at hm
    exact ⟨x, y, e, rfl, hspec, Option.some.inj hm⟩

/-- A letter cell that was stashed, entered and vacated again is as it was before, when it
was a plain letter cell: piece flag set, no encoded-letter flag, the stash byte zero. -/
theorem vacated_entered_stash (s : square_t) (glyph : Nat)
    (h1 : hasFlag s.contents HAS_PIECE = true)
    (h2 : hasFlag s.contents HAS_ENCODED_LETTER = false) (h3 : s.contents < 2 ^ 24)
    (h4 : s.piece < 256) : vacated (entered (stash s) glyph) = s := by
  rw [hasFlag_piece] at h1
  rw [hasFlag_encoded] at h2
  have henc : hasFlag (entered (stash s) glyph).contents HAS_ENCODED_LETTER = true := by
    show hasFlag ((s.contents ||| (HAS_ENCODED_LETTER ||| (s.piece <<< 24) % 2 ^ 32))
      ||| HAS_PIECE) HAS_ENCODED_LETTER = true
    rw [hasFlag_encoded, testBit_or_piece, testBit_stash]
    simp
  unfold vacated
  rw [if_pos henc]
  show square_t.mk (((s.contents ||| (HAS_ENCODED_LETTER ||| (s.piece <<< 24) % 2 ^ 32))
      ||| HAS_PIECE) &&& (int_not HAS_ENCODED_LETTER &&& 0x00FFFFFF))
    ((((s.contents ||| (HAS_ENCODED_LETTER ||| (s.piece <<< 24) % 2 ^ 32))
      ||| HAS_PIECE) >>> 24) % 256) = s
  have hc : ((s.contents ||| (HAS_ENCODED_LETTER ||| (s.piece <<< 24) % 2 ^ 32))
      ||| HAS_PIECE) &&& (int_not HAS_ENCODED_LETTER &&& 0x00FFFFFF) = s.contents := by
    apply Nat.eq_of_testBit_eq
    intro i
    rw [Nat.testBit_and, testBit_restore_mask, testBit_or_piece, testBit_stash]
    by_cases hi : i < 24
    · by_cases h5 : i = 5
      · subst h5
        simp [h2]
      · by_cases h4 : i = 4
        · subst h4
          simp [h1]
        · have : ¬ (24 ≤ i) := by omega
          simp [hi, h5, h4, this]
    · rw [testBit_lt_of_le h3 (by omega)]
      simp [hi]
  have hp : (((s.contents ||| (HAS_ENCODED_LETTER ||| (s.piece <<< 24) % 2 ^ 32))
      ||| HAS_PIECE) >>> 24) % 256 = s.piece := by
    apply Nat.eq_of_testBit_eq
    intro j
    have h256 : (256 : Nat) = 2 ^ 8 := by norm_num
    rw [h256, Nat.testBit_mod_two_pow, Nat.testBit_shiftRight, testBit_or_piece, testBit_stash,
      testBit_lt_of_le h3 (Nat.le_add_right 24 j)]
    by_cases hj : j < 8
    · have e1 : ¬ (24 + j = 5) := by omega
      have e2 : ¬ (24 + j = 4) := by omega
      have e3 : 24 + j < 32 := by omega
      have e4 : 24 + j - 24 = j := by omega
      simp [hj, e1, e2, e3, e4]
    · have h8 : s.piece < 2 ^ 8 := by omega
      have e5 : s.piece.testBit j = false := testBit_lt_of_le h8 (by omega)
      have e4 : 24 + j - 24 = j := by omega
      simp [hj, e4, e5]
  rw [hc, hp]

/-- The three shapes of a result of `move_robot` for a valid robot and direction: `WIN`
with the board untouched, a slide over free cells to a cell `t`, or a step onto the cell of
the letter, which is stashed. -/
theorem move_robot_shape {robot : Int} {d : KBKEY} {board : Board} {size_x size_y : Nat}
    {winningPos : Nat} {winningRobot : Int} {res : POSINFO} {board1 : Board}
    (hr1 : 1 ≤ robot) (hr2 : robot ≤ MAX_ROBOTS) (hd : ValidDir d)
    (hm : move_robot robot d board size_x size_y winningPos winningRobot = some (res, board1)) :
    ∃ s, find_robot robot board size_x size_y = some s ∧ HoldsRobot board s robot
      ∧ InGrid size_x size_y s
      ∧ ((res = POSINFO.WIN ∧ robot = winningRobot ∧ board1 = board)
        ∨ (∃ t, FreePath board d size_x size_y (glyphOf robot) s t ∧ res = POSINFO.NORMAL
            ∧ board1 = relocate board s t (cellOf board t))
        ∨ (∃ c, OtherPiece board (glyphOf robot) c ∧ InGrid size_x size_y c ∧ c ≠ s
            ∧ (cellOf board c).piece = winningPos ∧ robot ≠ winningRobot
            ∧ res = POSINFO.NORMAL
            ∧ board1 = relocate board s c (stash (cellOf board c)))) := by
  obtain ⟨x, y, e, hf, hspec, hfin⟩ := move_robot_result (by omega) hr2 hd hm
  obtain ⟨hin, hh⟩ := find_robot_some hf
  have hg : (board y x).piece = glyphOf robot := glyphOf_eq (s := (x, y)) hh
  rw [hg] at hspec
  refine ⟨(x, y), hf, hh, hin, ?_⟩
  cases hspec with
  | blocked t hpath hno =>
    rw [finish_plain] at hfin
    exact Or.inr (Or.inl ⟨t, hpath, (Prod.mk.inj hfin).1.symm, (Prod.mk.inj hfin).2.symm⟩)
  | piece t c hpath hstep hocc hne =>
    rw [finish_plain] at hfin
    exact Or.inr (Or.inl ⟨t, hpath, (Prod.mk.inj hfin).1.symm, (Prod.mk.inj hfin).2.symm⟩)
  | win t c hpath hstep hocc heq hrob =>
    exact Or.inl ⟨(Prod.mk.inj hfin).1.symm, hrob, (Prod.mk.inj hfin).2.symm⟩
  | letter t c hpath hstep hocc heq hrob =>
    have hne : c ≠ (x, y) := by
      have hocc2 : OtherPiece board (cellOf board (x, y)).piece c := by
        show OtherPiece board (board y x).piece c
        rw [hg]
        exact hocc
      exact otherPiece_ne_start hocc2
    rw [finish_letter board x y hne] at hfin
    exact Or.inr (Or.inr ⟨c, hocc, hstep.2.1, hne, heq, hrob, (Prod.mk.inj hfin).1.symm,
      (Prod.mk.inj hfin).2.symm⟩)

/-- The cell a robot leaves holds no robot afterwards, when its stash, if it has one, is a
letter of `A..Z`. -/
theorem vacated_no_robot (s : square_t) (k : Int) (hk : 1 ≤ k ∧ k ≤ 4)
    (hstash : hasFlag s.contents HAS_ENCODED_LETTER = true →
      65 ≤ (s.contents >>> 24) % 256) :
    ¬ (hasFlag (vacated s).contents HAS_PIECE = true ∧ ((vacated s).piece : Int) = 48 + k) := by
  unfold vacated
  by_cases he : hasFlag s.contents HAS_ENCODED_LETTER = true
  · rw [if_pos he]
    have := hstash he
    rintro ⟨_, h⟩
    simp only at h
    omega
  · rw [if_neg he]
    rintro ⟨h, _⟩
    simp only at h
    rw [hasFlag_piece, Nat.testBit_and, testBit_not_piece] at h
    simp at h

/-- Moving the robot of `s` to a cell that held no robot keeps every robot glyph on exactly
one cell. -/
theorem uniqueRobots_relocate {board : Board} {size_x size_y : Nat} {robot : Int}
    {s f : Nat × Nat} (fcell : square_t) (hr1 : 1 ≤ robot) (hr2 : robot ≤ MAX_ROBOTS)
    (hu : UniqueRobots board size_x size_y) (hs : HoldsRobot board s robot)
    (hsin : InGrid size_x size_y s) (hf : InGrid size_x size_y f)
    (hfree : f ≠ s → ∀ k : Int, 1 ≤ k → k ≤ MAX_ROBOTS → ¬ HoldsRobot board f k)
    (hvac : ∀ k : Int, 1 ≤ k → k ≤ MAX_ROBOTS →
      ¬ (hasFlag (vacated (cellOf board s)).contents HAS_PIECE = true
        ∧ ((vacated (cellOf board s)).piece : Int) = 48 + k)) :
    UniqueRobots (relocate board s f fcell) size_x size_y := by
  by_cases hfs : f = s
  · rw [hfs, relocate_same]
    exact hu
  intro k hk1 hk2
  have hcases : ∀ c2, HoldsRobot (relocate board s f fcell) c2 k →
      (c2 = f ∧ k = robot) ∨ (c2 ≠ f ∧ c2 ≠ s ∧ HoldsRobot board c2 k) := by
    intro c2 h2
    by_cases h2f : c2 = f
    · subst h2f
      left
      refine ⟨rfl, ?_⟩
      unfold HoldsRobot at h2
      rw [relocate_final board fcell hfs] at h2
      have h3 := h2.2
      have h4 := hs.2
      simp only [entered] at h3
      omega
    · by_cases h2s : c2 = s
      · subst h2s
        exfalso
        unfold HoldsRobot at h2
        rw [relocate_start board fcell hfs] at h2
        exact hvac k hk1 hk2 h2
      · right
        refine ⟨h2f, h2s, ?_⟩
        unfold HoldsRobot at h2 ⊢
        rw [relocate_other board fcell h2s h2f] at h2
        exact h2
  by_cases hkr : k = robot
  · subst hkr
    refine ⟨f, hf, holdsRobot_relocate hs f fcell, ?_⟩
    intro c2 hin2 h2
    rcases hcases c2 h2 with ⟨h, _⟩ | ⟨_, h2s, h3⟩
    · exact h
    · exfalso
      obtain ⟨c0, _, _, hc0⟩ := hu k hk1 hk2
      exact h2s (by rw [hc0 c2 hin2 h3, hc0 s hsin hs])
  · obtain ⟨c0, hc0in, hc0h, hc0⟩ := hu k hk1 hk2
    have hc0f : c0 ≠ f := by
      rintro rfl
      exact hfree hfs k hk1 hk2 hc0h
    refine ⟨c0, hc0in, holdsRobot_relocate_other hs hkr hc0h hc0f fcell, ?_⟩
    intro c2 hin2 h2
    rcases hcases c2 h2 with ⟨_, h⟩ | ⟨_, _, h3⟩
    · exact (hkr h).elim
    · exact hc0 c2 hin2 h3

theorem eq_some_of_isSome (m : Option (POSINFO × Board)) (dflt : Board)
    (h : m.isSome = true) : m = some (resultAfter m, boardAfter m dflt) := by
  cases m with
  | none => exact absurd h (by decide)
  | some p => rfl

theorem uniqueRobots_boardFour : UniqueRobots boardFour 3 3 := by
  intro k hk1 hk2
  simp only [MAX_ROBOTS] at hk2
  have hk : k = 1 ∨ k = 2 ∨ k = 3 ∨ k = 4 := by omega
  have hall : ∀ (c0 : Nat × Nat) (k0 : Int), InGrid 3 3 c0 → HoldsRobot boardFour c0 k0 →
      (∀ a, a < 3 → ∀ b, b < 3 → HoldsRobot boardFour (a, b) k0 → (a, b) = c0) →
      ∃ c, InGrid 3 3 c ∧ HoldsRobot boardFour c k0
        ∧ ∀ c2, InGrid 3 3 c2 → HoldsRobot boardFour c2 k0 → c2 = c :=
    fun c0 k0 h1 h2 h3 => ⟨c0, h1, h2, fun c2 hin h => h3 c2.1 hin.1 c2.2 hin.2 h⟩
  rcases hk with rfl | rfl | rfl | rfl
  · exact hall (0, 0) 1 (by decide) (by decide) (by decide)
  · exact hall (2, 0) 2 (by decide) (by decide) (by decide)
  · exact hall (0, 2) 3 (by decide) (by decide) (by decide)
  · exact hall (2, 2) 4 (by decide) (by decide) (by decide)

theorem validDir_right : ValidDir KBKEY.KBRIGHT := Or.inr (Or.inr (Or.inr rfl))

theorem validDir_down : ValidDir KBKEY.KBDOWN := Or.inr (Or.inr (Or.inl rfl))

/-! ## How write_board acts on one position -/

theorem keep_wall_self (w : Nat) : keep_wall w w = w := by
  simp [keep_wall]

theorem keep_wall_idem (w v : Nat) : keep_wall w (keep_wall w v) = keep_wall w v := by
  unfold keep_wall
  by_cases h : v = w
  · simp [h]
  · by_cases h2 : SPACE = w <;> simp [h, h2]

theorem keep_wall_congr {w v1 v2 : Nat} (h : v1 = w ↔ v2 = w) :
    keep_wall w v1 = keep_wall w v2 := by
  unfold keep_wall
  by_cases h1 : v1 = w
  · have h2 := h.mp h1
    simp [h1, h2]
  · have h2 : ¬ v2 = w := fun h2 => h1 (h.mpr h2)
    simp [h1, h2]

theorem acts_congr {T : Buffer → Buffer} {F S F2 S2 : Prop} {val w p q : Nat}
    (h : Acts T F S val w p q) (hF : F ↔ F2) (hS : ¬ F → (S ↔ S2)) : Acts T F2 S2 val w p q := by
  intro bo
  rcases h bo with ⟨h1, h2⟩ | ⟨h1, h2, h3⟩ | ⟨h1, h2, h3⟩
  · exact Or.inl ⟨hF.mp h1, h2⟩
  · exact Or.inr (Or.inl ⟨fun h => h1 (hF.mpr h), (hS h1).mp h2, h3⟩)
  · exact Or.inr (Or.inr ⟨fun h => h1 (hF.mpr h), fun h => h2 ((hS h1).mpr h), h3⟩)

theorem acts_id (val w p q : Nat) : Acts (fun bo => bo) False False val w p q :=
  fun _ => Or.inr (Or.inr ⟨not_false, not_false, rfl⟩)

/-- Two transformers one after the other. -/
theorem acts_comp {T1 T2 : Buffer → Buffer} {F1 S1 F2 S2 : Prop} {val w p q : Nat}
    (h1 : Acts T1 F1 S1 val w p q) (h2 : Acts T2 F2 S2 val w p q)
    (hw : S1 ∨ S2 → val = w) :
    Acts (fun bo => T2 (T1 bo)) (F1 ∨ F2) (S1 ∨ S2) val w p q := by
  intro bo
  rcases h1 bo with ⟨a1, a2⟩ | ⟨a1, a2, a3⟩ | ⟨a1, a2, a3⟩ <;>
    rcases h2 (T1 bo) with ⟨b1, b2⟩ | ⟨b1, b2, b3⟩ | ⟨b1, b2, b3⟩
  · exact Or.inl ⟨Or.inl a1, b2⟩
  · refine Or.inl ⟨Or.inl a1, ?_⟩
    simp only [b3, a2, hw (Or.inr b2), keep_wall_self]
  · exact Or.inl ⟨Or.inl a1, by simp only [b3, a2]⟩
  · exact Or.inl ⟨Or.inr b1, b2⟩
  · refine Or.inr (Or.inl ⟨by tauto, Or.inl a2, ?_⟩)
    simp only [b3, a3, keep_wall_idem]
  · exact Or.inr (Or.inl ⟨by tauto, Or.inl a2, by simp only [b3, a3]⟩)
  · exact Or.inl ⟨Or.inr b1, b2⟩
  · exact Or.inr (Or.inl ⟨by tauto, Or.inr b2, by simp only [b3, a3]⟩)
  · exact Or.inr (Or.inr ⟨by tauto, by tauto, by simp only [b3, a3]⟩)

/-- A list of transformers one after the other. -/
theorem acts_foldl {α : Type} (T : α → Buffer → Buffer) (F S : α → Prop) {val w p q : Nat}
    (hw : ∀ a, S a → val = w) (l : List α) (h : ∀ a ∈ l, Acts (T a) (F a) (S a) val w p q) :
    Acts (fun bo => l.foldl (fun b a => T a b) bo) (∃ a ∈ l, F a) (∃ a ∈ l, S a) val w p q := by
  induction l with
  | nil =>
    simp only [List.foldl_nil]
    exact acts_congr (acts_id val w p q) (by simp) (by simp)
  | cons a l ih =>
    simp only [List.foldl_cons]
    have h1 := h a (List.mem_cons_self a l)
    have h2 := ih (fun b hb => h b (List.mem_cons_of_mem a hb))
    refine acts_congr (acts_comp h1 h2 ?_) (by simp) (by simp)
    rintro (hs | ⟨b, _, hs⟩)
    · exact hw a hs
    · exact hw b hs

/-- The unconditional write of a character. -/
theorem acts_setChar (r c v val w p q : Nat) (hv : p = r ∧ q = c → v = val) :
    Acts (fun bo => setChar bo r c v) (p = r ∧ q = c) False val w p q := by
  intro bo
  by_cases h : p = r ∧ q = c
  · exact Or.inl ⟨h, by simp [setChar, h, hv h]⟩
  · exact Or.inr (Or.inr ⟨h, not_false, by simp [setChar, h]⟩)

/-- The soft write of a wall position: blank it unless it holds the wall glyph. -/
theorem acts_soft (r c g val w p q : Nat) (hg : p = r ∧ q = c → g = w) :
    Acts (fun bo => if bo r c ≠ g then setChar bo r c SPACE else bo) False (p = r ∧ q = c)
      val w p q := by
  intro bo
  by_cases h : p = r ∧ q = c
  · refine Or.inr (Or.inl ⟨not_false, h, ?_⟩)
    have hgw := hg h
    obtain ⟨rfl, rfl⟩ := h
    subst hgw
    by_cases h2 : bo p q = g <;> simp [setChar, keep_wall, h2]
  · refine Or.inr (Or.inr ⟨not_false, h, ?_⟩)
    by_cases h2 : bo r c = g <;> simp [setChar, h, h2]

theorem valAt_wall (board : Board) {p q : Nat} (h : p % 2 = 0 ∨ q % 2 = 0) :
    valAt board p q = wallGlyph q := by
  unfold valAt
  rw [if_neg]
  omega

theorem wallGlyph_even {q : Nat} (h : q % 2 = 0) : wallGlyph q = WALLVERT := by
  simp [wallGlyph, h]

theorem wallGlyph_odd {q : Nat} (h : q % 2 = 1) : wallGlyph q = WALLHORIZ := by
  simp [wallGlyph, h]

theorem valAt_centre (board : Board) (i j : Nat) :
    valAt board (2 * i + 1) (2 * j + 1) = cellGlyph board i j := by
  unfold valAt
  rw [if_pos (by omega)]
  congr 1 <;> omega

/-- The shape of the left and right wall steps: at an edge of the board the wall glyph is
forced on three rows, with the wall flag on one, and otherwise the position is written
softly. -/
theorem acts_wall_corner (edge flag : Prop) [Decidable edge] [Decidable flag]
    (r r0 r1 c g val w p q : Nat) (hv : q = c → g = val) (hg : q = c → g = w) :
    Acts (fun bo =>
        if edge ∨ flag then
          (if edge then setChar (setChar (setChar bo r c g) r0 c g) r1 c g
           else setChar bo r c g)
        else if bo r c ≠ g then setChar bo r c SPACE else bo)
      (((edge ∨ flag) ∧ p = r ∧ q = c) ∨ (edge ∧ (p = r0 ∨ p = r1) ∧ q = c))
      (p = r ∧ q = c) val w p q := by
  by_cases hc : edge ∨ flag
  · simp only [if_pos hc]
    by_cases hj : edge
    · simp only [if_pos hj]
      refine acts_congr (acts_comp (acts_comp (acts_setChar r c g val w p q (fun h => hv h.2))
        (acts_setChar r0 c g val w p q (fun h => hv h.2)) (by tauto))
        (acts_setChar r1 c g val w p q (fun h => hv h.2)) (by tauto)) ?_ ?_
      · constructor
        · rintro ((h | h) | h)
          · exact Or.inl ⟨hc, h⟩
          · exact Or.inr ⟨hj, Or.inl h.1, h.2⟩
          · exact Or.inr ⟨hj, Or.inr h.1, h.2⟩
        · rintro (⟨_, h⟩ | ⟨_, h | h, hq⟩)
          · exact Or.inl (Or.inl h)
          · exact Or.inl (Or.inr ⟨h, hq⟩)
          · exact Or.inr ⟨h, hq⟩
      · intro hF
        constructor
        · intro h
          tauto
        · intro h
          exact absurd (Or.inl (Or.inl h)) hF
    · simp only [if_neg hj]
      refine acts_congr (acts_setChar r c g val w p q (fun h => hv h.2)) ?_ ?_
      · constructor
        · intro h
          exact Or.inl ⟨hc, h⟩
        · rintro (⟨_, h⟩ | ⟨h, _⟩)
          · exact h
          · exact absurd h hj
      · intro hF
        constructor
        · intro h
          exact h.elim
        · intro h
          exact absurd h hF
  · simp only [if_neg hc]
    refine acts_congr (acts_soft r c g val w p q (fun h => hg h.2)) ?_ ?_
    · constructor
      · intro h
        exact h.elim
      · rintro (⟨h, _⟩ | ⟨h, _⟩)
        · exact hc h
        · exact hc (Or.inl h)
    · intro _
      exact Iff.rfl

/-- The shape of the top and bottom wall steps. -/
theorem acts_wall_plain (cond : Prop) [Decidable cond] (r c g val w p q : Nat)
    (hv : p = r ∧ q = c → g = val) (hg : p = r ∧ q = c → g = w) :
    Acts (fun bo =>
        if cond then setChar bo r c g
        else if bo r c ≠ g then setChar bo r c SPACE else bo)
      (cond ∧ p = r ∧ q = c) (p = r ∧ q = c) val w p q := by
  by_cases hc : cond
  · simp only [if_pos hc]
    refine acts_congr (acts_setChar r c g val w p q hv) ?_ ?_
    · exact ⟨fun h => ⟨hc, h⟩, fun h => h.2⟩
    · intro hF
      exact ⟨fun h => h.elim, fun h => absurd h hF⟩
  · simp only [if_neg hc]
    refine acts_congr (acts_soft r c g val w p q hg) ?_ ?_
    · exact ⟨fun h => h.elim, fun h => hc h.1⟩
    · intro _
      exact Iff.rfl

theorem acts_left_wall (board : Board) (square : square_t) (i j p q : Nat) :
    Acts (write_left_wall square j (2 * i + 1) (2 * j + 1))
      (((j = 0 ∨ hasFlag square.contents HAS_LEFT_WALL = true) ∧ p = 2 * i + 1 ∧ q = 2 * j)
        ∨ (j = 0 ∧ (p = 2 * i ∨ p = 2 * i + 2) ∧ q = 2 * j))
      (p = 2 * i + 1 ∧ q = 2 * j) (valAt board p q) (wallGlyph q) p q :=
  acts_wall_corner (j = 0) (hasFlag square.contents HAS_LEFT_WALL = true)
    (2 * i + 1) (2 * i) (2 * i + 2) (2 * j) WALLVERT _ _ p q
    (fun hq => by rw [valAt_wall board (Or.inr (by omega)), wallGlyph_even (by omega)])
    (fun hq => by rw [wallGlyph_even (by omega)])

theorem acts_right_wall (board : Board) (square : square_t) (size_x i j p q : Nat) :
    Acts (write_right_wall square size_x j (2 * i + 1) (2 * j + 1))
      ((((j : Int) = (size_x : Int) - 1 ∨ hasFlag square.contents HAS_RIGHT_WALL = true)
          ∧ p = 2 * i + 1 ∧ q = 2 * j + 2)
        ∨ ((j : Int) = (size_x : Int) - 1 ∧ (p = 2 * i ∨ p = 2 * i + 2) ∧ q = 2 * j + 2))
      (p = 2 * i + 1 ∧ q = 2 * j + 2) (valAt board p q) (wallGlyph q) p q := by
  have h := acts_wall_corner ((j : Int) = (size_x : Int) - 1)
    (hasFlag square.contents HAS_RIGHT_WALL = true)
    (2 * i + 1) (2 * i) (2 * i + 2) (2 * j + 2) WALLVERT (valAt board p q) (wallGlyph q) p q
    (fun hq => by rw [valAt_wall board (Or.inr (by omega)), wallGlyph_even (by omega)])
    (fun hq => by rw [wallGlyph_even (by omega)])
  intro bo
  have hb := h bo
  simp only [write_right_wall, decide_eq_true_eq]
  exact hb

theorem acts_top_wall (board : Board) (square : square_t) (i j p q : Nat) :
    Acts (write_top_wall square i (2 * i + 1) (2 * j + 1))
      ((i = 0 ∨ hasFlag square.contents HAS_TOP_WALL = true) ∧ p = 2 * i ∧ q = 2 * j + 1)
      (p = 2 * i ∧ q = 2 * j + 1) (valAt board p q) (wallGlyph q) p q :=
  acts_wall_plain (i = 0 ∨ hasFlag square.contents HAS_TOP_WALL = true)
    (2 * i) (2 * j + 1) WALLHORIZ _ _ p q
    (fun h => by rw [valAt_wall board (Or.inl (by omega)), wallGlyph_odd (by omega)])
    (fun h => by rw [wallGlyph_odd (by omega)])

theorem acts_bottom_wall (board : Board) (square : square_t) (size_y i j p q : Nat) :
    Acts (write_bottom_wall square size_y i (2 * i + 1) (2 * j + 1))
      (((i : Int) = (size_y : Int) - 1 ∨ hasFlag square.contents HAS_BOTTOM_WALL = true)
        ∧ p = 2 * i + 2 ∧ q = 2 * j + 1)
      (p = 2 * i + 2 ∧ q = 2 * j + 1) (valAt board p q) (wallGlyph q) p q :=
  acts_wall_plain ((i : Int) = (size_y : Int) - 1 ∨ hasFlag square.contents HAS_BOTTOM_WALL = true)
    (2 * i + 2) (2 * j + 1) WALLHORIZ _ _ p q
    (fun h => by rw [valAt_wall board (Or.inl (by omega)), wallGlyph_odd (by omega)])
    (fun h => by rw [wallGlyph_odd (by omega)])

theorem acts_piece (board : Board) (i j p q : Nat) :
    Acts (write_piece (board i j) (2 * i + 1) (2 * j + 1))
      (p = 2 * i + 1 ∧ q = 2 * j + 1) False (valAt board p q) (wallGlyph q) p q := by
  have hval : p = 2 * i + 1 ∧ q = 2 * j + 1 → cellGlyph board i j = valAt board p q := by
    rintro ⟨rfl, rfl⟩
    rw [valAt_centre]
  unfold write_piece
  by_cases h : hasFlag (board i j).contents HAS_PIECE = true
  · simp only [if_pos h]
    refine acts_setChar _ _ _ _ _ p q (fun hp => ?_)
    rw [← hval hp, cellGlyph, if_pos h]
  · simp only [if_neg h]
    refine acts_setChar _ _ _ _ _ p q (fun hp => ?_)
    rw [← hval hp, cellGlyph, if_neg h]

theorem shiftLeft_one (i : Nat) : i <<< 1 = 2 * i := by
  rw [Nat.shiftLeft_eq]
  omega

theorem cellSoft_val_eq (board : Board) {i j p q : Nat} (h : CellSoft i j p q) :
    valAt board p q = wallGlyph q := by
  apply valAt_wall
  simp only [CellSoft, or_false] at h
  omega

theorem acts_cell (board : Board) (size_x size_y i j p q : Nat) :
    Acts (fun bo => write_board_cell board size_x size_y bo i j)
      (CellForces board size_x size_y i j p q) (CellSoft i j p q)
      (valAt board p q) (wallGlyph q) p q := by
  have hw : CellSoft i j p q → valAt board p q = wallGlyph q := cellSoft_val_eq board
  unfold write_board_cell
  simp only [shiftLeft_one]
  exact acts_comp (acts_comp (acts_comp (acts_comp (acts_left_wall board (board i j) i j p q)
    (acts_right_wall board (board i j) size_x i j p q)
    (fun h => hw (Or.inl (Or.inl (Or.inl h)))))
    (acts_top_wall board (board i j) i j p q)
    (fun h => hw (Or.inl (Or.inl h))))
    (acts_bottom_wall board (board i j) size_y i j p q)
    (fun h => hw (Or.inl h)))
    (acts_piece board i j p q) hw

/-- The way `write_board` acts on the position `(p, q)`: some cell of the board forces the
character, or else some cell writes it softly, or else it is left as it was. -/
theorem acts_write_board (board : Board) (size_x size_y p q : Nat) :
    Acts (fun bo => write_board board bo size_x size_y)
      (Forced board size_x size_y p q) (Soft size_x size_y p q)
      (valAt board p q) (wallGlyph q) p q := by
  unfold write_board Forced Soft
  apply acts_foldl
    (fun i bo => (List.range size_x).foldl
      (fun bo1 j => write_board_cell board size_x size_y bo1 i j) bo)
    (fun i => ∃ j ∈ List.range size_x, CellForces board size_x size_y i j p q)
    (fun i => ∃ j ∈ List.range size_x, CellSoft i j p q)
  · rintro i ⟨j, _, h⟩
    exact cellSoft_val_eq board h
  · intro i _
    apply acts_foldl (fun j bo1 => write_board_cell board size_x size_y bo1 i j)
      (fun j => CellForces board size_x size_y i j p q) (fun j => CellSoft i j p q)
    · intro j h
      exact cellSoft_val_eq board h
    · intro j _
      exact acts_cell board size_x size_y i j p q

/-! ## What each cell forces -/

theorem cellForces_left {board : Board} {size_x size_y i j : Nat}
    (h : j = 0 ∨ hasFlag (board i j).contents HAS_LEFT_WALL = true) :
    CellForces board size_x size_y i j (2 * i + 1) (2 * j) :=
  Or.inl (Or.inl (Or.inl (Or.inl (Or.inl ⟨h, rfl, rfl⟩))))

theorem cellForces_left_corner {board : Board} {size_x size_y i j p : Nat}
    (h : j = 0) (hp : p = 2 * i ∨ p = 2 * i + 2) :
    CellForces board size_x size_y i j p (2 * j) :=
  Or.inl (Or.inl (Or.inl (Or.inl (Or.inr ⟨h, hp, rfl⟩))))

theorem cellForces_right {board : Board} {size_x size_y i j : Nat}
    (h : j + 1 = size_x ∨ hasFlag (board i j).contents HAS_RIGHT_WALL = true) :
    CellForces board size_x size_y i j (2 * i + 1) (2 * j + 2) :=
  Or.inl (Or.inl (Or.inl (Or.inr (Or.inl ⟨h.imp (fun h => by omega) id, rfl, rfl⟩))))

theorem cellForces_right_corner {board : Board} {size_x size_y i j p : Nat}
    (h : j + 1 = size_x) (hp : p = 2 * i ∨ p = 2 * i + 2) :
    CellForces board size_x size_y i j p (2 * j + 2) :=
  Or.inl (Or.inl (Or.inl (Or.inr (Or.inr ⟨by omega, hp, rfl⟩))))

theorem cellForces_top {board : Board} {size_x size_y i j : Nat}
    (h : i = 0 ∨ hasFlag (board i j).contents HAS_TOP_WALL = true) :
    CellForces board size_x size_y i j (2 * i) (2 * j + 1) :=
  Or.inl (Or.inl (Or.inr ⟨h, rfl, rfl⟩))

theorem cellForces_bottom {board : Board} {size_x size_y i j : Nat}
    (h : i + 1 = size_y ∨ hasFlag (board i j).contents HAS_BOTTOM_WALL = true) :
    CellForces board size_x size_y i j (2 * i + 2) (2 * j + 1) :=
  Or.inl (Or.inr ⟨h.imp (fun h => by omega) id, rfl, rfl⟩)

theorem cellForces_centre {board : Board} {size_x size_y i j : Nat} :
    CellForces board size_x size_y i j (2 * i + 1) (2 * j + 1) :=
  Or.inr ⟨rfl, rfl⟩

theorem cellSoft_left {i j : Nat} : CellSoft i j (2 * i + 1) (2 * j) :=
  Or.inl (Or.inl (Or.inl (Or.inl ⟨rfl, rfl⟩)))

theorem cellSoft_right {i j : Nat} : CellSoft i j (2 * i + 1) (2 * j + 2) :=
  Or.inl (Or.inl (Or.inl (Or.inr ⟨rfl, rfl⟩)))

theorem cellSoft_top {i j : Nat} : CellSoft i j (2 * i) (2 * j + 1) :=
  Or.inl (Or.inl (Or.inr ⟨rfl, rfl⟩))

theorem cellSoft_bottom {i j : Nat} : CellSoft i j (2 * i + 2) (2 * j + 1) :=
  Or.inl (Or.inr ⟨rfl, rfl⟩)

theorem forced_intro {board : Board} {size_x size_y i j p q : Nat} (hi : i < size_y)
    (hj : j < size_x) (h : CellForces board size_x size_y i j p q) :
    Forced board size_x size_y p q :=
  ⟨i, List.mem_range.mpr hi, j, List.mem_range.mpr hj, h⟩

theorem soft_intro {size_x size_y i j p q : Nat} (hi : i < size_y) (hj : j < size_x)
    (h : CellSoft i j p q) : Soft size_x size_y p q :=
  ⟨i, List.mem_range.mpr hi, j, List.mem_range.mpr hj, h⟩

/-- A position of the grid that no cell writes is a corner off the first and last column. -/
theorem untouched_is_inner_corner {board : Board} {size_x size_y p q : Nat}
    (hx : 0 < size_x) (hy : 0 < size_y) (hp : p ≤ 2 * size_y) (hq : q ≤ 2 * size_x)
    (hF : ¬ Forced board size_x size_y p q) (hS : ¬ Soft size_x size_y p q) :
    p % 2 = 0 ∧ q % 2 = 0 ∧ 0 < q ∧ q < 2 * size_x := by
  have hcol : ∀ i, i < size_y → (p = 2 * i ∨ p = 2 * i + 2) → q % 2 = 0 →
      0 < q ∧ q < 2 * size_x := by
    intro i hi hpi hq2
    by_contra hcon
    by_cases h0 : q = 0
    · apply hF
      refine forced_intro (i := i) (j := 0) hi hx ?_
      rw [h0]
      exact cellForces_left_corner rfl hpi
    · apply hF
      have hq' : q = 2 * (size_x - 1) + 2 := by omega
      refine forced_intro (i := i) (j := size_x - 1) hi (by omega) ?_
      rw [hq']
      exact cellForces_right_corner (by omega) hpi
  by_cases hp2 : p % 2 = 1
  · exfalso
    have hi : p / 2 < size_y := by omega
    have hpe : p = 2 * (p / 2) + 1 := by omega
    by_cases hq2 : q % 2 = 1
    · apply hF
      have hqe : q = 2 * (q / 2) + 1 := by omega
      refine forced_intro (i := p / 2) (j := q / 2) hi (by omega) ?_
      rw [hpe, hqe]
      simp only [show (2 * (p / 2) + 1) / 2 = p / 2 by omega,
        show (2 * (q / 2) + 1) / 2 = q / 2 by omega]
      exact cellForces_centre
    · apply hS
      by_cases hlt : q < 2 * size_x
      · have hqe : q = 2 * (q / 2) := by omega
        refine soft_intro (i := p / 2) (j := q / 2) hi (by omega) ?_
        rw [hpe, hqe]
        simp only [show (2 * (p / 2) + 1) / 2 = p / 2 by omega,
          show (2 * (q / 2)) / 2 = q / 2 by omega]
        exact cellSoft_left
      · have hqe : q = 2 * (size_x - 1) + 2 := by omega
        refine soft_intro (i := p / 2) (j := size_x - 1) hi (by omega) ?_
        rw [hpe, hqe]
        simp only [show (2 * (p / 2) + 1) / 2 = p / 2 by omega]
        exact cellSoft_right
  · have hp0 : p % 2 = 0 := by omega
    by_cases hq2 : q % 2 = 1
    · exfalso
      apply hS
      have hj : q / 2 < size_x := by omega
      have hqe : q = 2 * (q / 2) + 1 := by omega
      by_cases hlt : p < 2 * size_y
      · have hpe : p = 2 * (p / 2) := by omega
        refine soft_intro (i := p / 2) (j := q / 2) (by omega) hj ?_
        rw [hpe, hqe]
        simp only [show (2 * (q / 2) + 1) / 2 = q / 2 by omega,
          show (2 * (p / 2)) / 2 = p / 2 by omega]
        exact cellSoft_top
      · have hpe : p = 2 * (size_y - 1) + 2 := by omega
        refine soft_intro (i := size_y - 1) (j := q / 2) (by omega) hj ?_
        rw [hpe, hqe]
        simp only [show (2 * (q / 2) + 1) / 2 = q / 2 by omega]
        exact cellSoft_bottom
    · have hq0 : q % 2 = 0 := by omega
      by_cases hlt : p < 2 * size_y
      · exact ⟨hp0, hq0, hcol (p / 2) (by omega) (Or.inl (by omega)) hq0⟩
      · exact ⟨hp0, hq0, hcol (size_y - 1) (by omega) (Or.inr (by omega)) hq0⟩

/-! ## What write_board leaves at a position -/

theorem write_board_forced {board : Board} {size_x size_y p q : Nat} (bo : Buffer)
    (h : Forced board size_x size_y p q) :
    write_board board bo size_x size_y p q = valAt board p q := by
  rcases acts_write_board board size_x size_y p q bo with ⟨_, a⟩ | ⟨a, _⟩ | ⟨a, _⟩
  · exact a
  · exact absurd h a
  · exact absurd h a

theorem write_board_soft {board : Board} {size_x size_y p q : Nat} (bo : Buffer)
    (h : ¬ Forced board size_x size_y p q) (hs : Soft size_x size_y p q) :
    write_board board bo size_x size_y p q = keep_wall (wallGlyph q) (bo p q) := by
  rcases acts_write_board board size_x size_y p q bo with ⟨a, _⟩ | ⟨_, _, a⟩ | ⟨_, a, _⟩
  · exact absurd a h
  · exact a
  · exact absurd hs a

/-- What forces the wall position between the cells `(i, j)` and `(i, j + 1)`. -/
theorem forced_vertical_iff {board : Board} {size_x size_y i j : Nat} (hi : i < size_y)
    (hj : j + 1 < size_x) :
    Forced board size_x size_y (2 * i + 1) (2 * j + 2)
      ↔ (hasFlag (board i j).contents HAS_RIGHT_WALL = true
          ∨ hasFlag (board i (j + 1)).contents HAS_LEFT_WALL = true) := by
  constructor
  · rintro ⟨i2, _, j2, _, h⟩
    unfold CellForces at h
    rcases h with (((((⟨hc, hp, hq⟩ | ⟨_, hp, hq⟩) | (⟨hc, hp, hq⟩ | ⟨_, hp, hq⟩))
      | ⟨_, hp, hq⟩) | ⟨_, hp, hq⟩) | ⟨hp, hq⟩)
    · have e1 : i2 = i := by omega
      have e2 : j2 = j + 1 := by omega
      subst e1 e2
      rcases hc with hc | hc
      · omega
      · exact Or.inr hc
    · omega
    · have e1 : i2 = i := by omega
      have e2 : j2 = j := by omega
      subst e1 e2
      rcases hc with hc | hc
      · omega
      · exact Or.inl hc
    · omega
    · omega
    · omega
    · omega
  · rintro (h | h)
    · exact forced_intro hi (by omega) (cellForces_right (Or.inr h))
    · have := forced_intro (p := 2 * i + 1) (q := 2 * (j + 1)) hi hj
        (cellForces_left (Or.inr h))
      exact this

/-- What forces the wall position between the cells `(i, j)` and `(i + 1, j)`. -/
theorem forced_horizontal_iff {board : Board} {size_x size_y i j : Nat} (hi : i + 1 < size_y)
    (hj : j < size_x) :
    Forced board size_x size_y (2 * i + 2) (2 * j + 1)
      ↔ (hasFlag (board i j).contents HAS_BOTTOM_WALL = true
          ∨ hasFlag (board (i + 1) j).contents HAS_TOP_WALL = true) := by
  constructor
  · rintro ⟨i2, _, j2, _, h⟩
    unfold CellForces at h
    rcases h with (((((⟨_, hp, hq⟩ | ⟨_, hp, hq⟩) | (⟨_, hp, hq⟩ | ⟨_, hp, hq⟩))
      | ⟨hc, hp, hq⟩) | ⟨hc, hp, hq⟩) | ⟨hp, hq⟩)
    · omega
    · omega
    · omega
    · omega
    · have e1 : i2 = i + 1 := by omega
      have e2 : j2 = j := by omega
      subst e1 e2
      rcases hc with hc | hc
      · omega
      · exact Or.inr hc
    · have e1 : i2 = i := by omega
      have e2 : j2 = j := by omega
      subst e1 e2
      rcases hc with hc | hc
      · omega
      · exact Or.inl hc
    · omega
  · rintro (h | h)
    · exact forced_intro (by omega) hj (cellForces_bottom (Or.inr h))
    · have := forced_intro (p := 2 * (i + 1)) (q := 2 * j + 1) hi hj
        (cellForces_top (Or.inr h))
      exact this

/-! ## More on the result of a move -/

/-- With a valid robot id and an invalid direction the board is returned as it is. -/
theorem move_robot_bad_direction {robot : Int} {d : KBKEY} (board : Board)
    (size_x size_y winningPos : Nat) (winningRobot : Int)
    (hr1 : 1 ≤ robot) (hr2 : robot ≤ MAX_ROBOTS) (hd : ¬ ValidDir d) :
    move_robot robot d board size_x size_y winningPos winningRobot
      = some (POSINFO.NORMAL, board) := by
  have h1 : ¬ (robot ≤ 0 ∨ robot > MAX_ROBOTS) := by omega
  have h2 : d ≠ KBKEY.KBUP ∧ d ≠ KBKEY.KBLEFT ∧ d ≠ KBKEY.KBRIGHT ∧ d ≠ KBKEY.KBDOWN := by
    unfold ValidDir at hd
    cases d <;> simp at hd ⊢
  unfold move_robot
  rw [if_neg h1, if_pos h2]

/-- With a valid robot id and a valid direction, a robot that `find_robot` does not find
leaves `move_robot` without a defined result: the test of line 573 does not stop it. -/
theorem move_robot_not_found {robot : Int} {d : KBKEY} {board : Board} {size_x size_y : Nat}
    (winningPos : Nat) (winningRobot : Int)
    (hr1 : 1 ≤ robot) (hr2 : robot ≤ MAX_ROBOTS) (hd : ValidDir d)
    (hf : find_robot robot board size_x size_y = none) :
    move_robot robot d board size_x size_y winningPos winningRobot = none := by
  have h1 : ¬ (robot ≤ 0 ∨ robot > MAX_ROBOTS) := by omega
  have h2 : ¬ (d ≠ KBKEY.KBUP ∧ d ≠ KBKEY.KBLEFT ∧ d ≠ KBKEY.KBRIGHT ∧ d ≠ KBKEY.KBDOWN) := by
    rcases hd with rfl | rfl | rfl | rfl <;> simp
  have h3 : ¬ robot = 0 := by omega
  unfold move_robot
  rw [if_neg h1, if_neg h2]
  simp only [if_neg h3, hf]

/-- The cell a robot leaves does not hold the robot afterwards, when its stash, if it has
one, is not the robot's own glyph. -/
theorem vacated_not_glyph (s : square_t) (k : Int)
    (hstash : hasFlag s.contents HAS_ENCODED_LETTER = true →
      (((s.contents >>> 24) % 256 : Nat) : Int) ≠ 48 + k) :
    ¬ (hasFlag (vacated s).contents HAS_PIECE = true ∧ ((vacated s).piece : Int) = 48 + k) := by
  unfold vacated
  by_cases he : hasFlag s.contents HAS_ENCODED_LETTER = true
  · rw [if_pos he]
    rintro ⟨_, h⟩
    exact hstash he h
  · rw [if_neg he]
    rintro ⟨h, _⟩
    simp only at h
    rw [hasFlag_piece, Nat.testBit_and, testBit_not_piece] at h
    simp at h

/-- The letter cell after a robot has stepped onto it: the encoded-letter flag is set. -/
theorem hasFlag_entered_stash_encoded (s : square_t) (glyph : Nat) :
    hasFlag (entered (stash s) glyph).contents HAS_ENCODED_LETTER = true := by
  show hasFlag ((s.contents ||| (HAS_ENCODED_LETTER ||| (s.piece <<< 24) % 2 ^ 32))
    ||| HAS_PIECE) HAS_ENCODED_LETTER = true
  rw [hasFlag_encoded, testBit_or_piece, testBit_stash]
  simp

/-- The letter cell after a robot has stepped onto it: its top byte is the letter, when the
byte was zero before. -/
theorem top_byte_entered_stash (s : square_t) (glyph : Nat)
    (h0 : (s.contents >>> 24) % 256 = 0) (hp : s.piece < 256) :
    ((entered (stash s) glyph).contents >>> 24) % 256 = s.piece := by
  show (((s.contents ||| (HAS_ENCODED_LETTER ||| (s.piece <<< 24) % 2 ^ 32))
    ||| HAS_PIECE) >>> 24) % 256 = s.piece
  have h256 : (256 : Nat) = 2 ^ 8 := by norm_num
  have hbits : ∀ j, j < 8 → s.contents.testBit (24 + j) = false := by
    intro j hj
    have := congrArg (fun n => Nat.testBit n j) h0
    simp only [h256, Nat.testBit_mod_two_pow, Nat.testBit_shiftRight, Nat.zero_testBit] at this
    simpa [hj] using this
  apply Nat.eq_of_testBit_eq
  intro j
  rw [h256, Nat.testBit_mod_two_pow, Nat.testBit_shiftRight, testBit_or_piece, testBit_stash]
  by_cases hj : j < 8
  · have e1 : ¬ (24 + j = 5) := by omega
    have e2 : ¬ (24 + j = 4) := by omega
    have e3 : 24 + j < 32 := by omega
    have e4 : 24 + j - 24 = j := by omega
    simp [hj, e1, e2, e3, e4, hbits j hj]
  · have h8 : s.piece < 2 ^ 8 := by omega
    have e5 : s.piece.testBit j = false := testBit_lt_of_le h8 (by omega)
    simp [hj, e5]

/-! ## GetLinesFromFile -/

theorem c_str_terminated {buffer : List Nat} (h : ∀ ch ∈ buffer, ch ≠ 0) :
    c_str (buffer ++ [0]) = buffer := by
  unfold c_str
  induction buffer with
  | nil => simp
  | cons a l ih =>
    have ha : a ≠ 0 := h a (List.mem_cons_self _ _)
    simp only [List.cons_append, List.takeWhile_cons, bne_iff_ne, ne_eq, ha, not_false_eq_true,
      ↓reduceIte, List.cons.injEq, true_and]
    exact ih (fun ch hch => h ch (List.mem_cons_of_mem _ hch))

theorem storeLines_nil (v : Lines) (r : Nat) : storeLines v r [] = v := by
  funext i
  simp [storeLines]

theorem storeLines_cons (v : Lines) (r : Nat) (line : List Nat) (runs : List (List Nat)) :
    storeLines (setLine v r line) (r + 1) runs = storeLines v r (line :: runs) := by
  funext i
  unfold storeLines setLine
  by_cases h1 : i < r
  · have h2 : i < r + 1 := by omega
    have h3 : i ≠ r := by omega
    simp [h1, h2, h3]
  · by_cases h2 : i = r
    · subst h2
      simp
    · have h3 : ¬ i < r + 1 := by omega
      have h4 : i - r = (i - (r + 1)) + 1 := by omega
      simp only [h1, h3, ↓reduceIte, h2]
      rw [h4, List.getElem?_cons_succ]

/-- The invariant of the loop of `GetLinesFromFile`. -/
theorem GetLinesFromFile_loop_spec (file : List Nat) :
    ∀ (buffer : List Nat) (v : Lines) (r : Nat),
      (∀ ch ∈ buffer, ch ≠ 0) → (∀ ch ∈ file, ch ≠ 0) →
      GetLinesFromFile_loop file buffer v r
        = (storeLines v r
            (((file.splitOnP (fun ch => ch == 10 || ch == 13)).modifyHead
                (fun run => buffer ++ run)).filter (fun run => !run.isEmpty)),
           r + (((file.splitOnP (fun ch => ch == 10 || ch == 13)).modifyHead
                (fun run => buffer ++ run)).filter (fun run => !run.isEmpty)).length) := by
  induction file with
  | nil =>
    intro buffer v r hb _
    simp only [GetLinesFromFile_loop, strlen, c_str_terminated hb, List.splitOnP_nil,
      List.modifyHead_cons, List.append_nil]
    cases buffer with
    | nil => simp [storeLines_nil]
    | cons a l => simp [← storeLines_cons, storeLines_nil]
  | cons ch file ih =>
    intro buffer v r hb hf
    have hf1 : ∀ c ∈ file, c ≠ 0 := fun c hc => hf c (List.mem_cons_of_mem _ hc)
    have hch : ch ≠ 0 := hf ch (List.mem_cons_self _ _)
    rw [GetLinesFromFile_loop, List.splitOnP_cons]
    by_cases hnl : ch = 10 ∨ ch = 13
    · have hp : (ch == 10 || ch == 13) = true := by simpa using hnl
      simp only [hnl, ↓reduceIte, hp, strlen, c_str_terminated hb, List.modifyHead_cons,
        List.append_nil]
      have hrest := fun v r => ih [] v r (by simp) hf1
      have hid : (List.splitOnP (fun ch => ch == 10 || ch == 13) file).modifyHead
          (fun run => [] ++ run) = List.splitOnP (fun ch => ch == 10 || ch == 13) file := by
        cases List.splitOnP (fun ch => ch == 10 || ch == 13) file <;> simp
      simp only [hid] at hrest
      cases buffer with
      | nil => simp [hrest]
      | cons a l =>
        simp only [List.length_cons, gt_iff_lt, Nat.zero_lt_succ, ↓reduceIte, hrest,
          storeLines_cons, List.isEmpty_cons, Bool.not_false, List.filter_cons_of_pos]
        simp [Nat.add_assoc, Nat.add_comm 1]
    · have hp : (ch == 10 || ch == 13) = false := by simpa using hnl
      simp only [hnl, ↓reduceIte, hp, Bool.false_eq_true]
      have hb1 : ∀ c ∈ buffer ++ [ch], c ≠ 0 := by
        intro c hc
        rcases List.mem_append.mp hc with h | h
        · exact hb c h
        · simpa using (List.mem_singleton.mp h) ▸ hch
      rw [ih (buffer ++ [ch]) v r hb1 hf1]
      have hid : ((List.splitOnP (fun ch => ch == 10 || ch == 13) file).modifyHead
            (List.cons ch)).modifyHead (fun run => buffer ++ run)
          = (List.splitOnP (fun ch => ch == 10 || ch == 13) file).modifyHead
            (fun run => (buffer ++ [ch]) ++ run) := by
        cases List.splitOnP (fun ch => ch == 10 || ch == 13) file <;> simp
      rw [hid]

/-! ## set_contents -/

theorem setCell_self (board : Board) (row col : Nat) :
    setCell board row col (board row col) = board := by
  funext i j
  unfold setCell
  by_cases h : i = row ∧ j = col
  · obtain ⟨rfl, rfl⟩ := h
    simp
  · simp [h]

theorem setCell_setCell (board : Board) (row col : Nat) (s t : square_t) :
    setCell (setCell board row col s) row col t = setCell board row col t := by
  funext i j
  unfold setCell
  by_cases h : i = row ∧ j = col <;> simp [h]

theorem setCell_same (board : Board) (row col : Nat) (s : square_t) :
    setCell board row col s row col = s := by
  simp [setCell]

theorem setCell_other (board : Board) (row col : Nat) (s : square_t) (i j : Nat)
    (h : ¬ (i = row ∧ j = col)) : setCell board row col s i j = board i j := by
  simp [setCell, h]

theorem takeWhile_token (t rest : List Nat) (h : ∀ ch ∈ t, ch ≠ 32) :
    (t ++ 32 :: rest).takeWhile (fun ch => ch != 32) = t
      ∧ (t ++ 32 :: rest).dropWhile (fun ch => ch != 32) = 32 :: rest := by
  induction t with
  | nil => simp
  | cons a l ih =>
    have ha : a ≠ 32 := h a (List.mem_cons_self _ _)
    have h1 := ih (fun ch hch => h ch (List.mem_cons_of_mem _ hch))
    simp [List.takeWhile_cons, List.dropWhile_cons, ha, h1]

theorem takeWhile_token_end (t : List Nat) (h : ∀ ch ∈ t, ch ≠ 32) :
    t.takeWhile (fun ch => ch != 32) = t ∧ t.dropWhile (fun ch => ch != 32) = [] := by
  induction t with
  | nil => simp
  | cons a l ih =>
    have ha : a ≠ 32 := h a (List.mem_cons_self _ _)
    have h1 := ih (fun ch hch => h ch (List.mem_cons_of_mem _ hch))
    simp [List.takeWhile_cons, List.dropWhile_cons, ha, h1]

theorem strtok_nil : strtok [] = none := rfl

/-- On a token followed by a space `strtok` returns the token. -/
theorem strtok_token {t : List Nat} (ht : IsToken t) (rest : List Nat) :
    strtok (t ++ 32 :: rest) = some (t, 32 :: rest) := by
  obtain ⟨hne, hch⟩ := ht
  cases t with
  | nil => exact absurd rfl hne
  | cons a l =>
    have ha : a ≠ 32 := (hch a (List.mem_cons_self _ _)).1
    have htd := takeWhile_token (a :: l) rest (fun ch h => (hch ch h).1)
    have hd : ((a :: l) ++ 32 :: rest).dropWhile (fun ch => ch == 32)
        = (a :: l) ++ 32 :: rest := by
      simp [List.dropWhile_cons, ha]
    unfold strtok
    simp only [hd, htd.1, htd.2]
    simp

/-- On a token that ends the line `strtok` returns the token. -/
theorem strtok_token_end {t : List Nat} (ht : IsToken t) : strtok t = some (t, []) := by
  obtain ⟨hne, hch⟩ := ht
  cases t with
  | nil => exact absurd rfl hne
  | cons a l =>
    have ha : a ≠ 32 := (hch a (List.mem_cons_self _ _)).1
    have htd := takeWhile_token_end (a :: l) (fun ch h => (hch ch h).1)
    have hd : (a :: l).dropWhile (fun ch => ch == 32) = a :: l := by
      simp [List.dropWhile_cons, ha]
    unfold strtok
    simp only [hd, htd.1, htd.2]
    simp

/-- What `strtok` leaves is shorter than what it was given. -/
theorem strtok_length {s token rest : List Nat} (h : strtok s = some (token, rest)) :
    rest.length + 1 ≤ s.length := by
  unfold strtok at h
  by_cases he : (s.dropWhile (fun ch => ch == 32)).isEmpty = true
  · simp [he] at h
  · simp only [he, Bool.false_eq_true, ↓reduceIte, Option.some.injEq, Prod.mk.injEq] at h
    have h1 : (s.dropWhile (fun ch => ch == 32)).length ≤ s.length :=
      (List.dropWhile_sublist _).length_le
    have h2 := List.takeWhile_append_dropWhile (fun ch => ch != 32)
      (s.dropWhile (fun ch => ch == 32))
    have h3 : token ≠ [] := by
      rw [← h.1]
      cases hs : s.dropWhile (fun ch => ch == 32) with
      | nil => simp [hs] at he
      | cons a l =>
        have ha : ¬ ((a == 32) = true) := by
          have := List.head_dropWhile_not (fun ch => ch == 32) s (by simp [hs])
          simpa [hs] using this
        have ha1 : a ≠ 32 := by simpa using ha
        simp [List.takeWhile_cons, ha1]
    have h4 : 0 < token.length := List.length_pos.mpr h3
    have h5 := congrArg List.length h2
    rw [h.1, h.2, List.length_append] at h5
    omega

/-- The fuel of `set_contents_loop` is of no account once it is more than the length of what
`strtok` has still to scan. -/
theorem set_contents_loop_fuel (size_x size_y dest_char : Nat) :
    ∀ (fuel1 fuel2 : Nat) (token : Option (List Nat × List Nat)) (colIndx : Nat)
      (square : Option (Nat × Nat)) (board : Board),
      (∀ t rest, token = some (t, rest) → rest.length + 1 < fuel1) →
      (∀ t rest, token = some (t, rest) → rest.length + 1 < fuel2) →
      0 < fuel1 → 0 < fuel2 →
      set_contents_loop size_x size_y dest_char fuel1 token colIndx square board
        = set_contents_loop size_x size_y dest_char fuel2 token colIndx square board := by
  intro fuel1
  induction fuel1 with
  | zero => intro _ _ _ _ _ _ _ h; exact absurd h (by decide)
  | succ n ih =>
    intro fuel2 token colIndx square board h1 h2 _ hpos
    obtain ⟨m, rfl⟩ : ∃ m, fuel2 = m + 1 := ⟨fuel2 - 1, by omega⟩
    cases token with
    | none => simp [set_contents_loop]
    | some p =>
      obtain ⟨t, rest⟩ := p
      have hn := h1 t rest rfl
      have hm := h2 t rest rfl
      have hnext : ∀ k, rest.length + 1 < k + 1 →
          (∀ t1 rest1, strtok rest.tail = some (t1, rest1) → rest1.length + 1 < k) ∧ 0 < k := by
        intro k hk
        refine ⟨fun t1 rest1 h => ?_, by omega⟩
        have := strtok_length h
        rw [List.length_tail] at this
        omega
      have hrec : ∀ colIndx square board,
          set_contents_loop size_x size_y dest_char n (strtok rest.tail) colIndx square board
            = set_contents_loop size_x size_y dest_char m (strtok rest.tail) colIndx square
                board :=
        fun c s b => ih m _ c s b (hnext n hn).1 (hnext m hm).1 (hnext n hn).2 (hnext m hm).2
      rcases colIndx with _ | _ | _ | c
      · simp only [set_contents_loop, hrec]
      · simp only [set_contents_loop, hrec]
      · simp only [set_contents_loop, hrec]
      · simp only [set_contents_loop, hrec]

/-- The fuel `set_contents` gives its loop is enough: more fuel gives the same result. -/
theorem set_contents_fuel (board : Board) (size_x size_y : Nat) (line : List Nat)
    (dest_char fuel : Nat) (h : line.length + 1 ≤ fuel) :
    set_contents_loop size_x size_y dest_char fuel (strtok line) 0 none board
      = set_contents board size_x size_y line dest_char := by
  unfold set_contents
  apply set_contents_loop_fuel
  · intro t rest ht
    have := strtok_length ht
    omega
  · intro t rest ht
    have := strtok_length ht
    omega
  · omega
  · omega

/-- The cell of a linear index inside the board. -/
theorem row_major_index (size_x size_y index : Nat) (h : index < size_x * size_y) :
    row_major size_x size_y (index : Int) = some (index / size_x, index % size_x) := by
  have hx : 0 < size_x := by
    rcases Nat.eq_zero_or_pos size_x with h0 | h0
    · rw [h0, Nat.zero_mul] at h
      exact absurd h (Nat.not_lt_zero _)
    · exact h0
  have hrow : Int.tdiv (index : Int) (size_x : Int) = ((index / size_x : Nat) : Int) :=
    (Int.ofNat_tdiv index size_x).symm
  have hcol : (index : Int) - ((index / size_x : Nat) : Int) * (size_x : Int)
      = ((index % size_x : Nat) : Int) := by
    have := Nat.div_add_mod index size_x
    have h2 : (index : Int) = (size_x : Int) * ((index / size_x : Nat) : Int)
        + ((index % size_x : Nat) : Int) := by
      exact_mod_cast this.symm
    linarith
  have hr : index / size_x < size_y := Nat.div_lt_of_lt_mul h
  have hc : index % size_x < size_x := Nat.mod_lt _ hx
  unfold row_major
  simp only [Nat.ne_of_gt hx, ↓reduceIte, hrow, hcol]
  have hcond : (0 : Int) ≤ ((index / size_x : Nat) : Int)
      ∧ ((index / size_x : Nat) : Int) < (size_y : Int)
      ∧ (0 : Int) ≤ ((index % size_x : Nat) : Int)
      ∧ ((index % size_x : Nat) : Int) < (size_x : Int) :=
    ⟨Int.ofNat_nonneg _, by exact_mod_cast hr, Int.ofNat_nonneg _, by exact_mod_cast hc⟩
  rw [if_pos hcond, Int.toNat_ofNat, Int.toNat_ofNat]

/-- What the loop over the mask does: the reads are inside `memory`, the cell keeps its
piece and gets the bits `i` with `memory[i] = '1'` on top of the bits it had. -/
theorem set_contents_walls_spec (memory : List Nat) (row col : Nat) :
    ∀ (is : List Nat) (board : Board), (∀ i ∈ is, i < memory.length) →
      ∃ contents1,
        set_contents_walls memory row col is board
          = some (setCell board row col ⟨contents1, (board row col).piece⟩)
        ∧ ∀ k, contents1.testBit k
            = ((board row col).contents.testBit k
                || decide (k ∈ is ∧ memory[k]? = some 49)) := by
  intro is
  induction is with
  | nil =>
    intro board _
    exact ⟨(board row col).contents, by simp [set_contents_walls, setCell_self], by simp⟩
  | cons i rest ih =>
    intro board hb
    have hi : i < memory.length := hb i (List.mem_cons_self _ _)
    have hrest : ∀ j ∈ rest, j < memory.length := fun j hj => hb j (List.mem_cons_of_mem _ hj)
    have hget : memory[i]? = some memory[i] := List.getElem?_eq_getElem hi
    rw [set_contents_walls, hget]
    by_cases h49 : memory[i] = 49
    · obtain ⟨c1, hc1, hbits⟩ := ih (setCell board row col
        { board row col with contents := (board row col).contents ||| (1 <<< i) }) hrest
      refine ⟨c1, ?_, ?_⟩
      · simp only [h49, ↓reduceIte]
        rw [hc1, setCell_setCell, setCell_same]
      · intro k
        rw [hbits k, setCell_same, Nat.testBit_or, Nat.one_shiftLeft, Nat.testBit_two_pow]
        by_cases hk : i = k
        · subst hk
          simp [hget, h49]
        · have hk1 : ¬ k = i := fun h => hk h.symm
          simp [hk, hk1]
    · obtain ⟨c1, hc1, hbits⟩ := ih board hrest
      refine ⟨c1, ?_, ?_⟩
      · simp only [h49, ↓reduceIte]
        exact hc1
      · intro k
        rw [hbits k]
        by_cases hk : k = i
        · subst hk
          simp [hget, h49]
        · simp [hk]

theorem token_memory_length (token rest : List Nat) :
    token.length < (token_memory token rest).length := by
  unfold token_memory
  rw [List.length_append, List.length_cons]
  omega

theorem token_memory_get (token rest : List Nat) {k : Nat} (hk : k < token.length) :
    (token_memory token rest)[k]? = token[k]? := by
  unfold token_memory
  exact List.getElem?_append_left hk

/-- What `set_contents` does with an interior record: one cell is written, it gets the bits
`k < 4` with `mask[k] = '1'` on top of its own and, if the third token begins with the
destination letter, the piece flag and the letter. -/
theorem set_contents_record (board : Board) (size_x size_y dest_char index : Nat)
    (idx mask : List Nat) (letter : Option (List Nat))
    (hidx : IsToken idx) (hatoi : atoi idx = some (index : Int))
    (hrange : index < size_x * size_y) (hmask : IsToken mask) (hlen : 4 ≤ mask.length)
    (hletter : ∀ t, letter = some t → IsToken t) :
    ∃ contents1,
      set_contents board size_x size_y (interiorRecord idx mask letter) dest_char
        = some (setCell board (index / size_x) (index % size_x)
            ⟨contents1, if letterIsDest letter dest_char = true then dest_char
              else (board (index / size_x) (index % size_x)).piece⟩)
      ∧ ∀ k, contents1.testBit k
          = ((board (index / size_x) (index % size_x)).contents.testBit k
              || decide (k < 4 ∧ mask[k]? = some 49)
              || (decide (k = 4) && letterIsDest letter dest_char)) := by
  have hidx1 : 0 < idx.length := List.length_pos.mpr hidx.1
  have hwalls : ∀ rest, ∃ c1,
      set_contents_walls (token_memory mask rest) (index / size_x) (index % size_x)
          (List.range 4) board
        = some (setCell board (index / size_x) (index % size_x)
            ⟨c1, (board (index / size_x) (index % size_x)).piece⟩)
      ∧ ∀ k, c1.testBit k
          = ((board (index / size_x) (index % size_x)).contents.testBit k
              || decide (k < 4 ∧ mask[k]? = some 49)) := by
    intro rest
    obtain ⟨c1, hc1, hbits⟩ := set_contents_walls_spec (token_memory mask rest)
      (index / size_x) (index % size_x) (List.range 4) board (by
        intro i hi
        rw [List.mem_range] at hi
        have := token_memory_length mask rest
        omega)
    refine ⟨c1, hc1, fun k => ?_⟩
    rw [hbits k]
    by_cases hk : k < 4
    · have hget := token_memory_get mask rest (show k < mask.length by omega)
      simp only [hget, List.mem_range]
    · simp [hk]
  cases letter with
  | none =>
    obtain ⟨c1, hc1, hbits⟩ := hwalls []
    refine ⟨c1, ?_, ?_⟩
    · obtain ⟨n, hn⟩ : ∃ n, (interiorRecord idx mask none).length + 1 = n + 3 :=
        ⟨idx.length + mask.length - 1, by simp [interiorRecord]; omega⟩
      unfold set_contents
      rw [hn]
      simp only [interiorRecord, List.append_nil, strtok_token hidx]
      simp only [set_contents_loop, hatoi, row_major_index _ _ _ hrange, List.tail_cons,
        strtok_token_end hmask, hc1, strtok_nil, List.tail_nil]
      simp [letterIsDest]
    · intro k
      rw [hbits k]
      simp [letterIsDest]
  | some t =>
    have ht : IsToken t := hletter t rfl
    obtain ⟨c1, hc1, hbits⟩ := hwalls (32 :: t)
    by_cases hd : t.head? = some dest_char
    · refine ⟨c1 ||| HAS_PIECE, ?_, ?_⟩
      · obtain ⟨n, hn⟩ : ∃ n, (interiorRecord idx mask (some t)).length + 1 = n + 4 :=
          ⟨idx.length + mask.length + t.length - 1, by simp [interiorRecord]; omega⟩
        unfold set_contents
        rw [hn]
        simp only [interiorRecord, strtok_token hidx]
        simp only [set_contents_loop, hatoi, row_major_index _ _ _ hrange, List.tail_cons,
          strtok_token hmask, strtok_token_end ht, hc1, strtok_nil, List.tail_nil]
        simp [letterIsDest, hd, setCell_setCell, setCell_same]
      · intro k
        rw [Nat.testBit_or, hbits k, HAS_PIECE, Nat.one_shiftLeft, Nat.testBit_two_pow]
        simp only [letterIsDest, hd, decide_True, Bool.and_true]
        by_cases hk : k = 4
        · subst hk
          simp
        · have hk1 : ¬ 4 = k := fun h => hk h.symm
          simp [hk, hk1]
    · refine ⟨c1, ?_, ?_⟩
      · obtain ⟨n, hn⟩ : ∃ n, (interiorRecord idx mask (some t)).length + 1 = n + 4 :=
          ⟨idx.length + mask.length + t.length - 1, by simp [interiorRecord]; omega⟩
        unfold set_contents
        rw [hn]
        simp only [interiorRecord, strtok_token hidx]
        simp only [set_contents_loop, hatoi, row_major_index _ _ _ hrange, List.tail_cons,
          strtok_token hmask, strtok_token_end ht, hc1, strtok_nil, List.tail_nil]
        simp [letterIsDest, hd]
      · intro k
        rw [hbits k]
        simp [letterIsDest, hd]

/-! ## parse_data -/

/-- Two linear indices with the same row and column are the same. -/
theorem index_eq_of_cell_eq {size_x a b : Nat} (h1 : a / size_x = b / size_x)
    (h2 : a % size_x = b % size_x) : a = b := by
  rw [← Nat.div_add_mod a size_x, ← Nat.div_add_mod b size_x, h1, h2]

/-- The body of the robot loop on a line that gives an index inside the board. -/
theorem place_robot_index (board : Board) (size_x size_y index robot : Nat) (s : List Nat)
    (hatoi : atoi s = some (index : Int)) (hrange : index < size_x * size_y) :
    place_robot board size_x size_y (some s) robot
      = some (setCell board (index / size_x) (index % size_x)
          { contents := (board (index / size_x) (index % size_x)).contents ||| HAS_PIECE,
            piece := 48 + robot }) := by
  simp only [place_robot, hatoi, row_major_index _ _ _ hrange]

theorem lineAt_robot (lines : Lines) (maxrows k : Nat) (h : 4 ≤ maxrows) :
    lineAt lines ((maxrows : Int) - MAX_ROBOTS + (k : Int)) = lines (maxrows - 4 + k) := by
  have h1 : (maxrows : Int) - MAX_ROBOTS + (k : Int) = ((maxrows - 4 + k : Nat) : Int) := by
    simp only [MAX_ROBOTS]
    omega
  unfold lineAt
  rw [h1, if_pos (Int.ofNat_nonneg _), Int.toNat_ofNat]

/-- The robot loop over the rounds `ks`, in rising order, when every line gives an index
inside the board: the loop returns; a cell that is the cell of no round is as it was; no bit
of a cell other than the piece flag changes; the piece flag stays where it was set; the cell
of every round has the piece flag; and the cell of a round whose index no later round gives
holds the glyph of the robot of that round. -/
theorem parse_data_robots_spec (lines : Lines) (maxrows size_x size_y : Nat)
    (index : Nat → Nat) (hrows : 4 ≤ maxrows) :
    ∀ (ks : List Nat) (board : Board), ks.Pairwise (fun a b => a < b) →
      (∀ k ∈ ks, ∃ s, lines (maxrows - 4 + k) = some s
        ∧ atoi s = some (index k : Int) ∧ index k < size_x * size_y) →
      ∃ board1, parse_data_robots lines maxrows size_x size_y ks board = some board1
        ∧ (∀ i j, (∀ k ∈ ks, ¬ (i = index k / size_x ∧ j = index k % size_x)) →
            board1 i j = board i j)
        ∧ (∀ i j b, b ≠ 4 → (board1 i j).contents.testBit b = (board i j).contents.testBit b)
        ∧ (∀ i j, (board i j).contents.testBit 4 = true →
            (board1 i j).contents.testBit 4 = true)
        ∧ (∀ k ∈ ks, (board1 (index k / size_x) (index k % size_x)).contents.testBit 4 = true)
        ∧ (∀ k ∈ ks, (∀ m ∈ ks, k < m → index m ≠ index k) →
            (board1 (index k / size_x) (index k % size_x)).piece = 48 + (1 + k)) := by
  intro ks
  induction ks with
  | nil =>
    intro board _ _
    exact ⟨board, rfl, fun _ _ _ => rfl, fun _ _ _ _ => rfl, fun _ _ h => h,
      fun k hk => absurd hk (List.not_mem_nil k), fun k hk => absurd hk (List.not_mem_nil k)⟩
  | cons k0 rest ih =>
    intro board hsorted hlines
    obtain ⟨s, hs, hatoi, hrange⟩ := hlines k0 (List.mem_cons_self _ _)
    have hlater : ∀ m ∈ rest, k0 < m := (List.pairwise_cons.mp hsorted).1
    obtain ⟨board1, hret, hother, hbits, hflag, hset, hglyph⟩ :=
      ih (setCell board (index k0 / size_x) (index k0 % size_x)
          { contents := (board (index k0 / size_x) (index k0 % size_x)).contents ||| HAS_PIECE,
            piece := 48 + (1 + k0) })
        (List.pairwise_cons.mp hsorted).2
        (fun k hk => hlines k (List.mem_cons_of_mem _ hk))
    have hplaced4 : ∀ i j, (board i j).contents.testBit 4 = true →
        ((setCell board (index k0 / size_x) (index k0 % size_x)
          { contents := (board (index k0 / size_x) (index k0 % size_x)).contents ||| HAS_PIECE,
            piece := 48 + (1 + k0) }) i j).contents.testBit 4 = true := by
      intro i j h
      by_cases hij : i = index k0 / size_x ∧ j = index k0 % size_x
      · obtain ⟨rfl, rfl⟩ := hij
        rw [setCell_same]
        simp [Nat.testBit_or, h]
      · rw [setCell_other _ _ _ _ i j hij]
        exact h
    have hk0 : ((setCell board (index k0 / size_x) (index k0 % size_x)
          { contents := (board (index k0 / size_x) (index k0 % size_x)).contents ||| HAS_PIECE,
            piece := 48 + (1 + k0) }) (index k0 / size_x) (index k0 % size_x)).contents.testBit 4
        = true := by
      rw [setCell_same, Nat.testBit_or, HAS_PIECE, Nat.one_shiftLeft, Nat.testBit_two_pow]
      simp
    refine ⟨board1, ?_, ?_, ?_, ?_, ?_, ?_⟩
    · rw [parse_data_robots, lineAt_robot lines maxrows k0 hrows, hs,
        place_robot_index board size_x size_y (index k0) (1 + k0) s hatoi hrange]
      exact hret
    · intro i j hij
      rw [hother i j (fun k hk => hij k (List.mem_cons_of_mem _ hk)),
        setCell_other _ _ _ _ i j (hij k0 (List.mem_cons_self _ _))]
    · intro i j b hb
      rw [hbits i j b hb]
      by_cases hij : i = index k0 / size_x ∧ j = index k0 % size_x
      · obtain ⟨rfl, rfl⟩ := hij
        rw [setCell_same, Nat.testBit_or, HAS_PIECE, Nat.one_shiftLeft, Nat.testBit_two_pow]
        have hb1 : ¬ 4 = b := fun h => hb h.symm
        simp [hb1]
      · rw [setCell_other _ _ _ _ i j hij]
    · intro i j h
      exact hflag i j (hplaced4 i j h)
    · intro k hk
      rcases List.mem_cons.mp hk with rfl | hk
      · exact hflag _ _ hk0
      · exact hset k hk
    · intro k hk hlast
      rcases List.mem_cons.mp hk with rfl | hk
      · rw [hother _ _ (fun m hm hcell => hlast m (List.mem_cons_of_mem _ hm) (hlater m hm)
          (index_eq_of_cell_eq hcell.1 hcell.2).symm), setCell_same]
      · exact hglyph k hk (fun m hm => hlast m (List.mem_cons_of_mem _ hm))

theorem eq_some_boardOr (m : Option Board) (dflt : Board) (h : m.isSome = true) :
    m = some (boardOr m dflt) := by
  cases m with
  | none => exact absurd h (by decide)
  | some b => rfl

theorem getLinesFromFile_fileLevel :
    GetLinesFromFile (some fileLevel) = some (linesOf fileLevel, 8) := by
  have h : (GetLinesFromFile_loop fileLevel [] calloc_lines 0).2 = 8 := by decide
  exact congrArg some (Prod.ext rfl h)

/-! # Part IV. The claims -/

/-! ## C1 -/

/-- C1: with a valid robot that is on the board and a valid direction, `move_robot` returns
and leaves the robot on a cell `final` that is joined to the start cell by unit steps, each
of which stays inside the grid and crosses no wall (no flag facing the direction on the cell
left, none facing back on the cell entered); no cell besides the start and `final` changes;
and when the start cell has the wall flag facing the direction the result is `NORMAL` with
the board unchanged. -/
theorem move_robot_crosses_no_wall (robot : Int) (d : KBKEY) (board : Board)
    (size_x size_y winningPos : Nat) (winningRobot : Int) (x y : Nat)
    (hr1 : 1 ≤ robot) (hr2 : robot ≤ MAX_ROBOTS) (hd : ValidDir d)
    (hf : find_robot robot board size_x size_y = some (x, y)) :
    ∃ res board1 final,
      move_robot robot d board size_x size_y winningPos winningRobot = some (res, board1)
      ∧ Relation.ReflTransGen (Step board d size_x size_y) (x, y) final
      ∧ HoldsRobot board1 final robot
      ∧ (∀ c, c ≠ (x, y) → c ≠ final → cellOf board1 c = cellOf board c)
      ∧ (hasFlag (cellOf board (x, y)).contents (facingFlag d) = true →
          res = POSINFO.NORMAL ∧ board1 = board) := by
  obtain ⟨_, hh⟩ := find_robot_some hf
  obtain ⟨e, hspec, hmove⟩ :=
    move_robot_spec winningPos winningRobot
      (by omega) hr2 hd hf
  have hterm : hasFlag (cellOf board (x, y)).contents (facingFlag d) = true →
      Terminal board d size_x size_y (board y x).piece (x, y) :=
    fun hw => terminal_of_no_step (no_step_of_wall hw)
  cases hspec with
  | blocked t hpath hno =>
    rw [finish_plain] at hmove
    refine ⟨_, _, t, hmove, freePath_steps hpath, holdsRobot_relocate hh _ _,
      fun c h1 h2 => relocate_other board _ h1 h2, fun hw => ⟨rfl, ?_⟩⟩
    rw [freePath_eq_of_terminal hpath (hterm hw), relocate_same]
  | piece t c hpath hstep hocc hne =>
    rw [finish_plain] at hmove
    refine ⟨_, _, t, hmove, freePath_steps hpath, holdsRobot_relocate hh _ _,
      fun c h1 h2 => relocate_other board _ h1 h2, fun hw => ⟨rfl, ?_⟩⟩
    rw [freePath_eq_of_terminal hpath (hterm hw), relocate_same]
  | win t c hpath hstep hocc heq hrob =>
    refine ⟨_, _, (x, y), hmove, Relation.ReflTransGen.refl, hh, fun _ _ _ => rfl,
      fun hw => ?_⟩
    have ht := freePath_eq_of_terminal hpath (hterm hw)
    subst ht
    exact (no_step_of_wall hw c hstep).elim
  | letter t c hpath hstep hocc heq hrob =>
    rw [finish_letter board x y (otherPiece_ne_start (s := (x, y)) hocc)] at hmove
    refine ⟨_, _, c, hmove, (freePath_steps hpath).tail hstep, holdsRobot_relocate hh _ _,
      fun c h1 h2 => relocate_other board _ h1 h2, fun hw => ?_⟩
    have ht := freePath_eq_of_terminal hpath (hterm hw)
    subst ht
    exact (no_step_of_wall hw c hstep).elim

/-- The scenario of C1: robot 1 at `(0,0)` on a cell with the right wall flag, sliding right,
gives `NORMAL` and the same board. -/
theorem move_robot_crosses_no_wall_witness :
    move_robot 1 KBKEY.KBRIGHT boardWall 3 3 65 1 = some (POSINFO.NORMAL, boardWall) := by
  obtain ⟨res, board1, final, hm, _, _, _, hw⟩ :=
    move_robot_crosses_no_wall 1 KBKEY.KBRIGHT boardWall 3 3 65 1 0 0 (by decide) (by decide)
      (Or.inr (Or.inr (Or.inr rfl))) (by decide)
  obtain ⟨h1, h2⟩ := hw (by decide)
  rw [h1, h2] at hm
  exact hm

/-! ## C2 -/

/-- C2: with a valid robot that is on the board and a valid direction, when `move_robot`
returns `NORMAL` and the robot did not end the slide by stepping onto the cell of the
destination letter (a cell other than its start that held another piece with the glyph
`winningPos`), one more step from the final cell is blocked: the final cell has the wall
flag facing the direction, or no cell of the grid is next, or the next cell has the wall
flag facing back, or the next cell is occupied by another piece; and this holds on the board
the call found as well as on the board it leaves. -/
theorem move_robot_slides_until_blocked (robot : Int) (d : KBKEY) (board : Board)
    (size_x size_y winningPos : Nat) (winningRobot : Int) (x y : Nat)
    (hr1 : 1 ≤ robot) (hr2 : robot ≤ MAX_ROBOTS) (hd : ValidDir d)
    (hf : find_robot robot board size_x size_y = some (x, y)) :
    ∃ res board1 final,
      move_robot robot d board size_x size_y winningPos winningRobot = some (res, board1)
      ∧ HoldsRobot board1 final robot
      ∧ (∀ c, c ≠ (x, y) → c ≠ final → cellOf board1 c = cellOf board c)
      ∧ (res = POSINFO.NORMAL →
          ¬ (final ≠ (x, y) ∧ OtherPiece board (glyphOf robot) final
              ∧ (cellOf board final).piece = winningPos) →
          BlockedAhead board d size_x size_y (glyphOf robot) final
            ∧ BlockedAhead board1 d size_x size_y (glyphOf robot) final) := by
  obtain ⟨_, hh⟩ := find_robot_some hf
  obtain ⟨e, hspec, hmove⟩ :=
    move_robot_spec winningPos winningRobot
      (by omega) hr2 hd hf
  have hg : (board y x).piece = glyphOf robot := glyphOf_eq (s := (x, y)) hh
  rw [hg] at hspec
  cases hspec with
  | blocked t hpath hno =>
    rw [finish_plain] at hmove
    have hb : BlockedAhead board d size_x size_y (glyphOf robot) t :=
      blockedAhead_of_no_step hno
    exact ⟨_, _, t, hmove, holdsRobot_relocate hh _ _,
      fun c h1 h2 => relocate_other board _ h1 h2,
      fun _ _ => ⟨hb, blockedAhead_relocate hd hpath hb⟩⟩
  | piece t c hpath hstep hocc hne =>
    rw [finish_plain] at hmove
    have hb : BlockedAhead board d size_x size_y (glyphOf robot) t :=
      Or.inr (Or.inr ⟨c, hstep.1, hstep.2.1, Or.inr hocc⟩)
    exact ⟨_, _, t, hmove, holdsRobot_relocate hh _ _,
      fun c h1 h2 => relocate_other board _ h1 h2,
      fun _ _ => ⟨hb, blockedAhead_relocate hd hpath hb⟩⟩
  | win t c hpath hstep hocc heq hrob =>
    exact ⟨_, _, (x, y), hmove, hh, fun _ _ _ => rfl, fun h => absurd h (by decide)⟩
  | letter t c hpath hstep hocc heq hrob =>
    have hne : c ≠ (x, y) := by
      have hocc2 : OtherPiece board (cellOf board (x, y)).piece c := by
        show OtherPiece board (board y x).piece c
        rw [hg]
        exact hocc
      exact otherPiece_ne_start hocc2
    rw [finish_letter board x y hne] at hmove
    exact ⟨_, _, c, hmove, holdsRobot_relocate hh _ _,
      fun c h1 h2 => relocate_other board _ h1 h2, fun _ h => absurd ⟨hne, hocc, heq⟩ h⟩

/-- The witness of C2: robot 1 of the 3 x 3 scenario slides right from index 0. -/
theorem move_robot_slides_until_blocked_witness :
    ∃ res board1 final,
      move_robot 1 KBKEY.KBRIGHT board3 3 3 65 1 = some (res, board1)
      ∧ HoldsRobot board1 final 1
      ∧ (∀ c, c ≠ (0, 0) → c ≠ final → cellOf board1 c = cellOf board3 c)
      ∧ (res = POSINFO.NORMAL →
          ¬ (final ≠ (0, 0) ∧ OtherPiece board3 (glyphOf 1) final
              ∧ (cellOf board3 final).piece = 65) →
          BlockedAhead board3 KBKEY.KBRIGHT 3 3 (glyphOf 1) final
            ∧ BlockedAhead board1 KBKEY.KBRIGHT 3 3 (glyphOf 1) final) :=
  move_robot_slides_until_blocked 1 KBKEY.KBRIGHT board3 3 3 65 1 0 0 (by decide) (by decide)
    validDir_right (by decide)

/-! ## C3 -/

/-- C3: on a board where each robot glyph is on exactly one cell and the destination letter
is in `A..Z`, when the slide of robot `robot` from its cell `s` runs over cells without a
piece, with no wall in the way, up to the cell `t` next to which the cell `ck` holds a
different robot `k`, then `move_robot` returns `NORMAL`, the robot is on `t` (the board is
unchanged when `t` is `s`), and every other robot is on the same cell as before, with its
glyph and the piece flag. -/
theorem move_robot_stops_before_robot (robot k : Int) (d : KBKEY) (board : Board)
    (size_x size_y winningPos : Nat) (winningRobot : Int) (s t ck : Nat × Nat)
    (hr1 : 1 ≤ robot) (hr2 : robot ≤ MAX_ROBOTS) (hk1 : 1 ≤ k) (hk2 : k ≤ MAX_ROBOTS)
    (hkr : k ≠ robot) (hd : ValidDir d) (hw : 65 ≤ winningPos ∧ winningPos ≤ 90)
    (hu : UniqueRobots board size_x size_y)
    (hs : InGrid size_x size_y s) (hrs : HoldsRobot board s robot)
    (hpath : Relation.ReflTransGen (ClearStep board d size_x size_y) s t)
    (hstep : Step board d size_x size_y t ck) (hck : HoldsRobot board ck k) :
    ∃ board1,
      move_robot robot d board size_x size_y winningPos winningRobot
        = some (POSINFO.NORMAL, board1)
      ∧ HoldsRobot board1 t robot
      ∧ (t = s → board1 = board)
      ∧ ∀ (k2 : Int) (c : Nat × Nat), k2 ≠ robot → HoldsRobot board c k2 →
          HoldsRobot board1 c k2 := by
  obtain ⟨x, y, hf⟩ := find_robot_exists hs hrs
  obtain ⟨hin, hh⟩ := find_robot_some hf
  obtain ⟨c0, _, _, hc0⟩ := hu robot hr1 hr2
  have hsxy : s = (x, y) := by rw [hc0 s hs hrs, hc0 (x, y) hin hh]
  subst hsxy
  obtain ⟨e, hspec, hmove⟩ :=
    move_robot_spec winningPos winningRobot
      (by omega) hr2 hd hf
  have hg : (board y x).piece = glyphOf robot := glyphOf_eq (s := (x, y)) hh
  rw [hg] at hspec
  have hfree : FreePath board d size_x size_y (glyphOf robot) (x, y) t := by
    refine Relation.ReflTransGen.mono ?_ hpath
    intro a b hab
    refine ⟨hab.1, fun ho => ?_⟩
    have := ho.1
    rw [hab.2] at this
    exact absurd this (by decide)
  have hock : OtherPiece board (glyphOf robot) ck := otherPiece_of_holdsRobot hck hkr hr1
  have hterm : Terminal board d size_x size_y (glyphOf robot) t := terminal_of_hit hstep hock
  have hnotletter : (cellOf board ck).piece ≠ winningPos := by
    have := hck.2
    simp only [MAX_ROBOTS] at hk2
    omega
  cases hspec with
  | blocked t2 hpath2 hno =>
    have : t2 = t := terminal_unique hpath2 hfree (terminal_of_no_step hno) hterm
    subst this
    exact (hno ck hstep).elim
  | piece t2 c hpath2 hstep2 hocc hne =>
    have : t2 = t := terminal_unique hpath2 hfree (terminal_of_hit hstep2 hocc) hterm
    subst this
    rw [finish_plain] at hmove
    refine ⟨_, hmove, holdsRobot_relocate hh _ _, fun h => by rw [h, relocate_same], ?_⟩
    intro k2 c2 hk2r hc2
    by_cases hts : t2 = (x, y)
    · rw [hts, relocate_same]
      exact hc2
    · apply holdsRobot_relocate_other hh hk2r hc2
      rintro rfl
      rcases freePath_end_free hfree with h | h
      · exact hts h
      · exact h (otherPiece_of_holdsRobot hc2 hk2r hr1)
  | win t2 c hpath2 hstep2 hocc heq hrob =>
    have : t2 = t := terminal_unique hpath2 hfree (terminal_of_hit hstep2 hocc) hterm
    subst this
    have : c = ck := neighbour_unique hstep2.1 hstep.1
    subst this
    exact (hnotletter heq).elim
  | letter t2 c hpath2 hstep2 hocc heq hrob =>
    have : t2 = t := terminal_unique hpath2 hfree (terminal_of_hit hstep2 hocc) hterm
    subst this
    have : c = ck := neighbour_unique hstep2.1 hstep.1
    subst this
    exact (hnotletter heq).elim

/-- The witness of C3: on `boardFour` robot 1 slides right from `(0,0)` over the free cell
`(1,0)` towards robot 2 on `(2,0)`, and ends on `(1,0)`. -/
theorem move_robot_stops_before_robot_witness :
    ∃ board1,
      move_robot 1 KBKEY.KBRIGHT boardFour 3 3 65 2 = some (POSINFO.NORMAL, board1)
      ∧ HoldsRobot board1 (1, 0) 1
      ∧ ((1, 0) = ((0, 0) : Nat × Nat) → board1 = boardFour)
      ∧ ∀ (k2 : Int) (c : Nat × Nat), k2 ≠ 1 → HoldsRobot boardFour c k2 →
          HoldsRobot board1 c k2 :=
  move_robot_stops_before_robot 1 2 KBKEY.KBRIGHT boardFour 3 3 65 2 (0, 0) (1, 0) (2, 0)
    (by decide) (by decide) (by decide) (by decide) (by decide) validDir_right (by decide)
    uniqueRobots_boardFour (by decide) (by decide)
    (Relation.ReflTransGen.single ⟨by decide, by decide⟩) (by decide) (by decide)

/-! ## C4 -/

/-- C4: with a valid robot that is on the board, a valid direction and a destination letter
in `A..Z`, `move_robot` returns, and it returns `WIN` exactly when the robot is the winning
robot and its slide reaches the cell of the letter; otherwise it returns `NORMAL`. -/
theorem move_robot_win_iff (robot : Int) (d : KBKEY) (board : Board)
    (size_x size_y winningPos : Nat) (winningRobot : Int) (x y : Nat)
    (hr1 : 1 ≤ robot) (hr2 : robot ≤ MAX_ROBOTS) (hd : ValidDir d)
    (hw : 65 ≤ winningPos ∧ winningPos ≤ 90)
    (hf : find_robot robot board size_x size_y = some (x, y)) :
    ∃ res board1,
      move_robot robot d board size_x size_y winningPos winningRobot = some (res, board1)
      ∧ (res = POSINFO.WIN ↔ (robot = winningRobot
          ∧ ReachesLetter board d size_x size_y (glyphOf robot) winningPos (x, y)))
      ∧ (res = POSINFO.NORMAL ↔ ¬ (robot = winningRobot
          ∧ ReachesLetter board d size_x size_y (glyphOf robot) winningPos (x, y))) := by
  obtain ⟨_, hh⟩ := find_robot_some hf
  obtain ⟨e, hspec, hmove⟩ :=
    move_robot_spec winningPos winningRobot
      (by omega) hr2 hd hf
  have hg : (board y x).piece = glyphOf robot := glyphOf_eq (s := (x, y)) hh
  rw [hg] at hspec
  have hother : ∀ c, hasFlag (cellOf board c).contents HAS_PIECE = true →
      (cellOf board c).piece = winningPos → OtherPiece board (glyphOf robot) c := by
    intro c h1 h2
    refine ⟨h1, ?_⟩
    simp only [MAX_ROBOTS] at hr2
    unfold glyphOf
    omega
  have hnormal : ∀ b, finish x y e = (POSINFO.NORMAL, b) →
      ¬ (robot = winningRobot
        ∧ ReachesLetter board d size_x size_y (glyphOf robot) winningPos (x, y)) →
      ∃ res board1,
        move_robot robot d board size_x size_y winningPos winningRobot = some (res, board1)
        ∧ (res = POSINFO.WIN ↔ (robot = winningRobot
            ∧ ReachesLetter board d size_x size_y (glyphOf robot) winningPos (x, y)))
        ∧ (res = POSINFO.NORMAL ↔ ¬ (robot = winningRobot
            ∧ ReachesLetter board d size_x size_y (glyphOf robot) winningPos (x, y))) := by
    intro b hb hnot
    rw [hb] at hmove
    exact ⟨_, _, hmove, ⟨fun h => absurd h (by decide), fun h => absurd h hnot⟩,
      ⟨fun _ => hnot, fun _ => rfl⟩⟩
  cases hspec with
  | blocked t hpath hno =>
    refine hnormal _ (finish_plain board x y t) ?_
    rintro ⟨_, t2, c2, hp2, hs2, hf2, hl2⟩
    have : t = t2 := terminal_unique hpath hp2 (terminal_of_no_step hno)
      (terminal_of_hit hs2 (hother c2 hf2 hl2))
    subst this
    exact hno c2 hs2
  | piece t c hpath hstep hocc hne =>
    refine hnormal _ (finish_plain board x y t) ?_
    rintro ⟨_, t2, c2, hp2, hs2, hf2, hl2⟩
    have : t = t2 := terminal_unique hpath hp2 (terminal_of_hit hstep hocc)
      (terminal_of_hit hs2 (hother c2 hf2 hl2))
    subst this
    have : c = c2 := neighbour_unique hstep.1 hs2.1
    subst this
    exact hne hl2
  | win t c hpath hstep hocc heq hrob =>
    have hreach : robot = winningRobot
        ∧ ReachesLetter board d size_x size_y (glyphOf robot) winningPos (x, y) :=
      ⟨hrob, t, c, hpath, hstep, hocc.1, heq⟩
    exact ⟨_, _, hmove, ⟨fun _ => hreach, fun _ => rfl⟩,
      ⟨fun h => absurd h (by decide), fun h => absurd hreach h⟩⟩
  | letter t c hpath hstep hocc heq hrob =>
    have hne : c ≠ (x, y) := by
      have hocc2 : OtherPiece board (cellOf board (x, y)).piece c := by
        show OtherPiece board (board y x).piece c
        rw [hg]
        exact hocc
      exact otherPiece_ne_start hocc2
    exact hnormal _ (finish_letter board x y hne) (fun h => hrob h.1)

/-- The witness of C4, the scenario of the claim: on the 3 x 3 board with no wall flags,
robot 1 at index 0, the letter `'A'` at index 8 and `winningRobot = 1`, the move to the right
returns `NORMAL` and leaves the board `board3b` on the grid, and the move down then returns
`WIN`. -/
theorem move_robot_win_iff_witness :
    resultAfter (move_robot 1 KBKEY.KBRIGHT board3 3 3 65 1) = POSINFO.NORMAL
      ∧ (∀ i, i < 3 → ∀ j, j < 3 →
          boardAfter (move_robot 1 KBKEY.KBRIGHT board3 3 3 65 1) board3 i j = board3b i j)
      ∧ ∃ board1, move_robot 1 KBKEY.KBDOWN board3b 3 3 65 1 = some (POSINFO.WIN, board1) := by
  refine ⟨by decide, by decide, ?_⟩
  obtain ⟨res, board1, hm, hwin, _⟩ :=
    move_robot_win_iff 1 KBKEY.KBDOWN board3b 3 3 65 1 2 0 (by decide) (by decide)
      validDir_down (by decide) (by decide)
  have hres : res = POSINFO.WIN :=
    hwin.mpr ⟨rfl, (2, 1), (2, 2), Relation.ReflTransGen.single (by decide), by decide,
      by decide, by decide⟩
  rw [hres] at hm
  exact ⟨board1, hm⟩

/-! ## C5 -/

/-- The counterexample to C5: in the 3 x 3 scenario the move down returns `WIN`, and on the
board it leaves the cell of the letter, `(2,2)`, does not hold robot 1, which is still on its
start cell `(2,0)`. -/
theorem move_robot_win_commit_counterexample :
    (move_robot 1 KBKEY.KBDOWN board3b 3 3 65 1).isSome = true
      ∧ resultAfter (move_robot 1 KBKEY.KBDOWN board3b 3 3 65 1) = POSINFO.WIN
      ∧ ¬ HoldsRobot (boardAfter (move_robot 1 KBKEY.KBDOWN board3b 3 3 65 1) board3b) (2, 2) 1
      ∧ (cellOf (boardAfter (move_robot 1 KBKEY.KBDOWN board3b 3 3 65 1) board3b) (2, 2)).piece
          = 65
      ∧ HoldsRobot (boardAfter (move_robot 1 KBKEY.KBDOWN board3b 3 3 65 1) board3b) (2, 0) 1 := by
  decide

/-- C5, as the code has it: when `move_robot` reports `WIN` it has returned before the swap,
so the board is exactly as the call found it: the robot is still on the cell where
`find_robot` found it, and a cell of the grid still holds the piece flag with the glyph
`winningPos`. -/
theorem move_robot_win_board_unchanged (robot : Int) (d : KBKEY) (board board1 : Board)
    (size_x size_y winningPos : Nat) (winningRobot : Int)
    (h : move_robot robot d board size_x size_y winningPos winningRobot
      = some (POSINFO.WIN, board1)) :
    board1 = board
      ∧ ∃ s c, find_robot robot board size_x size_y = some s ∧ HoldsRobot board1 s robot
        ∧ InGrid size_x size_y c ∧ c ≠ s
        ∧ hasFlag (cellOf board1 c).contents HAS_PIECE = true
        ∧ (cellOf board1 c).piece = winningPos := by
  by_cases h1 : robot ≤ 0 ∨ robot > MAX_ROBOTS
  · unfold move_robot at h
    rw [if_pos h1] at h
    exact absurd h (by simp)
  by_cases h2 : d ≠ KBKEY.KBUP ∧ d ≠ KBKEY.KBLEFT ∧ d ≠ KBKEY.KBRIGHT ∧ d ≠ KBKEY.KBDOWN
  · unfold move_robot at h
    rw [if_neg h1, if_pos h2] at h
    exact absurd h (by simp)
  have hd : ValidDir d := by
    unfold ValidDir
    cases d <;> simp at h2 ⊢
  obtain ⟨x, y, e, hf, hspec, hfin⟩ := move_robot_result (by omega) (by omega) hd h
  obtain ⟨_, hh⟩ := find_robot_some hf
  cases hspec with
  | blocked t hpath hno => rw [finish_plain] at hfin; exact absurd hfin (by simp)
  | piece t c hpath hstep hocc hne => rw [finish_plain] at hfin; exact absurd hfin (by simp)
  | win t c hpath hstep hocc heq hrob =>
    have hb : board = board1 := (Prod.mk.inj hfin).2
    subst hb
    exact ⟨rfl, (x, y), c, hf, hh, hstep.2.1, otherPiece_ne_start (s := (x, y)) hocc,
      hocc.1, heq⟩
  | letter t c hpath hstep hocc heq hrob =>
    rw [finish_letter board x y (otherPiece_ne_start (s := (x, y)) hocc)] at hfin
    exact absurd hfin (by simp)

/-- The witness of C5 as the code has it: the `WIN` of the 3 x 3 scenario leaves `board3b`. -/
theorem move_robot_win_board_unchanged_witness :
    boardAfter (move_robot 1 KBKEY.KBDOWN board3b 3 3 65 1) board3b = board3b :=
  (move_robot_win_board_unchanged 1 KBKEY.KBDOWN board3b
    (boardAfter (move_robot 1 KBKEY.KBDOWN board3b 3 3 65 1) board3b) 3 3 65 1
    (eq_some_of_isSome _ board3b (by decide))).1

/-! ## C6 -/

/-- The counterexample to C6: on `boardDirty` the letter cell `(1,1)` holds `'B'` with the
piece flag; robot 1, not the winning robot, slides down onto it and then down again to
`(1,2)`; the cell `(1,1)` then has the glyph `'C'`, not the letter. -/
theorem move_robot_restores_letter_counterexample :
    hasFlag (cellOf boardDirty (1, 1)).contents HAS_PIECE = true
      ∧ (cellOf boardDirty (1, 1)).piece = 66
      ∧ (move_robot 1 KBKEY.KBDOWN boardDirty 3 3 66 2).isSome = true
      ∧ find_robot 1 boardDirtyOn 3 3 = some (1, 1)
      ∧ (move_robot 1 KBKEY.KBDOWN boardDirtyOn 3 3 66 2).isSome = true
      ∧ find_robot 1 boardDirtyOff 3 3 = some (1, 2)
      ∧ (cellOf boardDirtyOff (1, 1)).piece = 67
      ∧ cellOf boardDirtyOff (1, 1) ≠ cellOf boardDirty (1, 1) := by
  decide

/-- C6: letter stash round trip. Let `c` be a plain cell of the destination letter (piece
flag, glyph `winningPos` in `A..Z`, no encoded-letter flag, stash byte zero) on `board0`, let
a move of a robot other than the winning robot leave that robot on `c` (`board1`), and let a
further move of the robot change its position (`board2`). Then `c` is on `board2` exactly
what it was on `board0`: the glyph is the letter, the piece flag is set, the encoded-letter
flag and the stash byte are clear, the four wall flags are the same, and the robot's glyph
is not on `c`. -/
theorem move_robot_restores_letter (robot : Int) (d1 d2 : KBKEY) (board0 board1 board2 : Board)
    (size_x size_y winningPos : Nat) (winningRobot : Int) (res1 res2 : POSINFO) (c : Nat × Nat)
    (hr1 : 1 ≤ robot) (hr2 : robot ≤ MAX_ROBOTS) (hrw : robot ≠ winningRobot)
    (hd1 : ValidDir d1) (hd2 : ValidDir d2) (hw : 65 ≤ winningPos ∧ winningPos ≤ 90)
    (hpiece : hasFlag (cellOf board0 c).contents HAS_PIECE = true)
    (hletter : (cellOf board0 c).piece = winningPos)
    (hplain : hasFlag (cellOf board0 c).contents HAS_ENCODED_LETTER = false)
    (hbyte : (cellOf board0 c).contents < 2 ^ 24)
    (hm1 : move_robot robot d1 board0 size_x size_y winningPos winningRobot
      = some (res1, board1))
    (hon : find_robot robot board1 size_x size_y = some c)
    (hm2 : move_robot robot d2 board1 size_x size_y winningPos winningRobot
      = some (res2, board2))
    (hmoved : find_robot robot board2 size_x size_y ≠ find_robot robot board1 size_x size_y) :
    cellOf board2 c = cellOf board0 c
      ∧ (cellOf board2 c).piece = winningPos
      ∧ hasFlag (cellOf board2 c).contents HAS_PIECE = true
      ∧ hasFlag (cellOf board2 c).contents HAS_ENCODED_LETTER = false
      ∧ ((cellOf board2 c).contents >>> 24) % 256 = 0
      ∧ hasFlag (cellOf board2 c).contents HAS_LEFT_WALL
          = hasFlag (cellOf board0 c).contents HAS_LEFT_WALL
      ∧ hasFlag (cellOf board2 c).contents HAS_TOP_WALL
          = hasFlag (cellOf board0 c).contents HAS_TOP_WALL
      ∧ hasFlag (cellOf board2 c).contents HAS_RIGHT_WALL
          = hasFlag (cellOf board0 c).contents HAS_RIGHT_WALL
      ∧ hasFlag (cellOf board2 c).contents HAS_BOTTOM_WALL
          = hasFlag (cellOf board0 c).contents HAS_BOTTOM_WALL
      ∧ ¬ HoldsRobot board2 c robot := by
  have hr2n : robot ≤ 4 := hr2
  have hglyph : winningPos ≠ glyphOf robot := by
    unfold glyphOf
    omega
  have hnot0 : ¬ HoldsRobot board0 c robot := by
    intro h
    have := h.2
    omega
  have hoc : OtherPiece board0 (glyphOf robot) c := ⟨hpiece, by rw [hletter]; exact hglyph⟩
  obtain ⟨_, hon1⟩ := find_robot_some hon
  -- the first move
  have key1 : ∃ s, cellOf board1 c = entered (stash (cellOf board0 c)) (cellOf board0 s).piece := by
    obtain ⟨s, _, hs, _, hcase⟩ := move_robot_shape hr1 hr2 hd1 hm1
    have hcs : c ≠ s := by
      rintro rfl
      exact hnot0 hs
    rcases hcase with ⟨_, _, hb⟩ | ⟨t, hpath, _, hb⟩ | ⟨c2, _, _, hc2s, _, _, _, hb⟩
    · rw [hb] at hon1
      exact (hnot0 hon1).elim
    · exfalso
      have hct : c ≠ t := by
        rintro rfl
        rcases freePath_end_free hpath with h | h
        · exact hcs h
        · exact h hoc
      unfold HoldsRobot at hon1
      rw [hb, relocate_other board0 _ hcs hct] at hon1
      exact hnot0 hon1
    · by_cases hcc : c = c2
      · subst hcc
        exact ⟨s, by rw [hb, relocate_final board0 _ hcs]⟩
      · exfalso
        unfold HoldsRobot at hon1
        rw [hb, relocate_other board0 _ hcs hcc] at hon1
        exact hnot0 hon1
  -- the second move
  have key2 : cellOf board2 c = vacated (cellOf board1 c) := by
    obtain ⟨s, hfs, _, _, hcase⟩ := move_robot_shape hr1 hr2 hd2 hm2
    have hsc : s = c := by
      rw [hon] at hfs
      exact (Option.some.inj hfs).symm
    subst hsc
    rcases hcase with ⟨_, hwin, _⟩ | ⟨t, _, _, hb⟩ | ⟨c3, _, _, hc3, _, _, _, hb⟩
    · exact (hrw hwin).elim
    · by_cases hts : t = s
      · exfalso
        rw [hb, hts, relocate_same] at hmoved
        exact hmoved rfl
      · rw [hb, relocate_start board1 _ hts]
    · rw [hb, relocate_start board1 _ hc3]
  obtain ⟨s, hk1⟩ := key1
  have hback : cellOf board2 c = cellOf board0 c := by
    rw [key2, hk1]
    exact vacated_entered_stash _ _ hpiece hplain hbyte (by omega)
  rw [hback]
  refine ⟨rfl, hletter, hpiece, hplain, ?_, rfl, rfl, rfl, rfl, ?_⟩
  · have : (cellOf board0 c).contents >>> 24 = 0 := by
      rw [Nat.shiftRight_eq_div_pow]
      exact Nat.div_eq_of_lt hbyte
    rw [this]
  · intro h
    have h2 : HoldsRobot board0 c robot := by
      unfold HoldsRobot at h ⊢
      rw [hback] at h
      exact h
    exact hnot0 h2

/-- The witness of C6: on `boardFourB`, with winning robot 2, robot 1 slides down onto the
letter at `(1,1)` and then down again to `(1,2)`; the cell `(1,1)` is then what it was. -/
theorem move_robot_restores_letter_witness :
    cellOf boardOffLetter (1, 1) = cellOf boardFourB (1, 1)
      ∧ (cellOf boardOffLetter (1, 1)).piece = 65
      ∧ ¬ HoldsRobot boardOffLetter (1, 1) 1 := by
  have h := move_robot_restores_letter 1 KBKEY.KBDOWN KBKEY.KBDOWN boardFourB boardOnLetter
    boardOffLetter 3 3 65 2
    (resultAfter (move_robot 1 KBKEY.KBDOWN boardFourB 3 3 65 2))
    (resultAfter (move_robot 1 KBKEY.KBDOWN boardOnLetter 3 3 65 2)) (1, 1)
    (by decide) (by decide) (by decide) validDir_down validDir_down (by decide)
    (by decide) (by decide) (by decide) (by decide)
    (eq_some_of_isSome _ boardFourB (by decide)) (by decide)
    (eq_some_of_isSome _ boardOnLetter (by decide)) (by decide)
  exact ⟨h.1, h.2.1, h.2.2.2.2.2.2.2.2.2⟩

/-! ## C7 -/

/-- C7: an invalid robot id (outside `1..MAX_ROBOTS`) or an invalid direction (`KBOTH`,
`KBESC`) makes `move_robot` return `NORMAL` with every cell of the board unchanged. -/
theorem move_robot_invalid_noop (robot : Int) (d : KBKEY) (board : Board)
    (size_x size_y winningPos : Nat) (winningRobot : Int)
    (h : robot < 1 ∨ MAX_ROBOTS < robot ∨ d = KBKEY.KBOTH ∨ d = KBKEY.KBESC) :
    move_robot robot d board size_x size_y winningPos winningRobot
      = some (POSINFO.NORMAL, board) := by
  unfold move_robot
  by_cases h1 : robot ≤ 0 ∨ robot > MAX_ROBOTS
  · rw [if_pos h1]
  · rw [if_neg h1]
    have h2 : d = KBKEY.KBOTH ∨ d = KBKEY.KBESC := by
      rcases h with h | h | h | h
      · exact absurd (Or.inl (by omega)) h1
      · exact absurd (Or.inr h) h1
      · exact Or.inl h
      · exact Or.inr h
    rw [if_pos]
    rcases h2 with rfl | rfl <;> decide

/-- The scenario of C7: the ids 0 and 5 and the key `KBESC` leave the board as it is. -/
theorem move_robot_invalid_noop_witness :
    move_robot 0 KBKEY.KBUP board3 3 3 65 1 = some (POSINFO.NORMAL, board3)
      ∧ move_robot 5 KBKEY.KBUP board3 3 3 65 1 = some (POSINFO.NORMAL, board3)
      ∧ move_robot 1 KBKEY.KBESC board3 3 3 65 1 = some (POSINFO.NORMAL, board3) :=
  ⟨move_robot_invalid_noop 0 KBKEY.KBUP board3 3 3 65 1 (Or.inl (by decide)),
   move_robot_invalid_noop 5 KBKEY.KBUP board3 3 3 65 1 (Or.inr (Or.inl (by decide))),
   move_robot_invalid_noop 1 KBKEY.KBESC board3 3 3 65 1 (Or.inr (Or.inr (Or.inr rfl)))⟩

/-! ## C8 -/

/-- C8: on a board where each robot glyph `'0' + k`, `k` in `1..MAX_ROBOTS`, is on exactly one
cell with the piece flag, and every encoded-letter stash holds the destination letter, a
letter of `A..Z`, `move_robot` with a valid robot and direction returns, and on the board it
leaves each robot glyph is again on exactly one cell. -/
theorem move_robot_keeps_robots_unique (robot : Int) (d : KBKEY) (board : Board)
    (size_x size_y winningPos : Nat) (winningRobot : Int)
    (hr1 : 1 ≤ robot) (hr2 : robot ≤ MAX_ROBOTS) (hd : ValidDir d)
    (hw : 65 ≤ winningPos ∧ winningPos ≤ 90)
    (hu : UniqueRobots board size_x size_y)
    (hstash : ∀ c, InGrid size_x size_y c →
      hasFlag (cellOf board c).contents HAS_ENCODED_LETTER = true →
      ((cellOf board c).contents >>> 24) % 256 = winningPos) :
    ∃ res board1,
      move_robot robot d board size_x size_y winningPos winningRobot = some (res, board1)
      ∧ UniqueRobots board1 size_x size_y := by
  obtain ⟨s0, hs0in, hs0, hs0u⟩ := hu robot hr1 hr2
  obtain ⟨x, y, hf⟩ := find_robot_exists hs0in hs0
  obtain ⟨e, _, hmove⟩ :=
    move_robot_spec winningPos winningRobot
      (by omega) hr2 hd hf
  have hm : move_robot robot d board size_x size_y winningPos winningRobot
      = some ((finish x y e).1, (finish x y e).2) := hmove
  refine ⟨_, _, hm, ?_⟩
  obtain ⟨s, _, hs, hsin, hcase⟩ := move_robot_shape hr1 hr2 hd hm
  have hvac : ∀ k : Int, 1 ≤ k → k ≤ MAX_ROBOTS →
      ¬ (hasFlag (vacated (cellOf board s)).contents HAS_PIECE = true
        ∧ ((vacated (cellOf board s)).piece : Int) = 48 + k) := by
    intro k hk1 hk2
    apply vacated_no_robot _ k ⟨hk1, hk2⟩
    intro he
    rw [hstash s hsin he]
    exact hw.1
  rcases hcase with ⟨_, _, hb⟩ | ⟨t, hpath, _, hb⟩ | ⟨c, hoc, hcin, _, hcl, _, _, hb⟩
  · rw [hb]
    exact hu
  · rw [hb]
    apply uniqueRobots_relocate _ hr1 hr2 hu hs hsin (freePath_inGrid hpath hsin) _ hvac
    intro hts k hk1 hk2 hk
    rcases freePath_end_free hpath with h | h
    · exact hts h
    · by_cases hkr : k = robot
      · subst hkr
        exact hts (by rw [hs0u t (freePath_inGrid hpath hsin) hk, hs0u s hsin hs])
      · exact h (otherPiece_of_holdsRobot hk hkr hr1)
  · rw [hb]
    apply uniqueRobots_relocate _ hr1 hr2 hu hs hsin hcin _ hvac
    intro _ k hk1 hk2 hk
    have := hk.2
    simp only [MAX_ROBOTS] at hk2
    omega

/-- The witness of C8: robot 1 slides right on `boardFour`. -/
theorem move_robot_keeps_robots_unique_witness :
    ∃ res board1,
      move_robot 1 KBKEY.KBRIGHT boardFour 3 3 65 2 = some (res, board1)
      ∧ UniqueRobots board1 3 3 :=
  move_robot_keeps_robots_unique 1 KBKEY.KBRIGHT boardFour 3 3 65 2 (by decide) (by decide)
    validDir_right (by decide) uniqueRobots_boardFour
    (by
      intro c hc
      have h : ∀ a, a < 3 → ∀ b, b < 3 →
          hasFlag (cellOf boardFour (a, b)).contents HAS_ENCODED_LETTER = true →
          ((cellOf boardFour (a, b)).contents >>> 24) % 256 = 65 := by decide
      exact h c.1 hc.1 c.2 hc.2)

/-! ## C9 -/

/-- The counterexample to C9: on the 2 x 2 board without walls the fresh buffer and a buffer
with a stale `'|'` at `(1, 2)` give different grids; the stale wall is kept. -/
theorem write_board_buffer_counterexample :
    write_board boardEmpty alloc_board_display 2 2 1 2 = SPACE
      ∧ write_board boardEmpty bufferStale 2 2 1 2 = WALLVERT
      ∧ write_board boardEmpty alloc_board_display 2 2
          ≠ write_board boardEmpty bufferStale 2 2 := by
  refine ⟨by decide, by decide, fun h => ?_⟩
  have h2 := congrFun (congrFun h 1) 2
  revert h2
  decide

/-- C9, as the code has it: `write_board` does not clear the buffer. It never writes the
corners `(2k, 2l)` with `0 < l < size_x`, and at a wall position between two cells it keeps a
wall glyph that is already there. For a board with at least one cell, two buffers that agree
at those corners and hold the wall glyph at the same wall positions between cells give the
same grid. -/
theorem write_board_same_grid (board : Board) (b1 b2 : Buffer) (size_x size_y : Nat)
    (hx : 0 < size_x) (hy : 0 < size_y)
    (hcorner : ∀ p q, p % 2 = 0 → q % 2 = 0 → p ≤ 2 * size_y → 0 < q → q < 2 * size_x →
      b1 p q = b2 p q)
    (hvert : ∀ p q, p % 2 = 1 → q % 2 = 0 → p ≤ 2 * size_y → 0 < q → q < 2 * size_x →
      (b1 p q = WALLVERT ↔ b2 p q = WALLVERT))
    (hhoriz : ∀ p q, p % 2 = 0 → q % 2 = 1 → 0 < p → p < 2 * size_y → q ≤ 2 * size_x →
      (b1 p q = WALLHORIZ ↔ b2 p q = WALLHORIZ)) :
    ∀ p q, p ≤ 2 * size_y → q ≤ 2 * size_x →
      write_board board b1 size_x size_y p q = write_board board b2 size_x size_y p q := by
  intro p q hp hq
  have h := acts_write_board board size_x size_y p q
  rcases h b1 with ⟨a1, a2⟩ | ⟨a1, a2, a3⟩ | ⟨a1, a2, a3⟩ <;>
    rcases h b2 with ⟨c1, c2⟩ | ⟨c1, c2, c3⟩ | ⟨c1, c2, c3⟩
  · simp only at a2 c2
    rw [a2, c2]
  · exact absurd a1 c1
  · exact absurd a1 c1
  · exact absurd c1 a1
  · simp only at a3 c3
    rw [a3, c3]
    apply keep_wall_congr
    obtain ⟨i, hi, j, hj, hs⟩ := a2
    rw [List.mem_range] at hi hj
    simp only [CellSoft, or_false] at hs
    rcases hs with ((⟨hp1, hq1⟩ | ⟨hp1, hq1⟩) | ⟨hp1, hq1⟩) | ⟨hp1, hq1⟩
    · have hj0 : j ≠ 0 := by
        intro hj0
        apply a1
        refine forced_intro hi hj ?_
        rw [hp1, hq1]
        exact cellForces_left (Or.inl hj0)
      rw [wallGlyph_even (by omega)]
      exact hvert p q (by omega) (by omega) hp (by omega) (by omega)
    · have hj1 : j + 1 ≠ size_x := by
        intro hj1
        apply a1
        refine forced_intro hi hj ?_
        rw [hp1, hq1]
        exact cellForces_right (Or.inl hj1)
      rw [wallGlyph_even (by omega)]
      exact hvert p q (by omega) (by omega) hp (by omega) (by omega)
    · have hi0 : i ≠ 0 := by
        intro hi0
        apply a1
        refine forced_intro hi hj ?_
        rw [hp1, hq1]
        exact cellForces_top (Or.inl hi0)
      rw [wallGlyph_odd (by omega)]
      exact hhoriz p q (by omega) (by omega) (by omega) (by omega) hq
    · have hi1 : i + 1 ≠ size_y := by
        intro hi1
        apply a1
        refine forced_intro hi hj ?_
        rw [hp1, hq1]
        exact cellForces_bottom (Or.inl hi1)
      rw [wallGlyph_odd (by omega)]
      exact hhoriz p q (by omega) (by omega) (by omega) (by omega) hq
  · exact absurd a2 c2
  · exact absurd c1 a1
  · exact absurd c2 a2
  · simp only at a3 c3
    rw [a3, c3]
    obtain ⟨h1, h2, h3, h4⟩ := untouched_is_inner_corner hx hy hp hq a1 a2
    exact hcorner p q h1 h2 hp h3 h4

/-- The witness of C9 as the code has it: on the 2 x 2 board without walls the fresh buffer
and a buffer with a stale character at the centre `(1, 1)` of a cell satisfy the hypotheses,
and the grids agree at `(1, 1)`, where the buffers differ. -/
theorem write_board_same_grid_witness :
    alloc_board_display 1 1 ≠ bufferCentre 1 1
      ∧ write_board boardEmpty alloc_board_display 2 2 1 1
        = write_board boardEmpty bufferCentre 2 2 1 1 :=
  ⟨by decide,
    write_board_same_grid boardEmpty alloc_board_display bufferCentre 2 2 (by decide)
      (by decide)
      (fun p q h1 h2 _ _ _ => by
        have : ¬ (p = 1 ∧ q = 1) := by omega
        simp [alloc_board_display, bufferCentre, this])
      (fun p q h1 h2 _ _ _ => by
        have : ¬ (p = 1 ∧ q = 1) := by omega
        simp [alloc_board_display, bufferCentre, this])
      (fun p q h1 h2 _ _ _ => by
        have : ¬ (p = 1 ∧ q = 1) := by omega
        simp [alloc_board_display, bufferCentre, this])
      1 1 (by decide) (by decide)⟩

/-! ## C10 -/

/-- C10: `write_board` applied to its own result gives that result again, for every board,
every size and every buffer. The grid it writes is the `(2 size_x + 1)` by `(2 size_y + 1)`
grid of `calc_board_display_sizes`: no character outside it is changed. The board is read
only: `write_board` has no assignment through `board`, so it has no board result. -/
theorem write_board_idempotent (board : Board) (board_o : Buffer) (size_x size_y : Nat) :
    write_board board (write_board board board_o size_x size_y) size_x size_y
        = write_board board board_o size_x size_y
      ∧ calc_board_display_sizes size_x size_y = (2 * size_x + 1, 2 * size_y + 1)
      ∧ ∀ p q, ¬ (q < (calc_board_display_sizes size_x size_y).1
            ∧ p < (calc_board_display_sizes size_x size_y).2) →
          write_board board board_o size_x size_y p q = board_o p q := by
  have hsize : calc_board_display_sizes size_x size_y = (2 * size_x + 1, 2 * size_y + 1) := by
    simp [calc_board_display_sizes, shiftLeft_one]
  refine ⟨?_, hsize, ?_⟩
  · funext p q
    have h := acts_write_board board size_x size_y p q
    rcases h board_o with ⟨a1, a2⟩ | ⟨a1, a2, a3⟩ | ⟨a1, a2, a3⟩ <;>
      rcases h (write_board board board_o size_x size_y) with
        ⟨b1, b2⟩ | ⟨b1, b2, b3⟩ | ⟨b1, b2, b3⟩
    · simp only at a2 b2
      rw [a2, b2]
    · exact absurd a1 b1
    · exact absurd a1 b1
    · exact absurd b1 a1
    · simp only at a3 b3
      rw [b3, a3, keep_wall_idem]
    · exact absurd a2 b2
    · exact absurd b1 a1
    · exact absurd b2 a2
    · simp only at b3
      exact b3
  · intro p q hout
    rw [hsize] at hout
    simp only at hout
    rcases acts_write_board board size_x size_y p q board_o with
      ⟨a1, _⟩ | ⟨_, a2, _⟩ | ⟨_, _, a3⟩
    · exfalso
      obtain ⟨i, hi, j, hj, h⟩ := a1
      rw [List.mem_range] at hi hj
      unfold CellForces at h
      omega
    · exfalso
      obtain ⟨i, hi, j, hj, h⟩ := a2
      rw [List.mem_range] at hi hj
      simp only [CellSoft, or_false] at h
      omega
    · exact a3

/-! ## C11 -/

/-- C11: on a board with at least one cell, whatever the wall flags and whatever the buffer
held, after `write_board` the outer frame is walled: `'|'` at `(2i+1, 0)` and
`(2i+1, 2 size_x)` for every row `i`, `'-'` at `(0, 2j+1)` and `(2 size_y, 2j+1)` for every
column `j`, and, by the corner extension, `'|'` at `(2k, 0)` and `(2k, 2 size_x)` for every
`k` from `0` to `size_y`. -/
theorem write_board_frame (board : Board) (board_o : Buffer) (size_x size_y : Nat)
    (hx : 0 < size_x) (hy : 0 < size_y) :
    (∀ i, i < size_y →
        write_board board board_o size_x size_y (2 * i + 1) 0 = WALLVERT
        ∧ write_board board board_o size_x size_y (2 * i + 1) (2 * size_x) = WALLVERT)
      ∧ (∀ j, j < size_x →
        write_board board board_o size_x size_y 0 (2 * j + 1) = WALLHORIZ
        ∧ write_board board board_o size_x size_y (2 * size_y) (2 * j + 1) = WALLHORIZ)
      ∧ (∀ k, k ≤ size_y →
        write_board board board_o size_x size_y (2 * k) 0 = WALLVERT
        ∧ write_board board board_o size_x size_y (2 * k) (2 * size_x) = WALLVERT) := by
  have hlast : 2 * size_x = 2 * (size_x - 1) + 2 := by omega
  have hbot : 2 * size_y = 2 * (size_y - 1) + 2 := by omega
  refine ⟨fun i hi => ⟨?_, ?_⟩, fun j hj => ⟨?_, ?_⟩, fun k hk => ⟨?_, ?_⟩⟩
  · have hf : Forced board size_x size_y (2 * i + 1) (2 * 0) :=
      forced_intro hi hx (cellForces_left (Or.inl rfl))
    rw [write_board_forced board_o hf, valAt_wall board (Or.inr rfl), wallGlyph_even rfl]
  · have hf : Forced board size_x size_y (2 * i + 1) (2 * (size_x - 1) + 2) :=
      forced_intro hi (by omega) (cellForces_right (Or.inl (by omega)))
    rw [hlast, write_board_forced board_o hf, valAt_wall board (Or.inr (by omega)),
      wallGlyph_even (by omega)]
  · have hf : Forced board size_x size_y (2 * 0) (2 * j + 1) :=
      forced_intro hy hj (cellForces_top (Or.inl rfl))
    rw [write_board_forced board_o hf, valAt_wall board (Or.inl rfl),
      wallGlyph_odd (by omega)]
  · have hf : Forced board size_x size_y (2 * (size_y - 1) + 2) (2 * j + 1) :=
      forced_intro (by omega) hj (cellForces_bottom (Or.inl (by omega)))
    rw [hbot, write_board_forced board_o hf, valAt_wall board (Or.inl (by omega)),
      wallGlyph_odd (by omega)]
  · have hf : Forced board size_x size_y (2 * k) (2 * 0) := by
      by_cases hlt : k < size_y
      · exact forced_intro hlt hx (cellForces_left_corner rfl (Or.inl rfl))
      · exact forced_intro (i := size_y - 1) (by omega) hx
          (cellForces_left_corner rfl (Or.inr (by omega)))
    rw [write_board_forced board_o hf, valAt_wall board (Or.inr rfl), wallGlyph_even rfl]
  · have hf : Forced board size_x size_y (2 * k) (2 * (size_x - 1) + 2) := by
      by_cases hlt : k < size_y
      · exact forced_intro (j := size_x - 1) hlt (by omega)
          (cellForces_right_corner (by omega) (Or.inl rfl))
      · exact forced_intro (i := size_y - 1) (j := size_x - 1) (by omega) (by omega)
          (cellForces_right_corner (by omega) (Or.inr (by omega)))
    rw [hlast, write_board_forced board_o hf, valAt_wall board (Or.inr (by omega)),
      wallGlyph_even (by omega)]

/-- The witness of C11: the 2 x 2 board without wall flags and a buffer with a stale
character; the four sides and a corner of the frame. -/
theorem write_board_frame_witness :
    write_board boardEmpty bufferCentre 2 2 1 0 = WALLVERT
      ∧ write_board boardEmpty bufferCentre 2 2 3 4 = WALLVERT
      ∧ write_board boardEmpty bufferCentre 2 2 0 3 = WALLHORIZ
      ∧ write_board boardEmpty bufferCentre 2 2 4 1 = WALLHORIZ
      ∧ write_board boardEmpty bufferCentre 2 2 2 0 = WALLVERT
      ∧ write_board boardEmpty bufferCentre 2 2 4 4 = WALLVERT :=
  have h := write_board_frame boardEmpty bufferCentre 2 2 (by decide) (by decide)
  ⟨(h.1 0 (by decide)).1, (h.1 1 (by decide)).2, (h.2.1 1 (by decide)).1,
    (h.2.1 0 (by decide)).2, (h.2.2 1 (by decide)).1, (h.2.2 2 (by decide)).2⟩

/-! ## C12 -/

/-- C12: let the line be the interior record `"<index> <mask> [letter]"`, the index token
read by `atoi` as `index` with `index < size_x * size_y`, the mask a token of at least four
characters. Then `set_contents` returns, every cell other than the one at row
`index / size_x`, column `index % size_x` is as it was, and on that cell: the left, top,
right and bottom wall flag is set if character 0, 1, 2, 3 of the mask is `'1'` and is as it
was otherwise; with a third token whose first character is `dest_char` the piece flag is set
and the piece is `dest_char`; without a third token, or with one that begins otherwise, the
piece flag and the piece are as they were; and every higher bit of the contents is as it
was. -/
theorem set_contents_interior_record (board : Board) (size_x size_y dest_char index : Nat)
    (idx mask : List Nat) (letter : Option (List Nat))
    (hidx : IsToken idx) (hatoi : atoi idx = some (index : Int))
    (hrange : index < size_x * size_y) (hmask : IsToken mask) (hlen : 4 ≤ mask.length)
    (hletter : ∀ t, letter = some t → IsToken t) :
    ∃ board1,
      set_contents board size_x size_y (interiorRecord idx mask letter) dest_char = some board1
      ∧ (∀ i j, ¬ (i = index / size_x ∧ j = index % size_x) → board1 i j = board i j)
      ∧ hasFlag (board1 (index / size_x) (index % size_x)).contents HAS_LEFT_WALL
          = (decide (mask[0]? = some 49)
            || hasFlag (board (index / size_x) (index % size_x)).contents HAS_LEFT_WALL)
      ∧ hasFlag (board1 (index / size_x) (index % size_x)).contents HAS_TOP_WALL
          = (decide (mask[1]? = some 49)
            || hasFlag (board (index / size_x) (index % size_x)).contents HAS_TOP_WALL)
      ∧ hasFlag (board1 (index / size_x) (index % size_x)).contents HAS_RIGHT_WALL
          = (decide (mask[2]? = some 49)
            || hasFlag (board (index / size_x) (index % size_x)).contents HAS_RIGHT_WALL)
      ∧ hasFlag (board1 (index / size_x) (index % size_x)).contents HAS_BOTTOM_WALL
          = (decide (mask[3]? = some 49)
            || hasFlag (board (index / size_x) (index % size_x)).contents HAS_BOTTOM_WALL)
      ∧ (∀ t, letter = some t → t.head? = some dest_char →
          hasFlag (board1 (index / size_x) (index % size_x)).contents HAS_PIECE = true
          ∧ (board1 (index / size_x) (index % size_x)).piece = dest_char)
      ∧ ((letter = none ∨ ∃ t, letter = some t ∧ t.head? ≠ some dest_char) →
          hasFlag (board1 (index / size_x) (index % size_x)).contents HAS_PIECE
            = hasFlag (board (index / size_x) (index % size_x)).contents HAS_PIECE
          ∧ (board1 (index / size_x) (index % size_x)).piece
            = (board (index / size_x) (index % size_x)).piece)
      ∧ ∀ k, 5 ≤ k →
          (board1 (index / size_x) (index % size_x)).contents.testBit k
            = (board (index / size_x) (index % size_x)).contents.testBit k := by
  obtain ⟨c1, hset, hbits⟩ := set_contents_record board size_x size_y dest_char index idx mask
    letter hidx hatoi hrange hmask hlen hletter
  refine ⟨_, hset, fun i j hij => setCell_other _ _ _ _ i j hij, ?_, ?_, ?_, ?_, ?_, ?_, ?_⟩
  · rw [setCell_same, hasFlag_left, hasFlag_left, hbits 0]
    cases (board (index / size_x) (index % size_x)).contents.testBit 0 <;> simp
  · rw [setCell_same, hasFlag_top, hasFlag_top, hbits 1]
    cases (board (index / size_x) (index % size_x)).contents.testBit 1 <;> simp
  · rw [setCell_same, hasFlag_right, hasFlag_right, hbits 2]
    cases (board (index / size_x) (index % size_x)).contents.testBit 2 <;> simp
  · rw [setCell_same, hasFlag_bottom, hasFlag_bottom, hbits 3]
    cases (board (index / size_x) (index % size_x)).contents.testBit 3 <;> simp
  · intro t ht hd
    have hl : letterIsDest letter dest_char = true := by simp [letterIsDest, ht, hd]
    rw [setCell_same, hasFlag_piece, hbits 4]
    simp [hl]
  · intro h
    have hl : letterIsDest letter dest_char = false := by
      rcases h with h | ⟨t, ht, hd⟩
      · simp [letterIsDest, h]
      · simp [letterIsDest, ht, hd]
    rw [setCell_same, hasFlag_piece, hasFlag_piece, hbits 4]
    simp [hl]
  · intro k hk
    rw [setCell_same, hbits k]
    have h1 : ¬ k < 4 := by omega
    have h2 : ¬ k = 4 := by omega
    simp [h1, h2]

/-- The witness of C12: on the empty 16 x 16 board the record `"21 0110 M"` with the
destination letter `'M'` writes the cell of row 1, column 5: top and right wall, the piece
flag and the letter. -/
theorem set_contents_interior_record_witness :
    IsToken [50, 49] ∧ atoi [50, 49] = some 21 ∧ IsToken [48, 49, 49, 48] ∧ IsToken [77]
      ∧ ∃ board1,
          set_contents boardEmpty 16 16 [50, 49, 32, 48, 49, 49, 48, 32, 77] 77 = some board1
          ∧ board1 0 5 = ⟨0, 0⟩
          ∧ hasFlag (board1 1 5).contents HAS_LEFT_WALL = false
          ∧ hasFlag (board1 1 5).contents HAS_TOP_WALL = true
          ∧ hasFlag (board1 1 5).contents HAS_RIGHT_WALL = true
          ∧ hasFlag (board1 1 5).contents HAS_BOTTOM_WALL = false
          ∧ hasFlag (board1 1 5).contents HAS_PIECE = true
          ∧ (board1 1 5).piece = 77 := by
  refine ⟨by decide, by decide, by decide, by decide, ?_⟩
  obtain ⟨board1, h1, h2, h3, h4, h5, h6, h7, _, _⟩ :=
    set_contents_interior_record boardEmpty 16 16 77 21 [50, 49] [48, 49, 49, 48] (some [77])
      (by decide) (by decide) (by decide) (by decide) (by decide)
      (fun t ht => by cases ht; decide)
  exact ⟨board1, h1, h2 0 5 (by decide), h3, h4, h5, h6, (h7 [77] rfl rfl).1,
    (h7 [77] rfl rfl).2⟩

/-! ## C13 -/

/-- C13, the code at the failing inputs, on the empty 16 x 16 board. The record `"300 1000"`:
`atoi` gives 300, the row is `300 / 16 = 18`, which is no row of the board, and
`set_contents`, which tests nothing, ORs the wall flag into `board[18][12]`: no defined
result, for the call and for `parse_data` on a level file with this record. The robot line
`"-1"`: `atoi` gives -1, the cell is `board[0][-1]`, and the robot loop of `parse_data`
writes the piece there: no defined result either. The claim says such an index is clamped
or rejected before use. -/
theorem loader_index_unchecked :
    atoi [51, 48, 48] = some 300
      ∧ Int.tdiv 300 16 = 18
      ∧ row_major 16 16 300 = none
      ∧ set_contents boardEmpty 16 16 [51, 48, 48, 32, 49, 48, 48, 48] 77 = none
      ∧ parse_data (some fileRecordOutside) boardEmpty 16 16 = none
      ∧ atoi [45, 49] = some (-1)
      ∧ row_major 16 16 (-1) = none
      ∧ place_robot boardEmpty 16 16 (some [45, 49]) 4 = none
      ∧ parse_data (some fileRobotOutside) boardEmpty 16 16 = none :=
  ⟨by decide, by decide, by decide, Option.isNone_iff_eq_none.mp (by decide),
    Option.isNone_iff_eq_none.mp (by decide), by decide, by decide,
    Option.isNone_iff_eq_none.mp (by decide), Option.isNone_iff_eq_none.mp (by decide)⟩

/-! ## C14 -/

/-- The counterexample to C14. In `fileTwoRobotsOneCell` the lines of robot 1 and of robot 2,
lines 4 and 5 of the 8 lines, both give the index 5, inside the 16 x 16 board. After
`parse_data` the cell of that index, row 0, column 5, holds the glyph `'2'`, not the glyph
`'1'` of robot 1. -/
theorem parse_data_robot_glyph_counterexample :
    (GetLinesFromFile (some fileTwoRobotsOneCell)).map (fun r => (r.1 4, r.1 5, r.2))
        = some (some [53], some [53], 8)
      ∧ atoi [53] = some 5
      ∧ (parse_data (some fileTwoRobotsOneCell) boardEmpty 16 16).map
          (fun r => ((r.1 (5 / 16) (5 % 16)).piece, r.2)) = some (50, 8, 77, 2)
      ∧ (50 : Nat) ≠ 48 + 1 := by
  decide

/-- C14, as the code has it. Let `GetLinesFromFile` return `maxrows` lines, at least four;
let the pass over the lines `2 .. maxrows - 5`, `set_contents` on each in turn with the
letter `'M'`, leave the board `records`; and let, for `robot` from 1 to 4, the line
`maxrows - 4 + robot - 1` give the index `index robot` inside the board. Then `parse_data`
returns, with the letter `'M'` and the robot 2, and on the board it leaves: the cell of the
index of every robot has the piece flag; it holds the glyph `'0' + robot` if no later robot
line gives the same index, whatever `records` held on it, a letter included; the four wall
flags of every cell are those of `records`; and a cell that is the cell of no robot is as in
`records`. -/
theorem parse_data_places_robots (file : Option (List Nat)) (board records : Board)
    (size_x size_y maxrows : Nat) (lines : Lines) (index : Nat → Nat)
    (hfile : GetLinesFromFile file = some (lines, maxrows))
    (hrows : 4 ≤ maxrows)
    (hrecords : parse_data_records lines size_x size_y 77 (List.range' 2 (maxrows - 4 - 2))
      board = some records)
    (hrobots : ∀ robot, 1 ≤ robot → robot ≤ 4 →
      ∃ s, lines (maxrows - 4 + robot - 1) = some s
        ∧ atoi s = some (index robot : Int) ∧ index robot < size_x * size_y) :
    ∃ board1, parse_data file board size_x size_y = some (board1, maxrows, 77, 2)
      ∧ (∀ robot, 1 ≤ robot → robot ≤ 4 →
          hasFlag (board1 (index robot / size_x) (index robot % size_x)).contents HAS_PIECE
            = true)
      ∧ (∀ robot, 1 ≤ robot → robot ≤ 4 →
          (∀ later, robot < later → later ≤ 4 → index later ≠ index robot) →
          (board1 (index robot / size_x) (index robot % size_x)).piece = 48 + robot)
      ∧ (∀ i j,
          hasFlag (board1 i j).contents HAS_LEFT_WALL
              = hasFlag (records i j).contents HAS_LEFT_WALL
            ∧ hasFlag (board1 i j).contents HAS_TOP_WALL
              = hasFlag (records i j).contents HAS_TOP_WALL
            ∧ hasFlag (board1 i j).contents HAS_RIGHT_WALL
              = hasFlag (records i j).contents HAS_RIGHT_WALL
            ∧ hasFlag (board1 i j).contents HAS_BOTTOM_WALL
              = hasFlag (records i j).contents HAS_BOTTOM_WALL)
      ∧ ∀ i j, (∀ robot, 1 ≤ robot → robot ≤ 4 →
            ¬ (i = index robot / size_x ∧ j = index robot % size_x)) →
          board1 i j = records i j := by
  have hks : (List.range MAX_ROBOTS.toNat) = [0, 1, 2, 3] := by decide
  have hmem : ∀ k, k ∈ [0, 1, 2, 3] ↔ k < 4 := by
    intro k
    simp only [List.mem_cons, List.mem_singleton, List.not_mem_nil, or_false]
    omega
  obtain ⟨board1, hret, hother, hbits, _, hset, hglyph⟩ :=
    parse_data_robots_spec lines maxrows size_x size_y (fun k => index (k + 1)) hrows
      [0, 1, 2, 3] records (by decide) (by
        intro k hk
        have hk4 := (hmem k).mp hk
        obtain ⟨s, hs, h⟩ := hrobots (k + 1) (by omega) (by omega)
        exact ⟨s, by rw [← hs]; congr 1, h⟩)
  refine ⟨board1, ?_, ?_, ?_, ?_, ?_⟩
  · simp only [parse_data, hfile, hrecords, hks, hret]
  · intro robot h1 h2
    obtain ⟨k, rfl⟩ : ∃ k, robot = k + 1 := ⟨robot - 1, by omega⟩
    rw [hasFlag_piece]
    exact hset k ((hmem k).mpr (by omega))
  · intro robot h1 h2 hlater
    obtain ⟨k, rfl⟩ : ∃ k, robot = k + 1 := ⟨robot - 1, by omega⟩
    have := hglyph k ((hmem k).mpr (by omega)) (fun m hm hkm =>
      hlater (m + 1) (by omega) (by have := (hmem m).mp hm; omega))
    rw [this]
    omega
  · intro i j
    simp only [hasFlag_left, hasFlag_top, hasFlag_right, hasFlag_bottom]
    exact ⟨hbits i j 0 (by decide), hbits i j 1 (by decide), hbits i j 2 (by decide),
      hbits i j 3 (by decide)⟩
  · intro i j hij
    exact hother i j (fun k hk => hij (k + 1) (by omega) (by have := (hmem k).mp hk; omega))

/-- The witness of C14 as the code has it: `fileLevel` on the empty 16 x 16 board. The
record `"5 1001 M"` has put the letter on the cell of index 5, the line of robot 1 gives the
same index: the cell then holds `'1'` with the piece flag and its left and bottom walls;
robot 2 is on the cell of index 9. -/
theorem parse_data_places_robots_witness :
    boardRecords 0 5 = ⟨25, 77⟩
      ∧ ∃ board1, parse_data (some fileLevel) boardEmpty 16 16 = some (board1, 8, 77, 2)
          ∧ hasFlag (board1 0 5).contents HAS_PIECE = true
          ∧ (board1 0 5).piece = 49
          ∧ hasFlag (board1 0 5).contents HAS_LEFT_WALL = true
          ∧ hasFlag (board1 0 5).contents HAS_TOP_WALL = false
          ∧ hasFlag (board1 0 5).contents HAS_BOTTOM_WALL = true
          ∧ (board1 0 9).piece = 50
          ∧ board1 0 6 = ⟨2, 0⟩ := by
  refine ⟨by decide, ?_⟩
  obtain ⟨board1, h1, h2, h3, h4, h5⟩ :=
    parse_data_places_robots (some fileLevel) boardEmpty boardRecords 16 16 8
      (linesOf fileLevel) (fun robot => [0, 5, 9, 7, 8].getD robot 0)
      getLinesFromFile_fileLevel (by decide)
      (eq_some_boardOr _ boardEmpty (by decide))
      (by
        intro robot hr1 hr2
        interval_cases robot
        · exact ⟨[53], by decide, by decide, by decide⟩
        · exact ⟨[57], by decide, by decide, by decide⟩
        · exact ⟨[55], by decide, by decide, by decide⟩
        · exact ⟨[56], by decide, by decide, by decide⟩)
  refine ⟨board1, h1, h2 1 (by decide) (by decide), ?_, ?_, ?_, ?_, ?_, ?_⟩
  · exact h3 1 (by decide) (by decide) (by
      intro later hl1 hl2
      interval_cases later <;> decide)
  · rw [(h4 0 5).1]
    decide
  · rw [(h4 0 5).2.1]
    decide
  · rw [(h4 0 5).2.2.2]
    decide
  · exact h3 2 (by decide) (by decide) (by
      intro later hl1 hl2
      interval_cases later <;> decide)
  · rw [h5 0 6 (by
      intro robot hr1 hr2
      interval_cases robot <;> decide)]
    decide

/-! ## C15 -/

/-- C15: for every file that opens and holds no NUL character, `GetLinesFromFile` returns an
array `v` and a count `maxrows` such that `maxrows` is the number of non-empty maximal runs of
characters other than `'\n'` and `'\r'`, entry `i` of `v` is the `i`-th such run in file order
for every `i < maxrows`, and every further entry is the null pointer `calloc` left. A last
run without a newline after it is a run like the others. -/
theorem GetLinesFromFile_non_empty_lines (content : List Nat)
    (h : ∀ ch ∈ content, ch ≠ 0) :
    ∃ v maxrows, GetLinesFromFile (some content) = some (v, maxrows)
      ∧ maxrows = (nonEmptyRuns content).length
      ∧ (∀ i, v i = (nonEmptyRuns content)[i]?)
      ∧ (List.range maxrows).map v = (nonEmptyRuns content).map some := by
  have hloop := GetLinesFromFile_loop_spec content [] calloc_lines 0 (by simp) h
  have hid : (List.splitOnP (fun ch => ch == 10 || ch == 13) content).modifyHead
      (fun run => [] ++ run) = List.splitOnP (fun ch => ch == 10 || ch == 13) content := by
    cases List.splitOnP (fun ch => ch == 10 || ch == 13) content <;> simp
  rw [hid] at hloop
  have hv : ∀ i, storeLines calloc_lines 0 (nonEmptyRuns content) i
      = (nonEmptyRuns content)[i]? := by
    intro i
    simp only [storeLines, Nat.not_lt_zero, ↓reduceIte, Nat.sub_zero, calloc_lines]
    cases (nonEmptyRuns content)[i]? <;> rfl
  refine ⟨storeLines calloc_lines 0 (nonEmptyRuns content), (nonEmptyRuns content).length,
    ?_, rfl, hv, ?_⟩
  · simp only [GetLinesFromFile, hloop, nonEmptyRuns, Nat.zero_add]
  · apply List.ext_getElem?
    intro i
    simp only [List.getElem?_map, List.getElem?_range]
    by_cases hi : i < (nonEmptyRuns content).length
    · simp [List.getElem?_range hi, hv, List.getElem?_eq_getElem hi]
    · simp [List.getElem?_eq_none (Nat.le_of_not_lt hi)]
      omega

/-- The witness of C15: the file `"ab\n\r\ncd"`, with an empty line and no newline after the
last line, gives the two lines `"ab"` and `"cd"`. -/
theorem GetLinesFromFile_non_empty_lines_witness :
    (∀ ch ∈ [97, 98, 10, 13, 10, 99, 100], ch ≠ 0)
      ∧ ∃ v maxrows, GetLinesFromFile (some [97, 98, 10, 13, 10, 99, 100]) = some (v, maxrows)
          ∧ maxrows = 2 ∧ v 0 = some [97, 98] ∧ v 1 = some [99, 100] ∧ v 2 = none := by
  refine ⟨by decide, ?_⟩
  obtain ⟨v, maxrows, h1, h2, h3, _⟩ :=
    GetLinesFromFile_non_empty_lines [97, 98, 10, 13, 10, 99, 100] (by decide)
  have hruns : nonEmptyRuns [97, 98, 10, 13, 10, 99, 100] = [[97, 98], [99, 100]] := by
    decide
  rw [hruns] at h2 h3
  exact ⟨v, maxrows, h1, h2, h3 0, h3 1, h3 2⟩

/-! ## C16 -/

/-- The counterexample to C16. On `boardDirty` the letter cell `(1,1)` holds `'B'` with the
piece flag and robot 1, not the winning robot, meets it as the first occupied cell of its
slide down; after the move the top byte of the cell is `'C'`, not the letter. On
`boardOwnStash` the same slide leaves the start cell `(1,0)` with the robot's glyph and the
piece flag. -/
theorem move_robot_stash_counterexample :
    (resultAfter (move_robot 1 KBKEY.KBDOWN boardDirty 3 3 66 2) = POSINFO.NORMAL
        ∧ HoldsRobot boardDirtyOn (1, 1) 1
        ∧ ((cellOf boardDirtyOn (1, 1)).contents >>> 24) % 256 = 67)
      ∧ ((move_robot 1 KBKEY.KBDOWN boardOwnStash 3 3 66 2).isSome = true
        ∧ resultAfter (move_robot 1 KBKEY.KBDOWN boardOwnStash 3 3 66 2) = POSINFO.NORMAL
        ∧ HoldsRobot (boardAfter (move_robot 1 KBKEY.KBDOWN boardOwnStash 3 3 66 2)
            boardOwnStash) (1, 1) 1
        ∧ HoldsRobot (boardAfter (move_robot 1 KBKEY.KBDOWN boardOwnStash 3 3 66 2)
            boardOwnStash) (1, 0) 1) := by
  decide

/-- C16, as the code has it: let the top byte of the contents of the letter cell `c` be zero
and let the start cell of the robot, if it has the encoded-letter flag, not have the robot's
own glyph in its stash byte. For a robot other than the winning robot whose slide runs over
cells without a piece, with no wall in the way, to the cell `t` next to `c`, where `c` has
the piece flag and the glyph `winningPos` in `A..Z`: `move_robot` returns `NORMAL`, `c` then
holds the robot's glyph with the piece flag, has the encoded-letter flag and the letter in
the top byte of its contents, the start cell does not hold the robot, and no other cell has
changed, so the robot has not gone past `c`. -/
theorem move_robot_steps_onto_letter (robot : Int) (d : KBKEY) (board : Board)
    (size_x size_y winningPos : Nat) (winningRobot : Int) (x y : Nat) (t c : Nat × Nat)
    (hr1 : 1 ≤ robot) (hr2 : robot ≤ MAX_ROBOTS) (hrw : robot ≠ winningRobot)
    (hd : ValidDir d) (hw : 65 ≤ winningPos ∧ winningPos ≤ 90)
    (hf : find_robot robot board size_x size_y = some (x, y))
    (hpath : Relation.ReflTransGen (ClearStep board d size_x size_y) (x, y) t)
    (hstep : Step board d size_x size_y t c)
    (hpiece : hasFlag (cellOf board c).contents HAS_PIECE = true)
    (hletter : (cellOf board c).piece = winningPos)
    (hbyte : ((cellOf board c).contents >>> 24) % 256 = 0)
    (hstart : hasFlag (cellOf board (x, y)).contents HAS_ENCODED_LETTER = true →
      ((((cellOf board (x, y)).contents >>> 24) % 256 : Nat) : Int) ≠ 48 + robot) :
    ∃ board1,
      move_robot robot d board size_x size_y winningPos winningRobot
        = some (POSINFO.NORMAL, board1)
      ∧ HoldsRobot board1 c robot
      ∧ hasFlag (cellOf board1 c).contents HAS_ENCODED_LETTER = true
      ∧ ((cellOf board1 c).contents >>> 24) % 256 = winningPos
      ∧ ¬ HoldsRobot board1 (x, y) robot
      ∧ ∀ c2, c2 ≠ (x, y) → c2 ≠ c → cellOf board1 c2 = cellOf board c2 := by
  obtain ⟨_, hh⟩ := find_robot_some hf
  obtain ⟨e, hspec, hmove⟩ :=
    move_robot_spec winningPos winningRobot (by omega) hr2 hd hf
  have hg : (board y x).piece = glyphOf robot := glyphOf_eq (s := (x, y)) hh
  rw [hg] at hspec
  have hr2n : robot ≤ 4 := hr2
  have hfree : FreePath board d size_x size_y (glyphOf robot) (x, y) t := by
    refine Relation.ReflTransGen.mono ?_ hpath
    intro a b hab
    refine ⟨hab.1, fun ho => ?_⟩
    have := ho.1
    rw [hab.2] at this
    exact absurd this (by decide)
  have hoc : OtherPiece board (glyphOf robot) c := by
    refine ⟨hpiece, ?_⟩
    rw [hletter]
    unfold glyphOf
    omega
  have hterm : Terminal board d size_x size_y (glyphOf robot) t := terminal_of_hit hstep hoc
  cases hspec with
  | blocked t2 hpath2 hno =>
    have : t2 = t := terminal_unique hpath2 hfree (terminal_of_no_step hno) hterm
    subst this
    exact (hno c hstep).elim
  | piece t2 c2 hpath2 hstep2 hocc hne =>
    have : t2 = t := terminal_unique hpath2 hfree (terminal_of_hit hstep2 hocc) hterm
    subst this
    have : c2 = c := neighbour_unique hstep2.1 hstep.1
    subst this
    exact (hne hletter).elim
  | win t2 c2 hpath2 hstep2 hocc heq hrob =>
    exact (hrw hrob).elim
  | letter t2 c2 hpath2 hstep2 hocc heq hrob =>
    have : t2 = t := terminal_unique hpath2 hfree (terminal_of_hit hstep2 hocc) hterm
    subst this
    have : c2 = c := neighbour_unique hstep2.1 hstep.1
    subst this
    have hne : c2 ≠ (x, y) := by
      have hocc2 : OtherPiece board (cellOf board (x, y)).piece c2 := by
        show OtherPiece board (board y x).piece c2
        rw [hg]
        exact hocc
      exact otherPiece_ne_start hocc2
    rw [finish_letter board x y hne] at hmove
    refine ⟨_, hmove, holdsRobot_relocate hh _ _, ?_, ?_, ?_,
      fun c3 h1 h2 => relocate_other board _ h1 h2⟩
    · rw [relocate_final board _ hne]
      exact hasFlag_entered_stash_encoded _ _
    · rw [relocate_final board _ hne]
      have hp : (stash (cellOf board c2)).piece = winningPos := hletter
      have h0 : ((cellOf board c2).contents >>> 24) % 256 = 0 := hbyte
      have := top_byte_entered_stash (cellOf board c2) (cellOf board (x, y)).piece h0
        (by rw [hletter]; omega)
      rw [this, hletter]
    · unfold HoldsRobot
      rw [relocate_start board _ hne]
      exact vacated_not_glyph _ robot hstart

/-- The witness of C16 as the code has it: on `boardFourB`, with winning robot 2, robot 1
slides down from `(1,0)` onto the letter `'A'` at `(1,1)`. -/
theorem move_robot_steps_onto_letter_witness :
    ∃ board1,
      move_robot 1 KBKEY.KBDOWN boardFourB 3 3 65 2 = some (POSINFO.NORMAL, board1)
      ∧ HoldsRobot board1 (1, 1) 1
      ∧ hasFlag (cellOf board1 (1, 1)).contents HAS_ENCODED_LETTER = true
      ∧ ((cellOf board1 (1, 1)).contents >>> 24) % 256 = 65
      ∧ ¬ HoldsRobot board1 (1, 0) 1
      ∧ ∀ c2, c2 ≠ (1, 0) → c2 ≠ (1, 1) → cellOf board1 c2 = cellOf boardFourB c2 :=
  move_robot_steps_onto_letter 1 KBKEY.KBDOWN boardFourB 3 3 65 2 1 0 (1, 0) (1, 1)
    (by decide) (by decide) (by decide) validDir_down (by decide) (by decide)
    Relation.ReflTransGen.refl (by decide) (by decide) (by decide) (by decide) (by decide)

/-! ## C17 -/

/-- C17: starting from the buffer `alloc_board_display` returns (all spaces), after
`write_board` the position `(2i+1, 2j+2)` between the cells `(i, j)` and `(i, j+1)` holds
`'|'` if and only if `(i, j)` has the right wall flag or `(i, j+1)` has the left wall flag,
and a space otherwise; and the position `(2i+2, 2j+1)` between `(i, j)` and `(i+1, j)` holds
`'-'` if and only if `(i, j)` has the bottom wall flag or `(i+1, j)` has the top wall flag,
and a space otherwise. -/
theorem write_board_shared_walls (board : Board) (size_x size_y : Nat) :
    (∀ i j, i < size_y → j + 1 < size_x →
        (write_board board alloc_board_display size_x size_y (2 * i + 1) (2 * j + 2) = WALLVERT
          ↔ (hasFlag (board i j).contents HAS_RIGHT_WALL = true
              ∨ hasFlag (board i (j + 1)).contents HAS_LEFT_WALL = true))
        ∧ (¬ (hasFlag (board i j).contents HAS_RIGHT_WALL = true
              ∨ hasFlag (board i (j + 1)).contents HAS_LEFT_WALL = true) →
            write_board board alloc_board_display size_x size_y (2 * i + 1) (2 * j + 2)
              = SPACE))
      ∧ (∀ i j, i + 1 < size_y → j < size_x →
        (write_board board alloc_board_display size_x size_y (2 * i + 2) (2 * j + 1)
            = WALLHORIZ
          ↔ (hasFlag (board i j).contents HAS_BOTTOM_WALL = true
              ∨ hasFlag (board (i + 1) j).contents HAS_TOP_WALL = true))
        ∧ (¬ (hasFlag (board i j).contents HAS_BOTTOM_WALL = true
              ∨ hasFlag (board (i + 1) j).contents HAS_TOP_WALL = true) →
            write_board board alloc_board_display size_x size_y (2 * i + 2) (2 * j + 1)
              = SPACE)) := by
  constructor
  · intro i j hi hj
    have hyes : Forced board size_x size_y (2 * i + 1) (2 * j + 2) →
        write_board board alloc_board_display size_x size_y (2 * i + 1) (2 * j + 2)
          = WALLVERT := by
      intro hf
      rw [write_board_forced _ hf, valAt_wall board (Or.inr (by omega)),
        wallGlyph_even (by omega)]
    have hno : ¬ Forced board size_x size_y (2 * i + 1) (2 * j + 2) →
        write_board board alloc_board_display size_x size_y (2 * i + 1) (2 * j + 2)
          = SPACE := by
      intro hf
      rw [write_board_soft _ hf (soft_intro hi (by omega) cellSoft_right),
        wallGlyph_even (by omega)]
      rfl
    rw [← forced_vertical_iff hi hj]
    refine ⟨⟨fun h => ?_, hyes⟩, hno⟩
    by_contra hf
    rw [hno hf] at h
    exact absurd h (by decide)
  · intro i j hi hj
    have hyes : Forced board size_x size_y (2 * i + 2) (2 * j + 1) →
        write_board board alloc_board_display size_x size_y (2 * i + 2) (2 * j + 1)
          = WALLHORIZ := by
      intro hf
      rw [write_board_forced _ hf, valAt_wall board (Or.inl (by omega)),
        wallGlyph_odd (by omega)]
    have hno : ¬ Forced board size_x size_y (2 * i + 2) (2 * j + 1) →
        write_board board alloc_board_display size_x size_y (2 * i + 2) (2 * j + 1)
          = SPACE := by
      intro hf
      rw [write_board_soft _ hf (soft_intro (by omega) hj cellSoft_bottom),
        wallGlyph_odd (by omega)]
      rfl
    rw [← forced_horizontal_iff hi hj]
    refine ⟨⟨fun h => ?_, hyes⟩, hno⟩
    by_contra hf
    rw [hno hf] at h
    exact absurd h (by decide)

/-- The witness of C17: on `boardWalls` the right flag of `(0,0)` gives `'|'` at `(1,2)`, the
top flag of `(1,1)` gives `'-'` at `(2,3)`, and the two other inner wall positions hold a
space. -/
theorem write_board_shared_walls_witness :
    write_board boardWalls alloc_board_display 2 2 1 2 = WALLVERT
      ∧ write_board boardWalls alloc_board_display 2 2 2 3 = WALLHORIZ
      ∧ write_board boardWalls alloc_board_display 2 2 3 2 = SPACE
      ∧ write_board boardWalls alloc_board_display 2 2 2 1 = SPACE :=
  have h := write_board_shared_walls boardWalls 2 2
  ⟨(h.1 0 0 (by decide) (by decide)).1.mpr (by decide),
    (h.2 0 1 (by decide) (by decide)).1.mpr (by decide),
    (h.1 1 0 (by decide) (by decide)).2 (by decide),
    (h.2 0 0 (by decide) (by decide)).2 (by decide)⟩

/-! ## C18 -/

/-- C18: for every board, every size, every prior buffer and every cell `(i, j)` of the
board, after `write_board` the position `(2i+1, 2j+1)` holds the piece glyph of the cell if
its piece flag is set and `'.'` otherwise, whatever glyph the piece field of a cell without
the piece flag still holds. -/
theorem write_board_centre (board : Board) (board_o : Buffer) (size_x size_y i j : Nat)
    (hi : i < size_y) (hj : j < size_x) :
    (hasFlag (board i j).contents HAS_PIECE = true →
        write_board board board_o size_x size_y (2 * i + 1) (2 * j + 1) = (board i j).piece)
      ∧ (hasFlag (board i j).contents HAS_PIECE = false →
        write_board board board_o size_x size_y (2 * i + 1) (2 * j + 1) = NOPIECE) := by
  have hf : Forced board size_x size_y (2 * i + 1) (2 * j + 1) :=
    forced_intro hi hj cellForces_centre
  rw [write_board_forced board_o hf, valAt_centre]
  unfold cellGlyph
  constructor
  · intro h
    rw [if_pos h]
  · intro h
    rw [if_neg (by rw [h]; decide)]

/-- The witness of C18: on `board3b` the cell `(0,2)` holds robot 1 and shows `'1'`, and the
cell `(0,0)`, which robot 1 has left with its glyph still in the piece field, shows `'.'`. -/
theorem write_board_centre_witness :
    (board3b 0 0).piece = 49
      ∧ write_board board3b bufferCentre 3 3 1 1 = NOPIECE
      ∧ write_board board3b bufferCentre 3 3 1 5 = 49 :=
  ⟨by decide,
    (write_board_centre board3b bufferCentre 3 3 0 0 (by decide) (by decide)).2 (by decide),
    (write_board_centre board3b bufferCentre 3 3 0 2 (by decide) (by decide)).1 (by decide)⟩

/-! ## C19 -/

/-- C19: with a valid robot that is on the board, whatever the direction and the destination
letter, `move_robot` returns and the board it leaves differs from the board it found in at
most two cells, the cell where the robot started and the cell `final` on which the robot
then is; and on no cell has any of the four wall flags changed. -/
theorem move_robot_frame (robot : Int) (d : KBKEY) (board : Board)
    (size_x size_y winningPos : Nat) (winningRobot : Int) (x y : Nat)
    (hr1 : 1 ≤ robot) (hr2 : robot ≤ MAX_ROBOTS)
    (hf : find_robot robot board size_x size_y = some (x, y)) :
    ∃ res board1 final,
      move_robot robot d board size_x size_y winningPos winningRobot = some (res, board1)
      ∧ HoldsRobot board1 final robot
      ∧ (∀ c, c ≠ (x, y) → c ≠ final → cellOf board1 c = cellOf board c)
      ∧ ∀ c,
          hasFlag (cellOf board1 c).contents HAS_LEFT_WALL
              = hasFlag (cellOf board c).contents HAS_LEFT_WALL
            ∧ hasFlag (cellOf board1 c).contents HAS_TOP_WALL
              = hasFlag (cellOf board c).contents HAS_TOP_WALL
            ∧ hasFlag (cellOf board1 c).contents HAS_RIGHT_WALL
              = hasFlag (cellOf board c).contents HAS_RIGHT_WALL
            ∧ hasFlag (cellOf board1 c).contents HAS_BOTTOM_WALL
              = hasFlag (cellOf board c).contents HAS_BOTTOM_WALL := by
  obtain ⟨_, hh⟩ := find_robot_some hf
  have hl : IsWallFlag HAS_LEFT_WALL := Or.inl rfl
  have ht : IsWallFlag HAS_TOP_WALL := Or.inr (Or.inl rfl)
  have hr : IsWallFlag HAS_RIGHT_WALL := Or.inr (Or.inr (Or.inl rfl))
  have hb : IsWallFlag HAS_BOTTOM_WALL := Or.inr (Or.inr (Or.inr rfl))
  by_cases hd : ValidDir d
  · obtain ⟨e, hspec, hmove⟩ :=
      move_robot_spec winningPos winningRobot (by omega) hr2 hd hf
    have hplain : ∀ t, finish x y e
          = (POSINFO.NORMAL, relocate board (x, y) t (cellOf board t)) →
        ∃ res board1 final,
          move_robot robot d board size_x size_y winningPos winningRobot = some (res, board1)
          ∧ HoldsRobot board1 final robot
          ∧ (∀ c, c ≠ (x, y) → c ≠ final → cellOf board1 c = cellOf board c)
          ∧ ∀ c,
              hasFlag (cellOf board1 c).contents HAS_LEFT_WALL
                  = hasFlag (cellOf board c).contents HAS_LEFT_WALL
                ∧ hasFlag (cellOf board1 c).contents HAS_TOP_WALL
                  = hasFlag (cellOf board c).contents HAS_TOP_WALL
                ∧ hasFlag (cellOf board1 c).contents HAS_RIGHT_WALL
                  = hasFlag (cellOf board c).contents HAS_RIGHT_WALL
                ∧ hasFlag (cellOf board1 c).contents HAS_BOTTOM_WALL
                  = hasFlag (cellOf board c).contents HAS_BOTTOM_WALL := by
      intro t hfin
      rw [hfin] at hmove
      exact ⟨_, _, t, hmove, holdsRobot_relocate hh _ _,
        fun c h1 h2 => relocate_other board _ h1 h2,
        fun c => ⟨hasFlag_relocate_wall hl board _ t _ rfl c,
          hasFlag_relocate_wall ht board _ t _ rfl c,
          hasFlag_relocate_wall hr board _ t _ rfl c,
          hasFlag_relocate_wall hb board _ t _ rfl c⟩⟩
    cases hspec with
    | blocked t hpath hno => exact hplain t (finish_plain board x y t)
    | piece t c hpath hstep hocc hne => exact hplain t (finish_plain board x y t)
    | win t c hpath hstep hocc heq hrob =>
      exact ⟨_, _, (x, y), hmove, hh, fun _ _ _ => rfl, fun _ => ⟨rfl, rfl, rfl, rfl⟩⟩
    | letter t c hpath hstep hocc heq hrob =>
      rw [finish_letter board x y (otherPiece_ne_start (s := (x, y)) hocc)] at hmove
      exact ⟨_, _, c, hmove, holdsRobot_relocate hh _ _,
        fun c h1 h2 => relocate_other board _ h1 h2,
        fun c2 => ⟨hasFlag_relocate_wall hl board _ c _ (hasFlag_stash_wall hl _) c2,
          hasFlag_relocate_wall ht board _ c _ (hasFlag_stash_wall ht _) c2,
          hasFlag_relocate_wall hr board _ c _ (hasFlag_stash_wall hr _) c2,
          hasFlag_relocate_wall hb board _ c _ (hasFlag_stash_wall hb _) c2⟩⟩
  · exact ⟨_, _, (x, y),
      move_robot_bad_direction board size_x size_y winningPos winningRobot hr1 hr2 hd,
      hh, fun _ _ _ => rfl, fun _ => ⟨rfl, rfl, rfl, rfl⟩⟩

/-- The witness of C19: robot 1 slides down on `boardWall`, whose start cell has the right
wall flag and a piece. -/
theorem move_robot_frame_witness :
    ∃ res board1 final,
      move_robot 1 KBKEY.KBDOWN boardWall 3 3 65 2 = some (res, board1)
      ∧ HoldsRobot board1 final 1
      ∧ (∀ c, c ≠ (0, 0) → c ≠ final → cellOf board1 c = cellOf boardWall c)
      ∧ ∀ c,
          hasFlag (cellOf board1 c).contents HAS_LEFT_WALL
              = hasFlag (cellOf boardWall c).contents HAS_LEFT_WALL
            ∧ hasFlag (cellOf board1 c).contents HAS_TOP_WALL
              = hasFlag (cellOf boardWall c).contents HAS_TOP_WALL
            ∧ hasFlag (cellOf board1 c).contents HAS_RIGHT_WALL
              = hasFlag (cellOf boardWall c).contents HAS_RIGHT_WALL
            ∧ hasFlag (cellOf board1 c).contents HAS_BOTTOM_WALL
              = hasFlag (cellOf boardWall c).contents HAS_BOTTOM_WALL :=
  move_robot_frame 1 KBKEY.KBDOWN boardWall 3 3 65 2 0 0 (by decide) (by decide) (by decide)

/-! ## C20 -/

/-- C20, the code at the failing input: on `boardNoRobot`, where no cell holds robot 1,
`find_robot` finds nothing and `move_robot` with the valid id 1 and the valid direction
`KBUP` has no defined result: the test of line 573 looks at `robot`, not at the pointer
`find_robot` returned, so the loop reads the board through the unassigned `x` and `y`. The
claim says it returns `NORMAL` with the board unchanged. -/
theorem move_robot_missing_robot_undefined :
    find_robot 1 boardNoRobot 3 3 = none
      ∧ move_robot 1 KBKEY.KBUP boardNoRobot 3 3 65 1 = none :=
  ⟨by decide,
    move_robot_not_found 65 1 (by decide) (by decide) (Or.inl rfl) (by decide)⟩

end MinUI
